import Mathlib

/-!
Verification of the tensorgrad expression-graph library.

The repository consists of `main.py` (end-to-end drivers with assertions),
`tensorgrad/functions.py` (tensor combinators: `frobenius2`, `einsum`,
`diag`, `sum`, the `Elementwise` function nodes `log` / `exp` / `pow`, and
the unfinished `gt` / `max`), and `tests/test_functions.py`.  The graph
core (`tensorgrad/tensor.py`: the node variants `Variable`, `Copy`,
`Zero`, `Ones`, `Product`, `Sum`, the renaming pass `make_distinct`, the
differentiation pass `grad`, the simplification pass `simplify` and the
numeric evaluator) is not part of the source tree; those parts are
modelled from the specification (sections 3, 4.2, 4.3, 4.4, 4.5 of the
spec) and each such definition carries a doc comment saying so.

Edges are plain strings.  Evaluation interprets a graph as a rational
valued named tensor: an assignment maps every edge name to an index, an
environment maps every variable name to a function of the assignment of
its declared edges, and products sum over the edges shared by exactly two
factors.
-/

/-- The derivative marker character, an ASCII apostrophe. -/
def mark : Char := Char.ofNat 39

/-- The derivative marker as a string: priming an edge appends it. -/
def marker : String := String.mk [mark]

/-- An underscore character, used by the deterministic fresh-name scheme. -/
def usc : Char := Char.ofNat 95

/-- A run of `n` underscores. -/
def underscores (n : Nat) : String := String.mk (List.replicate n usc)

/-- The largest length of a string in `l` (0 for the empty list). -/
def maxLen (l : List String) : Nat := l.foldr (fun s m => Nat.max s.length m) 0

/-- Modelled from the spec (section 4.2, `make_distinct` is not in src):
the deterministic suffixing scheme that generates a fresh edge name.  The
generated name is `e` followed by more underscores than the longest name in
the working universe `used`, hence it never re-introduces a used name. -/
def freshName (used : List String) (e : String) : String :=
  e ++ underscores (maxLen used + 1)

/-- Look up `e` in an association list of renames; identity when absent. -/
def applyRen (σ : List (String × String)) (e : String) : String :=
  match σ.find? (fun pr => pr.1 == e) with
  | some pr => pr.2
  | none => e

/-- Look up `e` in an association list, as an option (`e in rename` test). -/
def findRen (σ : List (String × String)) (e : String) : Option String :=
  (σ.find? (fun pr => pr.1 == e)).map Prod.snd

/-- The defunctionalised elementwise maps occurring in
`tensorgrad/functions.py`: `log`, `exp` and `pow(k)`.  The forward torch
callables are interpreted by an explicit parameter of the evaluator; the
stored derivative rules are `ElemFn.deriv` below. -/
inductive ElemFn where
  | log
  | exp
  | powk (k : Int)
deriving DecidableEq

/-- Modelled from the spec (section 3, the node variants of `tensor.py`
are not in src): the tensor expression graph.  A `variable_` keeps both
its declared (`orig`) edge names, which bindings are keyed by, and its
current free edge names, so renaming a variable does not lose the link to
its binding.  `sumT` is the linear combination node with integer
coefficients.  `elem` is an `Elementwise` function node of
`functions.py`: a `Function` with no declared input and no declared output
edges, wrapping one inner tensor. -/
inductive Tensor where
  | variable_ (name : String) (orig : List String) (edges : List String)
  | copy (edges : List String)
  | zero (edges : List String)
  | ones (edges : List String)
  | prod (factors : List Tensor)
  | sumT (terms : List (Int × Tensor))
  | elem (name : String) (fn : ElemFn) (inner : Tensor)

mutual
/-- Modelled from the spec (sections 3 and 4.1): the free edges of a node.
For a product, an edge name occurring in exactly two factors is contracted
away and an edge occurring in exactly one factor stays free; the free list
keeps the first-occurrence order of the factors.  All terms of a sum share
one free-edge set, so the sum exposes its first term's edges. -/
def freeEdges : Tensor → List String
  | .variable_ _ _ es => es
  | .copy es => es
  | .zero es => es
  | .ones es => es
  | .prod fs =>
    let occ := occsOf fs
    occ.dedup.filter (fun e => occ.count e = 1)
  | .sumT ts =>
    match ts with
    | [] => []
    | (_, t) :: _ => freeEdges t
  | .elem _ _ t => freeEdges t

/-- The concatenation of the free-edge lists of a list of factors. -/
def occsOf : List Tensor → List String
  | [] => []
  | t :: ts => freeEdges t ++ occsOf ts
end

/-- The edges of a product contracted away: names used by exactly two
factors. -/
def innerEdges (fs : List Tensor) : List String :=
  let occ := occsOf fs
  occ.dedup.filter (fun e => occ.count e = 2)

mutual
/-- Every edge name written anywhere in the graph (current names only;
the `orig` binding keys of variables are not graph edges). -/
def namesOf : Tensor → List String
  | .variable_ _ _ es => es
  | .copy es => es
  | .zero es => es
  | .ones es => es
  | .prod fs => namesOfL fs
  | .sumT ts => namesOfT ts
  | .elem _ _ t => namesOf t

/-- `namesOf` over a factor list. -/
def namesOfL : List Tensor → List String
  | [] => []
  | t :: ts => namesOf t ++ namesOfL ts

/-- `namesOf` over a term list. -/
def namesOfT : List (Int × Tensor) → List String
  | [] => []
  | (_, t) :: ts => namesOf t ++ namesOfT ts
end

mutual
/-- Modelled from the spec (section 4.1, `rename` of `tensor.py` is not
in src): apply an edge-name map to every edge of the graph.  Contracted
inner edges are scoped per product, so the simultaneous application keeps
every contraction intact; a variable's `orig` list is untouched, only its
current names change (this is the full rename that the src comment in
`functions.py` line 26 calls overkill for `make_distinct`). -/
def renameF (f : String → String) : Tensor → Tensor
  | .variable_ n o es => .variable_ n o (es.map f)
  | .copy es => .copy (es.map f)
  | .zero es => .zero (es.map f)
  | .ones es => .ones (es.map f)
  | .prod fs => .prod (renameFL f fs)
  | .sumT ts => .sumT (renameFT f ts)
  | .elem n g t => .elem n g (renameF f t)

/-- `renameF` over a factor list. -/
def renameFL (f : String → String) : List Tensor → List Tensor
  | [] => []
  | t :: ts => renameF f t :: renameFL f ts

/-- `renameF` over a term list. -/
def renameFT (f : String → String) : List (Int × Tensor) → List (Int × Tensor)
  | [] => []
  | (c, t) :: ts => (c, renameF f t) :: renameFT f ts
end

/-- Modelled from the spec (section 4.2): rename map for one node.  Every
free edge that collides (with a reserved name or another node's free edge,
decided by `coll`) gets a fresh name; the working universe `used` is
threaded so that successive fresh names stay distinct.  Returns the
per-node rename map together with the grown universe. -/
def mkSigma (coll : String → Bool) : List String → List String → List (String × String) × List String
  | used, [] => ([], used)
  | used, e :: es =>
    if coll e then
      ((e, freshName used e) :: (mkSigma coll (freshName used e :: used) es).1,
        (mkSigma coll (freshName used e :: used) es).2)
    else
      ((e, e) :: (mkSigma coll used es).1, (mkSigma coll used es).2)

/-- Modelled from the spec (section 4.2): process the nodes in order,
renaming each node's colliding free edges to fresh names and accumulating
the per-node maps. -/
def mdAux (coll : String → Bool) : List String → List Tensor → List Tensor × List (List (String × String))
  | _, [] => ([], [])
  | used, t :: ts =>
    (renameF (applyRen (mkSigma coll used (freeEdges t)).1) t ::
        (mdAux coll (mkSigma coll used (freeEdges t)).2 ts).1,
      (mkSigma coll used (freeEdges t)).1 ::
        (mdAux coll (mkSigma coll used (freeEdges t)).2 ts).2)

/-- Free-edge names used by at least two of the given nodes. -/
def sharedNames (tensors : List Tensor) : List String :=
  let occ := occsOf tensors
  occ.dedup.filter (fun e => 2 ≤ occ.count e)

/-- Modelled from the spec (section 4.2, `make_distinct` of `tensor.py`
is not in src): produce copies of the nodes whose free edges avoid the
reserved `used_names` and each other, together with the per-node rename
maps.  A free edge is renamed when it collides with a reserved name or
with another node's free edge; fresh names avoid the whole working
universe, which starts as the reserved names plus every name written in
the input graphs. -/
def make_distinct (tensors : List Tensor) (used_names : List String) : List Tensor × List (List (String × String)) :=
  let coll := fun e => used_names.contains e || (sharedNames tensors).contains e
  mdAux coll (used_names ++ tensors.foldr (fun t acc => namesOf t ++ acc) []) tensors

/-- The join construction shared by `einsum` (and the broadcast product
used by the derivative of an elementwise node): rename all inputs apart,
then reconnect every original free edge through a `Copy` node, keeping the
edge free exactly when it is listed in `outE`.  This is the body of
`einsum` in `functions.py` lines 24–35. -/
def joinNet (tensors : List Tensor) (outE : List String) : Tensor :=
  let all_free_edges := (occsOf tensors).dedup
  let (dis_tensors, renames) := make_distinct tensors all_free_edges
  let joins := all_free_edges.map (fun e =>
    Tensor.copy ((renames.filterMap (fun σ => findRen σ e)) ++ (if e ∈ outE then [e] else [])))
  Tensor.prod (dis_tensors ++ joins)

/-- The collision test used by `joinNet`'s renaming step. -/
def jnColl (tensors : List Tensor) : String → Bool :=
  fun e => ((occsOf tensors).dedup).contains e || (sharedNames tensors).contains e

/-- The initial working universe of `joinNet`'s renaming step. -/
def jnU0 (tensors : List Tensor) : List String :=
  (occsOf tensors).dedup ++ namesOfL tensors

/-- The renamed copies produced inside `joinNet`. -/
def jnDs (tensors : List Tensor) : List Tensor :=
  (mdAux (jnColl tensors) (jnU0 tensors) tensors).1

/-- The per-node rename maps produced inside `joinNet`. -/
def jnSs (tensors : List Tensor) : List (List (String × String)) :=
  (mdAux (jnColl tensors) (jnU0 tensors) tensors).2

/-- The renamed copies of one original free-edge name, across all
nodes. -/
def jnTe (tensors : List Tensor) (e : String) : List String :=
  (jnSs tensors).filterMap (fun σ => findRen σ e)

/-- The `Copy` join nodes of `joinNet`, one per listed name. -/
def jnJoins (tensors : List Tensor) (outE : List String) (ns : List String) : List Tensor :=
  ns.map (fun e => Tensor.copy (jnTe tensors e ++ (if e ∈ outE then [e] else [])))

/-- Error kinds raised by the combinators in `functions.py` and, per the
spec (section 7), by the validating constructors of the graph core. -/
inductive TgError where
  | valueError
  | notImplementedError
  | invariantViolation
deriving DecidableEq

/-- Modelled from the spec (section 3 invariant 1, sections 4.1 and 7,
the `Copy` constructor of `tensor.py` is not in src): constructing a
`Copy` node validates its edge list and fails with `InvariantViolation`
(duplicate free edge on one node) when a name repeats.  The graph-building
passes modelled below only ever construct `Copy` nodes with pairwise
distinct edges (single-edge nodes in `sum`, fresh pairwise-distinct names
in `joinNet` and `gradAux`), so routing them through this constructor
would never fail; `diag` is the one combinator that passes caller-supplied
names straight into a `Copy` node, so it is modelled through this
validating constructor. -/
def Copy (es : List String) : Except TgError Tensor :=
  if es.Nodup then .ok (.copy es) else .error .invariantViolation

namespace functions

/-- `frobenius2` from `functions.py`: the product of a tensor with
itself, contracting every edge. -/
def frobenius2 (t : Tensor) : Tensor := Tensor.prod [t, t]

/-- `einsum` from `functions.py`: rejects duplicated output edges, then
renames the inputs apart and joins them with `Copy` nodes so that exactly
the requested output edges stay free. -/
def einsum (tensors : List Tensor) (output_edges : List String) : Except TgError Tensor :=
  if output_edges.Nodup then .ok (joinNet tensors output_edges)
  else .error .valueError

/-- `diag` from `functions.py`: takes a vector and builds the diagonal
tensor over `new_edges`, renaming the vector's edge away from `new_edges`
when it collides.  The `Copy` node over `new_edges ++ t.edges` goes
through the validating constructor, which raises `InvariantViolation`
when `new_edges` repeats a name (spec section 3 invariant 1). -/
def diag (t : Tensor) (new_edges : List String) : Except TgError Tensor :=
  if (freeEdges t).length ≠ 1 then .error .valueError
  else
    let t2 := (make_distinct [t] new_edges).1.headD t
    (Copy (new_edges ++ freeEdges t2)).map (fun c => Tensor.prod [c, t2])

/-- `sum` from `functions.py`: sum the tensor over the given dimensions
by multiplying with a single-edge `Copy` per summed edge.  The Python
default `edges or tensor.edges` treats an empty list the same as the
`None` default and sums over every edge. -/
def sum (tensor : Tensor) (edges : List String) (keepdims : Bool := false) : Tensor :=
  let es := if edges.isEmpty then freeEdges tensor else edges
  let out := Tensor.prod (tensor :: es.map (fun e => Tensor.copy [e]))
  if keepdims then Tensor.prod [out, Tensor.ones es] else out

/-- `trace` from `functions.py`: contract all edges with one `Copy`. -/
def trace (tensor : Tensor) : Tensor :=
  Tensor.prod [tensor, Tensor.copy (freeEdges tensor)]

/-- `pow` from `functions.py`: elementwise `t ^ k`; `k = 0` returns the
all-ones tensor over `t`'s edges instead of a function node. -/
def pow (tensor : Tensor) (k : Int) : Tensor :=
  if k = 0 then Tensor.ones (freeEdges tensor)
  else Tensor.elem ("pow(" ++ toString k ++ ")") (.powk k) tensor

/-- `log` from `functions.py`. -/
def log (t : Tensor) : Tensor := Tensor.elem "log" .log t

/-- `exp` from `functions.py`. -/
def exp (t : Tensor) : Tensor := Tensor.elem "exp" .exp t

/-- `gt` from `functions.py`: the body only defines an inner class and
never instantiates or returns it, so the Python function returns `None`;
no tensor value is produced for any input. -/
def gt (_x _y : Tensor) : Option Tensor := none

/-- `max` from `functions.py`: the body defines an inner class and then
unconditionally raises `NotImplementedError`. -/
def max (_t : Tensor) (_dims : List String) : Except TgError Tensor :=
  .error .notImplementedError

/-- `Elementwise.update_edge_dims` from `functions.py` lines 95–101: with
`union` the merged known shapes of the node and its inner tensor, yield
for every inner edge with a known dimension one entry for the inner
tensor (`false`) and one for the node itself (`true`), both carrying the
same dimension — dimensions are propagated, not edges. -/
def update_edge_dims (union : List (String × Nat)) (tEdges : List String) : List (Bool × String × Nat) :=
  tEdges.foldr (fun e acc =>
    match (union.find? (fun pr => pr.1 == e)).map Prod.snd with
    | some d => (false, e, d) :: (true, e, d) :: acc
    | none => acc) []

end functions

/-- The stored local-derivative rules of the elementwise nodes in
`functions.py`: `log ↦ pow(t, -1)`, `exp ↦ exp(t)`,
`pow(k) ↦ k * pow(t, k - 1)` (the scalar multiple is a one-term sum). -/
def ElemFn.deriv : ElemFn → Tensor → Tensor
  | .log, t => functions.pow t (-1)
  | .exp, t => functions.exp t
  | .powk k, t => Tensor.sumT [(k, functions.pow t (k - 1))]

/-- The broadcast (Hadamard) product of two graphs: the join construction
with every free edge of either argument kept free. -/
def hadamard (a b : Tensor) : Tensor :=
  joinNet [a, b] ((freeEdges a ++ freeEdges b).dedup)

/-- Modelled from the spec (section 4.3): one primed name for edge `e`,
appending derivative markers until the name avoids `used` (so
differentiating a second time yields a doubly marked name). -/
def primeAux : Nat → List String → String → String
  | 0, _, e => e ++ marker
  | n + 1, used, e =>
    if (e ++ marker) ∈ used then primeAux n used (e ++ marker) else e ++ marker

/-- The primed counterpart of `e` avoiding `used`. -/
def primeName (used : List String) (e : String) : String :=
  primeAux used.length used e

/-- Primed names for all edges of the differentiation variable, threaded
so distinct edges receive distinct primed names. -/
def mkPrimes : List String → List String → List (String × String)
  | _, [] => []
  | used, e :: es =>
    let p := primeName used e
    (e, p) :: mkPrimes (p :: used) es

mutual
/-- Modelled from the spec (section 4.3, `grad` of `tensor.py` is not in
src): the derivative graph with respect to the variable named `vn` with
declared edges `vo`, where `σ` maps each edge of `vo` to its primed name.
Rules: the variable itself becomes a product of `Copy` nodes connecting
each edge to its primed counterpart; any other leaf becomes `Zero` over
its edges plus the primed ones; sums are differentiated termwise;
products follow the product rule; an elementwise function node invokes
its stored local-derivative rule (with no new edges, since an elementwise
node declares no input edges) and composes it with the inner derivative
by a broadcast product.  The renaming step of section 4.3 is the identity
here because the primed names are chosen fresh for the whole graph. -/
def gradAux (σ : List (String × String)) (vn : String) (vo : List String) : Tensor → Tensor
  | .variable_ n o es =>
    if n = vn ∧ o = vo then
      Tensor.prod (es.map (fun e => Tensor.copy [e, applyRen σ e]))
    else
      Tensor.zero (es ++ vo.map (applyRen σ))
  | .copy es => Tensor.zero (es ++ vo.map (applyRen σ))
  | .zero es => Tensor.zero (es ++ vo.map (applyRen σ))
  | .ones es => Tensor.zero (es ++ vo.map (applyRen σ))
  | .prod fs => Tensor.sumT ((gradTerms σ vn vo fs).map (fun l => ((1 : Int), Tensor.prod l)))
  | .sumT ts => Tensor.sumT (gradSum σ vn vo ts)
  | .elem _ f t => hadamard (ElemFn.deriv f t) (gradAux σ vn vo t)

/-- The product rule: one factor list per term, the i-th with its i-th
factor differentiated and all others held fixed. -/
def gradTerms (σ : List (String × String)) (vn : String) (vo : List String) : List Tensor → List (List Tensor)
  | [] => []
  | t :: ts => (gradAux σ vn vo t :: ts) :: (gradTerms σ vn vo ts).map (fun l => t :: l)

/-- Termwise differentiation of a sum, keeping coefficients. -/
def gradSum (σ : List (String × String)) (vn : String) (vo : List String) : List (Int × Tensor) → List (Int × Tensor)
  | [] => []
  | (c, t) :: ts => (c, gradAux σ vn vo t) :: gradSum σ vn vo ts
end

/-- Modelled from the spec (section 4.3): `grad(node, withRespectTo)`.
The primed names are chosen to avoid every name in the graph, so repeated
differentiation appends repeated markers and the product rule needs no
further renaming. -/
def grad (t : Tensor) (vn : String) (vo : List String) : Tensor :=
  gradAux (mkPrimes (namesOf t) vo) vn vo t

/-- Point update of an index assignment. -/
def updF (ι : String → Nat) (e : String) (v : Nat) : String → Nat :=
  fun x => if x = e then v else ι x

/-- Iterated summation of `f` over all index combinations of the listed
edges, each ranging over its dimension. -/
def sumOver (dims : String → Nat) : List String → (String → Nat) → ((String → Nat) → Rat) → Rat
  | [], ι, f => f ι
  | e :: es, ι, f => Finset.sum (Finset.range (dims e)) (fun v => sumOver dims es (updF ι e v) f)

/-- The current name of a variable's declared edge `e` (positional match
of the `orig` and current edge lists; identity when absent). -/
def lookupEdge : List String → List String → String → String
  | o :: os, c :: cs, e => if o = e then c else lookupEdge os cs e
  | _, _, e => e

mutual
/-- Modelled from the spec (section 4.5, the evaluator of `tensor.py` is
not in src): the rational value of a graph at the index assignment `ι`.
`dims` gives every edge name its dimension, `env` gives every variable
name its binding as a function of the assignment of its declared edges,
and `appF` interprets the numeric callables of the elementwise nodes.  A
variable reads its binding through the positional correspondence of
declared and current edges; a `Copy` is 1 exactly when all its edges
carry equal indices; a product sums the product of its factors over its
contracted edges; a sum is the coefficient-weighted combination; an
elementwise node applies its callable pointwise. -/
def eval (dims : String → Nat) (env : String → (String → Nat) → Rat) (appF : ElemFn → Rat → Rat) : (String → Nat) → Tensor → Rat
  | ι, .variable_ n o es => env n (fun oe => ι (lookupEdge o es oe))
  | ι, .copy es =>
    match es with
    | [] => 1
    | e :: rest => if rest.all (fun x => ι x == ι e) then 1 else 0
  | _, .zero _ => 0
  | _, .ones _ => 1
  | ι, .prod fs => sumOver dims (innerEdges fs) ι (fun κ => evalProd dims env appF κ fs)
  | ι, .sumT ts => evalSum dims env appF ι ts
  | ι, .elem _ f t => appF f (eval dims env appF ι t)

/-- The product of the values of a factor list. -/
def evalProd (dims : String → Nat) (env : String → (String → Nat) → Rat) (appF : ElemFn → Rat → Rat) : (String → Nat) → List Tensor → Rat
  | _, [] => 1
  | ι, t :: ts => eval dims env appF ι t * evalProd dims env appF ι ts

/-- The coefficient-weighted value of a term list. -/
def evalSum (dims : String → Nat) (env : String → (String → Nat) → Rat) (appF : ElemFn → Rat → Rat) : (String → Nat) → List (Int × Tensor) → Rat
  | _, [] => 0
  | ι, (c, t) :: ts => (c : Rat) * eval dims env appF ι t + evalSum dims env appF ι ts
end

mutual
/-- The invariants of section 3 of the spec used by the theorems below:
edge lists carry no duplicate names, a variable's declared and current
edge lists have equal length, and products and sums are nonempty. -/
def wfB : Tensor → Bool
  | .variable_ _ o es => decide o.Nodup && decide es.Nodup && (o.length == es.length)
  | .copy es => decide es.Nodup
  | .zero es => decide es.Nodup
  | .ones es => decide es.Nodup
  | .prod fs => !fs.isEmpty && wfL fs
  | .sumT ts => !ts.isEmpty && wfT ts
  | .elem _ _ t => wfB t

/-- `wfB` over a factor list. -/
def wfL : List Tensor → Bool
  | [] => true
  | t :: ts => wfB t && wfL ts

/-- `wfB` over a term list. -/
def wfT : List (Int × Tensor) → Bool
  | [] => true
  | (_, t) :: ts => wfB t && wfT ts
end

mutual
/-- The full evaluation-grade invariants of section 3 of the spec: on top
of `wfB`, a product uses no edge name more than twice (invariant 2) and
all terms of a sum share the head term's free edges (invariant 3). -/
def wfE : Tensor → Bool
  | .variable_ _ o es => decide o.Nodup && decide es.Nodup && (o.length == es.length)
  | .copy es => decide es.Nodup
  | .zero es => decide es.Nodup
  | .ones es => decide es.Nodup
  | .prod fs =>
    !fs.isEmpty && wfEL fs && (occsOf fs).all (fun e => decide ((occsOf fs).count e ≤ 2))
  | .sumT ts =>
    !ts.isEmpty && wfET ts &&
      (match ts with
       | [] => true
       | (_, t0) :: rest => rest.all (fun ct => freeEdges ct.2 == freeEdges t0))
  | .elem _ _ t => wfE t

/-- `wfE` over a factor list. -/
def wfEL : List Tensor → Bool
  | [] => true
  | t :: ts => wfE t && wfEL ts

/-- `wfE` over a term list. -/
def wfET : List (Int × Tensor) → Bool
  | [] => true
  | (_, t) :: ts => wfE t && wfET ts
end

mutual
/-- The binding environment respects the graph: the binding of every
variable occurring in the graph is a function of the assignment of that
variable's declared edges only (spec section 4.5: a Variable returns its
binding validated against the node's declared edges). -/
def EnvOk (env : String → (String → Nat) → Rat) : Tensor → Prop
  | .variable_ n o _ => ∀ g g2 : String → Nat, (∀ e ∈ o, g e = g2 e) → env n g = env n g2
  | .copy _ => True
  | .zero _ => True
  | .ones _ => True
  | .prod fs => EnvOkL env fs
  | .sumT ts => EnvOkT env ts
  | .elem _ _ t => EnvOk env t

/-- `EnvOk` over a factor list. -/
def EnvOkL (env : String → (String → Nat) → Rat) : List Tensor → Prop
  | [] => True
  | t :: ts => EnvOk env t ∧ EnvOkL env ts

/-- `EnvOk` over a term list. -/
def EnvOkT (env : String → (String → Nat) → Rat) : List (Int × Tensor) → Prop
  | [] => True
  | (_, t) :: ts => EnvOk env t ∧ EnvOkT env ts
end

/-- Set every name in a list to one shared index value. -/
def updAll (ι : String → Nat) (es : List String) (v : Nat) : String → Nat :=
  es.foldl (fun acc x => updF acc x v) ι

/-- Discriminator for `Zero` nodes. -/
def isZero : Tensor → Bool
  | .zero _ => true
  | _ => false

/-- Discriminator for `Ones` nodes. -/
def isOnes : Tensor → Bool
  | .ones _ => true
  | _ => false

/-- Discriminator for `Copy` nodes. -/
def isCopy : Tensor → Bool
  | .copy _ => true
  | _ => false

/-- Discriminator for `Sum` nodes. -/
def isSum : Tensor → Bool
  | .sumT _ => true
  | _ => false

/-- Discriminator for `Product` nodes. -/
def isProd : Tensor → Bool
  | .prod _ => true
  | _ => false

/-- The edge list of a `Copy` node, `none` for every other variant. -/
def copyEdgeList : Tensor → Option (List String)
  | .copy es => some es
  | _ => none

/-- Flatten nested sums one level, multiplying coefficients through. -/
def flattenTerms : List (Int × Tensor) → List (Int × Tensor)
  | [] => []
  | (c, .sumT inner) :: rest => inner.map (fun ct => (c * ct.1, ct.2)) ++ flattenTerms rest
  | ct :: rest => ct :: flattenTerms rest

/-- Flatten nested products one level. -/
def flattenFactors : List Tensor → List Tensor
  | [] => []
  | .prod inner :: rest => inner ++ flattenFactors rest
  | t :: rest => t :: flattenFactors rest

/-- Do two edge lists share a name? -/
def overlaps (es g : List String) : Bool := es.any (fun e => g.contains e)

/-- Merge the copy chain of `es` into the disjoint groups `gs`: all
groups sharing an edge with `es` are united with it, the rest are kept. -/
def addGroup (gs : List (List String)) (es : List String) : List (List String) :=
  let hits := gs.filter (fun g => overlaps es g)
  let miss := gs.filter (fun g => !(overlaps es g))
  miss ++ [es ++ hits.foldr (fun g acc => g ++ acc) []]

/-- The edges of a merged copy chain that stay on the merged node: names
used once in the chain (a name shared inside the chain was contracted
between two of its `Copy` nodes). -/
def onceNames (g : List String) : List String :=
  g.dedup.filter (fun e => g.count e = 1)

/-- Modelled from the spec (section 4.4): collapse chains of `Copy`
factors that share edges into single `Copy` nodes, keeping the other
factors in front. -/
def copyMerge (fs : List Tensor) : List Tensor :=
  let others := fs.filter (fun t => !(isCopy t))
  let groups := (fs.filterMap copyEdgeList).foldl addGroup []
  others ++ groups.map (fun g => Tensor.copy (onceNames g))

/-- Modelled from the spec (section 4.4): drop `Ones` factors while at
least one other factor remains. -/
def dropOnes (fs : List Tensor) : List Tensor :=
  let nz := fs.filter (fun t => !(isOnes t))
  if nz.isEmpty then fs.take 1 else nz

/-- The tag word of an elementwise map, used by the canonical
serialisation below. -/
def serF : ElemFn → List (String ⊕ Int)
  | .log => [.inr 0]
  | .exp => [.inr 1]
  | .powk k => [.inr 2, .inr k]

mutual
/-- A prefix-coded serialisation of a graph in which every edge name is
first sent through the map `em`: each node contributes a variant tag and
the lengths of its lists, so two graphs serialise equally under `em`
exactly when they are structurally identical with `em`-equal edge
names. -/
def serAux (em : String → String ⊕ Int) : Tensor → List (String ⊕ Int)
  | .variable_ n o es =>
    .inr 10 :: .inl n :: .inr (o.length : Int) ::
      (o.map .inl ++ (.inr (es.length : Int) :: es.map em))
  | .copy es => .inr 11 :: .inr (es.length : Int) :: es.map em
  | .zero es => .inr 12 :: .inr (es.length : Int) :: es.map em
  | .ones es => .inr 13 :: .inr (es.length : Int) :: es.map em
  | .prod fs => .inr 14 :: .inr (fs.length : Int) :: serAuxL em fs
  | .sumT ts => .inr 15 :: .inr (ts.length : Int) :: serAuxT em ts
  | .elem n f t => .inr 16 :: .inl n :: (serF f ++ serAux em t)

/-- `serAux` over a factor list. -/
def serAuxL (em : String → String ⊕ Int) : List Tensor → List (String ⊕ Int)
  | [] => []
  | t :: ts => serAux em t ++ serAuxL em ts

/-- `serAux` over a term list, tagging each coefficient. -/
def serAuxT (em : String → String ⊕ Int) : List (Int × Tensor) → List (String ⊕ Int)
  | [] => []
  | (c, t) :: ts => .inr c :: (serAux em t ++ serAuxT em ts)
end

/-- Deduplication keeping the FIRST occurrence of each name. -/
def firstDedup (l : List String) : List String :=
  l.foldl (fun acc x => if x ∈ acc then acc else acc ++ [x]) []

/-- Modelled from the spec (section 4.4, last rule): the canonical form
of a term under pure renaming of its internal edge names.  Free edges are
kept by name (all terms of one sum share one free-edge set, so a merging
rename must fix them); every other — internal — edge name is replaced by
its first-occurrence index, which is exactly the quotient by a pure
renaming of the internal names.  Two terms are structurally identical up
to such a renaming when their canonical serialisations agree. -/
def canonSer (t : Tensor) : List (String ⊕ Int) :=
  let free := freeEdges t
  let inner := firstDedup ((namesOf t).filter (fun x => !(free.contains x)))
  serAux (fun x => if free.contains x then .inl x else .inr (inner.indexOf x : Int)) t

/-- Structural identity up to a pure renaming of internal edge names:
equality of canonical serialisations (an equivalence by construction). -/
def eqvT (a b : Tensor) : Bool := decide (canonSer a = canonSer b)

/-- Modelled from the spec (section 4.4, last rule): add one term to an
accumulated list of pairwise non-identical terms — if a structurally
identical (up to renaming) term is present, its coefficient absorbs the
new one; otherwise the term is appended. -/
def addTerm (acc : List (Int × Tensor)) (ct : Int × Tensor) : List (Int × Tensor) :=
  if acc.any (fun p => eqvT p.2 ct.2) then
    acc.map (fun p => if eqvT p.2 ct.2 then (p.1 + ct.1, p.2) else p)
  else acc ++ [ct]

/-- Modelled from the spec (section 4.4, last rule): merge Sum terms that
are structurally identical up to a pure renaming into one term with
summed coefficients, keeping first-occurrence order. -/
def mergeTerms (ts : List (Int × Tensor)) : List (Int × Tensor) := ts.foldl addTerm []

/-- No two terms are structurally identical up to renaming (the
post-condition of `mergeTerms`). -/
def pairwiseNE : List (Int × Tensor) → Bool
  | [] => true
  | p :: ps => ps.all (fun q => !(eqvT p.2 q.2)) && pairwiseNE ps

mutual
/-- Modelled from the spec (section 4.4, `simplify` of `tensor.py` is not
in src): the bottom-up simplifier.  After simplifying children it
flattens nested sums and products, drops `Zero` terms (an emptied sum
collapses to `Zero` over the declared edges), merges sum terms that are
structurally identical up to a pure renaming of internal edge names into
one term with summed coefficients, annihilates a product with a `Zero`
factor, merges copy chains, and drops `Ones` factors; an elementwise
node re-wraps its recursively simplified inner tensor exactly as
`Elementwise.simplify` does in `functions.py` lines 106–109. -/
def simplify : Tensor → Tensor
  | .variable_ n o es => .variable_ n o es
  | .copy es => .copy es
  | .zero es => .zero es
  | .ones es => .ones es
  | .elem n f t => .elem n f (simplify t)
  | .sumT ts =>
    let flat := flattenTerms (simpTerms ts)
    let nz := flat.filter (fun ct => !(isZero ct.2))
    if nz.isEmpty then .zero (freeEdges (.sumT ts)) else .sumT (mergeTerms nz)
  | .prod fs =>
    let flat := flattenFactors (simpFactors fs)
    if flat.any isZero then .zero (freeEdges (.prod flat))
    else .prod (dropOnes (copyMerge flat))

/-- `simplify` over the terms of a sum. -/
def simpTerms : List (Int × Tensor) → List (Int × Tensor)
  | [] => []
  | (c, t) :: ts => (c, simplify t) :: simpTerms ts

/-- `simplify` over the factors of a product. -/
def simpFactors : List Tensor → List Tensor
  | [] => []
  | t :: ts => simplify t :: simpFactors ts
end

/-- Non-copy factors precede the copy factors. -/
def segregated : List Tensor → Bool
  | [] => true
  | t :: ts => if isCopy t then ts.all isCopy else segregated ts

/-- `g` shares no edge with any group in `gs`. -/
def disjFrom (g : List String) (gs : List (List String)) : Bool :=
  gs.all (fun g2 => g.all (fun e => !(g2.contains e)))

/-- The groups are pairwise edge-disjoint. -/
def pairwiseDisj : List (List String) → Bool
  | [] => true
  | g :: gs => disjFrom g gs && pairwiseDisj gs

/-- The disjointness relation between copy chains. -/
def DisjR (a b : List String) : Prop := ∀ x ∈ a, x ∉ b

/-- The renamed names produced by a list of rename maps, concatenated. -/
def targetsOf (σs : List (List (String × String))) : List String :=
  σs.foldr (fun σ acc => σ.map Prod.snd ++ acc) []

mutual
/-- The normal forms of `simplify`: sums are nonempty with simplified,
non-sum, non-zero terms, no two of which are structurally identical up to
renaming; products have simplified, non-product, non-zero factors, with
the non-copy factors in front of pairwise disjoint duplicate-free copy
factors, and contain no `Ones` unless the product is exactly one `Ones`
node. -/
def simplified : Tensor → Bool
  | .variable_ _ _ _ => true
  | .copy _ => true
  | .zero _ => true
  | .ones _ => true
  | .elem _ _ t => simplified t
  | .sumT ts => !ts.isEmpty && simpTermsOk ts && pairwiseNE ts
  | .prod fs =>
    simpFactorsOk fs && segregated fs &&
    pairwiseDisj (fs.filterMap copyEdgeList) &&
    (fs.filterMap copyEdgeList).all (fun g => decide g.Nodup) &&
    ((fs.filter isOnes).isEmpty || (decide (fs.length = 1) && fs.all isOnes))

/-- Terms of a simplified sum: simplified, not sums, not zero. -/
def simpTermsOk : List (Int × Tensor) → Bool
  | [] => true
  | (_, t) :: ts => simplified t && !(isSum t) && !(isZero t) && simpTermsOk ts

/-- Factors of a simplified product: simplified, not products, not zero. -/
def simpFactorsOk : List Tensor → Bool
  | [] => true
  | t :: ts => simplified t && !(isProd t) && !(isZero t) && simpFactorsOk ts
end

mutual
/-- Every occurrence of the differentiation variable (matched by name and
declared edges, as in the variable rule of `gradAux`) still carries its
declared edge names: the variable has not been renamed since its
construction.  `grad(x)` in the Python sources is always called with the
variable object itself, whose edges are its declared ones. -/
def unren (vn : String) (vo : List String) : Tensor → Bool
  | .variable_ n o es => if n = vn ∧ o = vo then es == vo else true
  | .copy _ => true
  | .zero _ => true
  | .ones _ => true
  | .prod fs => unrenL vn vo fs
  | .sumT ts => unrenT vn vo ts
  | .elem _ _ t => unren vn vo t

/-- `unren` over a factor list. -/
def unrenL (vn : String) (vo : List String) : List Tensor → Bool
  | [] => true
  | t :: ts => unren vn vo t && unrenL vn vo ts

/-- `unren` over a term list. -/
def unrenT (vn : String) (vo : List String) : List (Int × Tensor) → Bool
  | [] => true
  | (_, t) :: ts => unren vn vo t && unrenT vn vo ts
end

/-- The variable `x = Variable("x", ["x"])` of `main` in `main.py`. -/
def mainx : Tensor := .variable_ "x" ["x"] ["x"]

/-- The variable `y = Variable("y", ["y"])` of `main` in `main.py`. -/
def mainy : Tensor := .variable_ "y" ["y"] ["y"]

/-- The variable `A = Variable("A", ["x", "y"])` of `main` in `main.py`. -/
def mainA : Tensor := .variable_ "A" ["x", "y"] ["x", "y"]

/-- `Axmy = A @ x - y` of `main` in `main.py`: the contraction
`Product([A, x])` combined with `y` at coefficient `-1`. -/
def mainAxmy : Tensor := .sumT [(1, .prod [mainA, mainx]), (-1, mainy)]

/-- `F = frobenius2(A @ x - y)`, the squared Frobenius norm of the
residual, shared by `main` and `main2` in `main.py`. -/
def mainF : Tensor := functions.frobenius2 mainAxmy

/-- The matrix `a = Variable("a", ["i", "j"])` of `test_einsum`. -/
def einA : Tensor := .variable_ "a" ["i", "j"] ["i", "j"]

/-- The matrix `b = Variable("b", ["j", "k"])` of `test_einsum`. -/
def einB : Tensor := .variable_ "b" ["j", "k"] ["j", "k"]

/-- The vector `v = Variable("v", ["a"])` of `test_diag`. -/
def diagV : Tensor := .variable_ "v" ["a"] ["a"]

/-- Structural induction for `Tensor` with memberwise hypotheses for the
nested factor and term lists. -/
theorem Tensor.myInd (P : Tensor → Prop)
    (hv : ∀ n o es, P (.variable_ n o es))
    (hc : ∀ es, P (.copy es))
    (hz : ∀ es, P (.zero es))
    (ho : ∀ es, P (.ones es))
    (hp : ∀ fs, (∀ t ∈ fs, P t) → P (.prod fs))
    (hs : ∀ ts, (∀ ct ∈ ts, P ct.2) → P (.sumT ts))
    (he : ∀ n f t, P t → P (.elem n f t)) : ∀ t, P t := by
  have H : ∀ m : Nat, ∀ t : Tensor, sizeOf t ≤ m → P t := by
    intro m
    induction m with
    | zero =>
      intro t h
      exfalso
      cases t <;> simp at h
    | succ m ih =>
      intro t h
      cases t with
      | variable_ n o es => exact hv n o es
      | copy es => exact hc es
      | zero es => exact hz es
      | ones es => exact ho es
      | prod fs =>
        refine hp fs (fun x hx => ih x ?_)
        have h1 := List.sizeOf_lt_of_mem hx
        simp at h
        omega
      | sumT ts =>
        refine hs ts (fun ct hct => ih ct.2 ?_)
        have h1 := List.sizeOf_lt_of_mem hct
        have h2 : sizeOf ct.2 < sizeOf ct := by
          obtain ⟨a, b⟩ := ct
          simp
        simp at h
        omega
      | elem n f t =>
        refine he n f t (ih t ?_)
        simp at h
        omega
  exact fun t => H (sizeOf t) t le_rfl

/-- C1: for `F = frobenius2(A @ x - y)` built as in `main` of `main.py`,
the gradient graph `grad(F, x)` is produced (the differentiation pass is
a total function) and its free edges are exactly the single primed edge
`x'` — the union of `F`'s empty free-edge set with the primed counterpart
of the one edge of `x`, as the assertion `grad.edges == ["x'"]` in
`main.py` line 36 records. -/
theorem C1_grad_frobenius_edges :
    freeEdges mainF = [] ∧ freeEdges (grad mainF "x" ["x"]) = ["x'"] :=
  ⟨rfl, by decide⟩

/-- C2: differentiating `F` twice with respect to `x` yields a graph
whose free edges are the two distinct primed edges `x'` and `x''`, in
application order (most recent marker last), before and after
simplification — the assertion `grad.edges == ["x'", "x''"]` in `main.py`
line 84. -/
theorem C2_second_derivative_edges :
    freeEdges (grad (grad mainF "x" ["x"]) "x" ["x"]) = ["x'", "x''"] ∧
    freeEdges (simplify (grad (grad mainF "x" ["x"]) "x" ["x"])) = ["x'", "x''"] :=
  ⟨by decide, by decide⟩

/-- C8: `max(t, dims)` in `functions.py` unconditionally raises
`NotImplementedError` after defining its inner class, so it never returns
a node; `gt(x, y)` only defines its inner class and falls off the end of
the function body, returning no tensor value. -/
theorem C8_max_gt_unusable :
    ∀ (t x y : Tensor) (dims : List String),
      functions.max t dims = .error .notImplementedError ∧
      (∀ n, functions.max t dims ≠ .ok n) ∧
      functions.gt x y = none :=
  fun _ _ _ _ => ⟨rfl, fun _ h => by simp [functions.max] at h, rfl⟩

/-- C10: `pow(t, 0)` returns the `Ones` node over exactly `t`'s free
edges (evaluating to 1 at every index assignment), not an `Elementwise`
node; for `k ≠ 0` it is the `Elementwise` node whose stored
local-derivative rule maps a tensor `u` to `k * pow(u, k - 1)` (a
one-term sum with coefficient `k`). -/
theorem C10_pow_spec :
    ∀ (t u : Tensor) (k : Int),
      functions.pow t 0 = Tensor.ones (freeEdges t) ∧
      (∀ dims env appF ι, eval dims env appF ι (functions.pow t 0) = 1) ∧
      (k ≠ 0 → functions.pow t k = Tensor.elem ("pow(" ++ toString k ++ ")") (.powk k) t) ∧
      ElemFn.deriv (.powk k) u = Tensor.sumT [(k, functions.pow u (k - 1))] := by
  intro t u k
  refine ⟨by simp [functions.pow], ?_, fun h => by simp [functions.pow, h], rfl⟩
  intro dims env appF ι
  simp [functions.pow, eval]

/-- Deduplication of a list followed by a duplicate-free tail:
`List.dedup` keeps last occurrences, so the tail survives whole and the
head contributes its names not present in the tail. -/
theorem dedup_append_tail (F es : List String) (hes : es.Nodup) :
    (F ++ es).dedup = (F.filter (fun e => !(es.contains e))).dedup ++ es := by
  induction F with
  | nil => simpa using List.Nodup.dedup hes
  | cons a F ih =>
    by_cases hmem : a ∈ F ++ es
    · rw [List.cons_append, List.dedup_cons_of_mem hmem]
      rcases List.mem_append.mp hmem with hF | hesm
      · by_cases haes : a ∈ es
        · rw [ih]
          have : List.filter (fun e => !(es.contains e)) (a :: F) =
              List.filter (fun e => !(es.contains e)) F := by
            rw [List.filter_cons_of_neg]
            simp [List.elem_iff, haes]
          rw [this]
        · rw [ih]
          have : List.filter (fun e => !(es.contains e)) (a :: F) =
              a :: List.filter (fun e => !(es.contains e)) F := by
            rw [List.filter_cons_of_pos]
            simp [List.elem_iff, haes]
          rw [this, List.dedup_cons_of_mem]
          simp only [List.mem_dedup, List.mem_filter]
          refine ⟨hF, ?_⟩
          simp [List.elem_iff, haes]
      · rw [ih]
        have : List.filter (fun e => !(es.contains e)) (a :: F) =
            List.filter (fun e => !(es.contains e)) F := by
          rw [List.filter_cons_of_neg]
          simp [List.elem_iff, hesm]
        rw [this]
    · have haF : a ∉ F := fun hc => hmem (List.mem_append.mpr (Or.inl hc))
      have haes : a ∉ es := fun hc => hmem (List.mem_append.mpr (Or.inr hc))
      rw [List.cons_append, List.dedup_cons_of_not_mem hmem, ih]
      have : List.filter (fun e => !(es.contains e)) (a :: F) =
          a :: List.filter (fun e => !(es.contains e)) F := by
        rw [List.filter_cons_of_pos]
        simp [List.elem_iff, haes]
      rw [this, List.dedup_cons_of_not_mem, List.cons_append]
      simp only [List.mem_dedup, List.mem_filter]
      intro hc
      exact haF hc.1

/-- Unfolding lemma for the free edges of a product. -/
theorem freeEdges_prod_def (fs : List Tensor) :
    freeEdges (.prod fs) = (occsOf fs).dedup.filter (fun e => (occsOf fs).count e = 1) := rfl

/-- Unfolding lemma for the contracted edges of a product. -/
theorem innerEdges_def (fs : List Tensor) :
    innerEdges fs = (occsOf fs).dedup.filter (fun e => (occsOf fs).count e = 2) := rfl

/-- The free edges of the single-edge `Copy` factors of `sum`. -/
theorem occsOf_map_copy (es : List String) :
    occsOf (es.map (fun e => Tensor.copy [e])) = es := by
  induction es with
  | nil => rfl
  | cons a es ih => simp [occsOf, freeEdges, ih]

/-- Single-edge `Copy` factors all evaluate to 1. -/
theorem evalProd_map_copy (dims : String → Nat) (env : String → (String → Nat) → Rat)
    (appF : ElemFn → Rat → Rat) (κ : String → Nat) (es : List String) :
    evalProd dims env appF κ (es.map (fun e => Tensor.copy [e])) = 1 := by
  induction es with
  | nil => rfl
  | cons a es ih => simp [evalProd, eval, ih]

/-- The occurrence list of `frobenius2 t` is two copies of `t`'s edges,
and the occurrence list of `sum t es` is `t`'s edges followed by `es`. -/
theorem occsOf_pair (t : Tensor) : occsOf [t, t] = freeEdges t ++ freeEdges t := by
  simp [occsOf]

/-- C3: `frobenius2(t) = Product([t, t])` contracts every edge of `t`
(each occurs in exactly two factors), so its free-edge set is empty, and
its value at any binding is the sum over all index combinations of `t`'s
edges of the square of `t`'s value there. -/
theorem C3_frobenius2_spec :
    ∀ t : Tensor, (freeEdges t).Nodup →
      freeEdges (functions.frobenius2 t) = [] ∧
      ∀ dims env appF ι,
        eval dims env appF ι (functions.frobenius2 t) =
          sumOver dims (freeEdges t) ι (fun κ => eval dims env appF κ t ^ 2) := by
  intro t ht
  have hcount : ∀ e ∈ freeEdges t, (occsOf [t, t]).count e = 2 := by
    intro e he
    rw [occsOf_pair, List.count_append, List.count_eq_one_of_mem ht he]
  have hmemocc : ∀ e, e ∈ occsOf [t, t] ↔ e ∈ freeEdges t := by
    intro e
    rw [occsOf_pair]
    simp
  constructor
  · rw [show functions.frobenius2 t = Tensor.prod [t, t] from rfl, freeEdges_prod_def]
    apply List.filter_eq_nil_iff.mpr
    intro e he
    rw [List.mem_dedup, hmemocc] at he
    simp [hcount e he]
  · intro dims env appF ι
    have hinner : innerEdges [t, t] = freeEdges t := by
      rw [innerEdges_def]
      rw [occsOf_pair, dedup_append_tail _ _ ht]
      have hnil : List.filter (fun e => !((freeEdges t).contains e)) (freeEdges t) = [] := by
        apply List.filter_eq_nil_iff.mpr
        intro e he
        simp [List.elem_iff, he]
      rw [hnil]
      simp only [List.dedup_nil, List.nil_append]
      apply List.filter_eq_self.mpr
      intro e he
      have hc := hcount e he
      rw [occsOf_pair] at hc
      simp [hc]
    show sumOver dims (innerEdges [t, t]) ι (fun κ => evalProd dims env appF κ [t, t]) = _
    rw [hinner]
    have hfun : (fun κ => evalProd dims env appF κ [t, t]) =
        fun κ => eval dims env appF κ t ^ 2 := by
      funext κ
      simp [evalProd, sq]
    rw [hfun]

/-- Witness for C3 at `t = Variable("t", ["a", "b", "c"])` (the tensor of
`test_frobenius2`), with dimensions 2 and a concrete binding. -/
theorem C3_frobenius2_spec_witness :
    (freeEdges (Tensor.variable_ "t" ["a", "b", "c"] ["a", "b", "c"])).Nodup ∧
      freeEdges (functions.frobenius2 (Tensor.variable_ "t" ["a", "b", "c"] ["a", "b", "c"])) = [] :=
  ⟨by decide, (C3_frobenius2_spec _ (by decide)).1⟩

/-- C5 (amended): for a nonempty duplicate-free `edges ⊆ t.edges`,
`sum(t, edges)` with `keepdims=False` exposes exactly `t`'s edges minus
`edges` (each single-edge `Copy` factor absorbs one edge as a broadcast
sum) and evaluates to the sum of `t`'s value over exactly those named
dimensions.  Nonemptiness is forced by the Python default
`edges = edges or tensor.edges`, under which an empty list sums over all
edges. -/
theorem C5_sum_spec :
    ∀ (t : Tensor) (es : List String), es ≠ [] → es.Nodup →
      (∀ e ∈ es, e ∈ freeEdges t) → (freeEdges t).Nodup →
      freeEdges (functions.sum t es) = (freeEdges t).filter (fun e => !(es.contains e)) ∧
      ∀ dims env appF ι,
        eval dims env appF ι (functions.sum t es) =
          sumOver dims es ι (fun κ => eval dims env appF κ t) := by
  intro t es hne hes hsub ht
  have hesne : es.isEmpty = false := by
    cases es with
    | nil => exact absurd rfl hne
    | cons a l => rfl
  have hsum : functions.sum t es = Tensor.prod (t :: es.map (fun e => Tensor.copy [e])) := by
    simp [functions.sum, hesne]
  have hocc : occsOf (t :: es.map (fun e => Tensor.copy [e])) = freeEdges t ++ es := by
    simp [occsOf, occsOf_map_copy]
  have hcount : ∀ e, (occsOf (t :: es.map (fun e => Tensor.copy [e]))).count e =
      (freeEdges t).count e + es.count e := by
    intro e
    rw [hocc, List.count_append]
  have hdedup : (occsOf (t :: es.map (fun e => Tensor.copy [e]))).dedup =
      ((freeEdges t).filter (fun e => !(es.contains e))).dedup ++ es := by
    rw [hocc, dedup_append_tail _ _ hes]
  constructor
  · rw [hsum, freeEdges_prod_def, hdedup]
    rw [List.Nodup.dedup (List.Nodup.filter _ ht)]
    rw [List.filter_append]
    have h1 : List.filter (fun e => (occsOf (t :: es.map (fun e => Tensor.copy [e]))).count e = 1)
        ((freeEdges t).filter (fun e => !(es.contains e))) =
        (freeEdges t).filter (fun e => !(es.contains e)) := by
      apply List.filter_eq_self.mpr
      intro e he
      rw [List.mem_filter] at he
      have hin : e ∈ freeEdges t := he.1
      have hnotes : e ∉ es := by
        have := he.2
        simpa [List.elem_iff] using this
      rw [hcount]
      rw [List.count_eq_one_of_mem ht hin, List.count_eq_zero.mpr hnotes]
      simp
    have h2 : List.filter (fun e => (occsOf (t :: es.map (fun e => Tensor.copy [e]))).count e = 1) es = [] := by
      apply List.filter_eq_nil_iff.mpr
      intro e he
      rw [hcount]
      rw [List.count_eq_one_of_mem ht (hsub e he), List.count_eq_one_of_mem hes he]
      simp
    rw [h1, h2, List.append_nil]
  · intro dims env appF ι
    rw [hsum]
    have hinner : innerEdges (t :: es.map (fun e => Tensor.copy [e])) = es := by
      rw [innerEdges_def, hdedup]
      rw [List.Nodup.dedup (List.Nodup.filter _ ht)]
      rw [List.filter_append]
      have h1 : List.filter (fun e => (occsOf (t :: es.map (fun e => Tensor.copy [e]))).count e = 2)
          ((freeEdges t).filter (fun e => !(es.contains e))) = [] := by
        apply List.filter_eq_nil_iff.mpr
        intro e he
        rw [List.mem_filter] at he
        have hnotes : e ∉ es := by
          have := he.2
          simpa [List.elem_iff] using this
        rw [hcount, List.count_eq_one_of_mem ht he.1, List.count_eq_zero.mpr hnotes]
        simp
      have h2 : List.filter (fun e => (occsOf (t :: es.map (fun e => Tensor.copy [e]))).count e = 2) es = es := by
        apply List.filter_eq_self.mpr
        intro e he
        rw [hcount, List.count_eq_one_of_mem ht (hsub e he), List.count_eq_one_of_mem hes he]
        simp
      rw [h1, h2, List.nil_append]
    show sumOver dims (innerEdges _) ι (fun κ => evalProd dims env appF κ _) = _
    rw [hinner]
    have hfun : (fun κ => evalProd dims env appF κ (t :: es.map (fun e => Tensor.copy [e]))) =
        fun κ => eval dims env appF κ t := by
      funext κ
      simp [evalProd, evalProd_map_copy]
    rw [hfun]

/-- Witness for C5 at `t = Variable("a", ["i", "j"])`, `edges = ["i"]`
(the first case of `test_sum`), with concrete dimensions, binding and
assignment. -/
theorem C5_sum_spec_witness :
    freeEdges (functions.sum (Tensor.variable_ "a" ["i", "j"] ["i", "j"]) ["i"]) = ["j"] := by
  have h := (C5_sum_spec (Tensor.variable_ "a" ["i", "j"] ["i", "j"]) ["i"]
    (by decide) (by decide) (by decide) (by decide)).1
  simpa using h

/-- C5 as literally stated fails for the empty subset: the Python default
`edges = edges or tensor.edges` treats `[]` like `None`, so
`sum(a, [])` for `a = Variable("a", ["i", "j"])` sums over all edges and
exposes no free edge instead of keeping `["i", "j"]`. -/
theorem C5_sum_counterexample :
    freeEdges (functions.sum (Tensor.variable_ "a" ["i", "j"] ["i", "j"]) []) = [] ∧
      freeEdges (Tensor.variable_ "a" ["i", "j"] ["i", "j"]) ≠ [] := by
  constructor
  · decide
  · decide

/-- Flattening a cons whose head is not a sum keeps the head. -/
theorem flattenTerms_cons_nonsum {c : Int} {t : Tensor} {rest : List (Int × Tensor)}
    (h : isSum t = false) :
    flattenTerms ((c, t) :: rest) = (c, t) :: flattenTerms rest := by
  cases t <;> first | rfl | simp [isSum] at h

/-- Flattening a cons whose head is a sum splices in the scaled terms. -/
theorem flattenTerms_cons_sum {c : Int} {inner : List (Int × Tensor)} {rest : List (Int × Tensor)} :
    flattenTerms ((c, .sumT inner) :: rest) =
      inner.map (fun ct => (c * ct.1, ct.2)) ++ flattenTerms rest := rfl

/-- Flattening a cons whose head is not a product keeps the head. -/
theorem flattenFactors_cons_nonprod {t : Tensor} {rest : List Tensor} (h : isProd t = false) :
    flattenFactors (t :: rest) = t :: flattenFactors rest := by
  cases t <;> first | rfl | simp [isProd] at h

/-- Flattening a cons whose head is a product splices in its factors. -/
theorem flattenFactors_cons_prod {inner rest : List Tensor} :
    flattenFactors (.prod inner :: rest) = inner ++ flattenFactors rest := rfl

/-- The conjuncts of a normal-form product. -/
theorem simplified_prod_iff {fs : List Tensor} :
    simplified (.prod fs) = true ↔
      simpFactorsOk fs = true ∧ segregated fs = true ∧
      pairwiseDisj (fs.filterMap copyEdgeList) = true ∧
      (∀ g ∈ fs.filterMap copyEdgeList, g.Nodup) ∧
      ((fs.filter isOnes).isEmpty = true ∨ (fs.length = 1 ∧ fs.all isOnes = true)) := by
  show (_ && _ && _ && _ && _) = true ↔ _
  simp only [Bool.and_eq_true, Bool.or_eq_true, Bool.and_eq_true, List.all_eq_true,
    decide_eq_true_eq, and_assoc]

/-- The conjuncts of a normal-form sum. -/
theorem simplified_sum_iff {ts : List (Int × Tensor)} :
    simplified (.sumT ts) = true ↔
      ts ≠ [] ∧ simpTermsOk ts = true ∧ pairwiseNE ts = true := by
  cases ts with
  | nil => simp [simplified, simpTermsOk, List.isEmpty, pairwiseNE]
  | cons p rest => simp [simplified, List.isEmpty, and_assoc]

/-- `eqvT` is symmetric. -/
theorem eqvT_symm {a b : Tensor} (h : eqvT a b = false) : eqvT b a = false := by
  cases hc : eqvT b a
  · rfl
  · exfalso
    have h1 : canonSer b = canonSer a := of_decide_eq_true hc
    have h2 : canonSer a ≠ canonSer b := of_decide_eq_false h
    exact h2 h1.symm

/-- `pairwiseNE` holds of a list with one more pairwise-distinct term
appended. -/
theorem pairwiseNE_append_single {acc : List (Int × Tensor)} {ct : Int × Tensor}
    (h : pairwiseNE acc = true) (hne : ∀ p ∈ acc, eqvT p.2 ct.2 = false) :
    pairwiseNE (acc ++ [ct]) = true := by
  induction acc with
  | nil => simp [pairwiseNE]
  | cons p ps ih =>
    simp only [pairwiseNE, Bool.and_eq_true] at h
    have htail := ih h.2 (fun q hq => hne q (List.mem_cons_of_mem _ hq))
    have hhead : ((ps ++ [ct]).all fun q => !(eqvT p.2 q.2)) = true := by
      rw [List.all_append]
      simp only [Bool.and_eq_true]
      refine ⟨h.1, ?_⟩
      simp only [List.all_cons, List.all_nil, Bool.and_true]
      rw [hne p (List.mem_cons_self _ _)]
      rfl
    show (((ps ++ [ct]).all fun q => !(eqvT p.2 q.2)) && pairwiseNE (ps ++ [ct])) = true
    rw [hhead, htail]
    rfl

/-- `pairwiseNE` is invariant under maps that keep the tensor component. -/
theorem pairwiseNE_map_snd {l : List (Int × Tensor)} {g : Int × Tensor → Int × Tensor}
    (hg : ∀ p, (g p).2 = p.2) : pairwiseNE (l.map g) = pairwiseNE l := by
  induction l with
  | nil => rfl
  | cons p ps ih =>
    simp only [List.map_cons, pairwiseNE, ih, List.all_map]
    have : (fun q => !(eqvT (g p).2 (g q).2)) = (fun q => !(eqvT p.2 q.2)) := by
      funext q
      rw [hg p, hg q]
    rw [show ((fun q => !(eqvT (g p).2 q.2)) ∘ g) = (fun q => !(eqvT (g p).2 (g q).2)) from rfl,
      this]

/-- A failed `any` scan is memberwise false. -/
theorem any_eq_false_mem {α : Type} {l : List α} {p : α → Bool} (h : l.any p = false) :
    ∀ x ∈ l, p x = false := by
  intro x hx
  cases hp : p x
  · rfl
  · exfalso
    have := List.any_eq_true.mpr ⟨x, hx, hp⟩
    rw [h] at this
    cases this

/-- `addTerm` preserves pairwise distinctness. -/
theorem addTerm_pairwise {acc : List (Int × Tensor)} {ct : Int × Tensor}
    (h : pairwiseNE acc = true) : pairwiseNE (addTerm acc ct) = true := by
  unfold addTerm
  by_cases hany : acc.any (fun p => eqvT p.2 ct.2) = true
  · rw [if_pos hany]
    rw [pairwiseNE_map_snd]
    · exact h
    · intro p
      by_cases hp : eqvT p.2 ct.2 = true
      · simp [hp]
      · simp [hp]
  · rw [if_neg hany]
    apply pairwiseNE_append_single h
    intro p hp
    have hfalse : acc.any (fun p => eqvT p.2 ct.2) = false := by
      cases hc : acc.any (fun p => eqvT p.2 ct.2)
      · rfl
      · exact absurd hc hany
    exact any_eq_false_mem hfalse p hp

/-- The folded merge preserves pairwise distinctness. -/
theorem foldl_addTerm_pairwise : ∀ (ts acc : List (Int × Tensor)),
    pairwiseNE acc = true → pairwiseNE (ts.foldl addTerm acc) = true := by
  intro ts
  induction ts with
  | nil => intro acc h; exact h
  | cons ct rest ih =>
    intro acc h
    exact ih (addTerm acc ct) (addTerm_pairwise h)

/-- `mergeTerms` produces pairwise non-identical terms. -/
theorem mergeTerms_pairwise (ts : List (Int × Tensor)) :
    pairwiseNE (mergeTerms ts) = true :=
  foldl_addTerm_pairwise ts [] rfl

/-- Each merged term's tensor is one of the input tensors. -/
theorem foldl_addTerm_mem : ∀ (ts acc : List (Int × Tensor)) (p : Int × Tensor),
    p ∈ ts.foldl addTerm acc →
    (∃ q ∈ acc, p.2 = q.2) ∨ (∃ q ∈ ts, p.2 = q.2) := by
  intro ts
  induction ts with
  | nil =>
    intro acc p hp
    exact Or.inl ⟨p, hp, rfl⟩
  | cons ct rest ih =>
    intro acc p hp
    rcases ih (addTerm acc ct) p hp with ⟨q, hq, hpq⟩ | ⟨q, hq, hpq⟩
    · unfold addTerm at hq
      by_cases hany : acc.any (fun r => eqvT r.2 ct.2) = true
      · rw [if_pos hany] at hq
        rw [List.mem_map] at hq
        obtain ⟨r, hr, hrq⟩ := hq
        left
        refine ⟨r, hr, ?_⟩
        rw [hpq, ← hrq]
        by_cases hrc : eqvT r.2 ct.2 = true
        · simp [hrc]
        · simp [hrc]
      · rw [if_neg hany] at hq
        rcases List.mem_append.mp hq with hq2 | hq2
        · exact Or.inl ⟨q, hq2, hpq⟩
        · rw [List.mem_singleton] at hq2
          refine Or.inr ⟨ct, List.mem_cons_self _ _, ?_⟩
          rw [hpq, hq2]
    · exact Or.inr ⟨q, List.mem_cons_of_mem _ hq, hpq⟩

/-- Each merged term's tensor is one of the input tensors. -/
theorem mergeTerms_mem {ts : List (Int × Tensor)} {p : Int × Tensor}
    (hp : p ∈ mergeTerms ts) : ∃ q ∈ ts, p.2 = q.2 := by
  rcases foldl_addTerm_mem ts [] p hp with ⟨q, hq, _⟩ | h
  · cases hq
  · exact h

/-- Merging a list of pairwise non-identical terms changes nothing. -/
theorem foldl_addTerm_of_pairwise : ∀ (ts acc : List (Int × Tensor)),
    (∀ q ∈ ts, ∀ p ∈ acc, eqvT p.2 q.2 = false) → pairwiseNE ts = true →
    ts.foldl addTerm acc = acc ++ ts := by
  intro ts
  induction ts with
  | nil =>
    intro acc _ _
    rw [List.append_nil]
    rfl
  | cons ct rest ih =>
    intro acc hdisj hpw
    simp only [pairwiseNE, Bool.and_eq_true] at hpw
    have hany : acc.any (fun p => eqvT p.2 ct.2) = false := by
      cases hc : acc.any (fun p => eqvT p.2 ct.2)
      · rfl
      · exfalso
        rw [List.any_eq_true] at hc
        obtain ⟨p, hp, hpc⟩ := hc
        rw [hdisj ct (List.mem_cons_self _ _) p hp] at hpc
        cases hpc
    have hstep : addTerm acc ct = acc ++ [ct] := by
      unfold addTerm
      rw [if_neg (by rw [hany]; exact Bool.false_ne_true)]
    have hd : ∀ q ∈ rest, ∀ p ∈ acc ++ [ct], eqvT p.2 q.2 = false := by
      intro q hq p hp
      rcases List.mem_append.mp hp with hp2 | hp2
      · exact hdisj q (List.mem_cons_of_mem _ hq) p hp2
      · rw [List.mem_singleton] at hp2
        rw [hp2]
        have := List.all_eq_true.mp hpw.1 q hq
        simp only [Bool.not_eq_true'] at this
        exact this
    show List.foldl addTerm (addTerm acc ct) rest = acc ++ ct :: rest
    rw [hstep, ih (acc ++ [ct]) hd hpw.2]
    simp

/-- `mergeTerms` fixes pairwise non-identical term lists. -/
theorem mergeTerms_of_pairwise {ts : List (Int × Tensor)} (h : pairwiseNE ts = true) :
    mergeTerms ts = ts := by
  unfold mergeTerms
  rw [foldl_addTerm_of_pairwise ts [] (fun q _ p hp => absurd hp (List.not_mem_nil p)) h]
  rfl

/-- `addTerm` never empties the accumulator. -/
theorem addTerm_ne_nil {acc : List (Int × Tensor)} {ct : Int × Tensor} :
    addTerm acc ct ≠ [] := by
  unfold addTerm
  by_cases hany : acc.any (fun p => eqvT p.2 ct.2) = true
  · rw [if_pos hany]
    cases acc with
    | nil => cases hany
    | cons p ps => simp
  · rw [if_neg hany]
    simp

/-- The folded merge never empties a nonempty accumulator. -/
theorem foldl_addTerm_ne_nil : ∀ (ts acc : List (Int × Tensor)),
    acc ≠ [] → ts.foldl addTerm acc ≠ [] := by
  intro ts
  induction ts with
  | nil => intro acc h; exact h
  | cons ct rest ih => intro acc _; exact ih (addTerm acc ct) addTerm_ne_nil

/-- `mergeTerms` of a nonempty list is nonempty. -/
theorem mergeTerms_ne_nil {ts : List (Int × Tensor)} (h : ts ≠ []) :
    mergeTerms ts ≠ [] := by
  cases ts with
  | nil => exact absurd rfl h
  | cons ct rest =>
    show List.foldl addTerm (addTerm [] ct) rest ≠ []
    exact foldl_addTerm_ne_nil rest (addTerm [] ct) addTerm_ne_nil

/-- Terms of a sum in normal form are simplified, non-sum and non-zero. -/
theorem simpTermsOk_mem {ts : List (Int × Tensor)} (h : simpTermsOk ts = true) :
    ∀ ct ∈ ts, simplified ct.2 = true ∧ isSum ct.2 = false ∧ isZero ct.2 = false := by
  induction ts with
  | nil => intro ct hct; cases hct
  | cons p rest ih =>
    obtain ⟨c, t⟩ := p
    simp only [simpTermsOk, Bool.and_eq_true, Bool.not_eq_true'] at h
    obtain ⟨⟨⟨h1, h2⟩, h3⟩, h4⟩ := h
    intro ct hct
    rcases List.mem_cons.mp hct with rfl | hct
    · exact ⟨h1, h2, h3⟩
    · exact ih h4 ct hct

/-- Factors of a product in normal form are simplified, non-product and
non-zero. -/
theorem simpFactorsOk_mem {fs : List Tensor} (h : simpFactorsOk fs = true) :
    ∀ t ∈ fs, simplified t = true ∧ isProd t = false ∧ isZero t = false := by
  induction fs with
  | nil => intro t ht; cases ht
  | cons x rest ih =>
    simp only [simpFactorsOk, Bool.and_eq_true, Bool.not_eq_true'] at h
    obtain ⟨⟨⟨h1, h2⟩, h3⟩, h4⟩ := h
    intro t ht
    rcases List.mem_cons.mp ht with rfl | ht
    · exact ⟨h1, h2, h3⟩
    · exact ih h4 t ht

/-- Converse of `simpTermsOk_mem`. -/
theorem simpTermsOk_of {ts : List (Int × Tensor)}
    (h : ∀ ct ∈ ts, simplified ct.2 = true ∧ isSum ct.2 = false ∧ isZero ct.2 = false) :
    simpTermsOk ts = true := by
  induction ts with
  | nil => rfl
  | cons p rest ih =>
    obtain ⟨c, t⟩ := p
    have hp := h (c, t) (List.mem_cons_self _ _)
    simp only [simpTermsOk, Bool.and_eq_true, Bool.not_eq_true']
    exact ⟨⟨⟨hp.1, hp.2.1⟩, hp.2.2⟩, ih fun ct hct => h ct (List.mem_cons_of_mem _ hct)⟩

/-- Converse of `simpFactorsOk_mem`. -/
theorem simpFactorsOk_of {fs : List Tensor}
    (h : ∀ t ∈ fs, simplified t = true ∧ isProd t = false ∧ isZero t = false) :
    simpFactorsOk fs = true := by
  induction fs with
  | nil => rfl
  | cons x rest ih =>
    have hp := h x (List.mem_cons_self _ _)
    simp only [simpFactorsOk, Bool.and_eq_true, Bool.not_eq_true']
    exact ⟨⟨⟨hp.1, hp.2.1⟩, hp.2.2⟩, ih fun t ht => h t (List.mem_cons_of_mem _ ht)⟩

/-- Members of `simpTerms` are the simplifications of the original terms. -/
theorem simpTerms_mem {ts : List (Int × Tensor)} {p : Int × Tensor} (h : p ∈ simpTerms ts) :
    ∃ q ∈ ts, p = (q.1, simplify q.2) := by
  induction ts with
  | nil => cases h
  | cons q rest ih =>
    obtain ⟨c, t⟩ := q
    rcases List.mem_cons.mp h with rfl | h2
    · exact ⟨(c, t), List.mem_cons_self _ _, rfl⟩
    · obtain ⟨q2, hq2, hp⟩ := ih h2
      exact ⟨q2, List.mem_cons_of_mem _ hq2, hp⟩

/-- Members of `simpFactors` are the simplifications of the original
factors. -/
theorem simpFactors_mem {fs : List Tensor} {x : Tensor} (h : x ∈ simpFactors fs) :
    ∃ y ∈ fs, x = simplify y := by
  induction fs with
  | nil => cases h
  | cons y rest ih =>
    rcases List.mem_cons.mp h with rfl | h2
    · exact ⟨y, List.mem_cons_self _ _, rfl⟩
    · obtain ⟨y2, hy2, hx⟩ := ih h2
      exact ⟨y2, List.mem_cons_of_mem _ hy2, hx⟩

/-- `simpTerms` is the identity on termwise-fixed lists. -/
theorem simpTerms_eq_of {ts : List (Int × Tensor)} (h : ∀ ct ∈ ts, simplify ct.2 = ct.2) :
    simpTerms ts = ts := by
  induction ts with
  | nil => rfl
  | cons p rest ih =>
    obtain ⟨c, t⟩ := p
    have := h (c, t) (List.mem_cons_self _ _)
    simp only [simpTerms]
    rw [show simplify t = t from this, ih fun ct hct => h ct (List.mem_cons_of_mem _ hct)]

/-- `simpFactors` is the identity on factorwise-fixed lists. -/
theorem simpFactors_eq_of {fs : List Tensor} (h : ∀ t ∈ fs, simplify t = t) :
    simpFactors fs = fs := by
  induction fs with
  | nil => rfl
  | cons x rest ih =>
    simp only [simpFactors]
    rw [h x (List.mem_cons_self _ _), ih fun t ht => h t (List.mem_cons_of_mem _ ht)]

/-- Flattening leaves a list without sum terms unchanged. -/
theorem flattenTerms_of_noSum {ts : List (Int × Tensor)} (h : ∀ ct ∈ ts, isSum ct.2 = false) :
    flattenTerms ts = ts := by
  induction ts with
  | nil => rfl
  | cons p rest ih =>
    obtain ⟨c, t⟩ := p
    rw [flattenTerms_cons_nonsum (h (c, t) (List.mem_cons_self _ _)),
      ih fun ct hct => h ct (List.mem_cons_of_mem _ hct)]

/-- Flattening leaves a list without product factors unchanged. -/
theorem flattenFactors_of_noProd {fs : List Tensor} (h : ∀ t ∈ fs, isProd t = false) :
    flattenFactors fs = fs := by
  induction fs with
  | nil => rfl
  | cons x rest ih =>
    rw [flattenFactors_cons_nonprod (h x (List.mem_cons_self _ _)),
      ih fun t ht => h t (List.mem_cons_of_mem _ ht)]

/-- Every member of a flattened term list is simplified and not a sum,
provided the input terms are simplified. -/
theorem flattenTerms_mem {ts : List (Int × Tensor)} (hl : ∀ p ∈ ts, simplified p.2 = true) :
    ∀ ct ∈ flattenTerms ts, simplified ct.2 = true ∧ isSum ct.2 = false := by
  induction ts with
  | nil => intro ct hct; cases hct
  | cons p rest ih =>
    obtain ⟨c, t⟩ := p
    have hp := hl (c, t) (List.mem_cons_self _ _)
    have hrest := ih fun q hq => hl q (List.mem_cons_of_mem _ hq)
    intro ct hct
    by_cases hsum : isSum t = true
    · obtain ⟨inner, rfl⟩ : ∃ inner, t = .sumT inner := by
        cases t <;> simp [isSum] at hsum ⊢
      rw [flattenTerms_cons_sum] at hct
      rcases List.mem_append.mp hct with hmap | hct2
      · rw [List.mem_map] at hmap
        obtain ⟨q, hq, rfl⟩ := hmap
        have hin := (simplified_sum_iff.mp hp).2.1
        have := simpTermsOk_mem hin q hq
        exact ⟨this.1, this.2.1⟩
      · exact hrest ct hct2
    · rw [Bool.not_eq_true] at hsum
      rw [flattenTerms_cons_nonsum hsum] at hct
      rcases List.mem_cons.mp hct with rfl | hct2
      · exact ⟨hp, hsum⟩
      · exact hrest ct hct2

/-- Every member of a flattened factor list is simplified and not a
product, provided the input factors are simplified. -/
theorem flattenFactors_mem {fs : List Tensor} (hl : ∀ t ∈ fs, simplified t = true) :
    ∀ t ∈ flattenFactors fs, simplified t = true ∧ isProd t = false := by
  induction fs with
  | nil => intro t ht; cases ht
  | cons x rest ih =>
    have hx := hl x (List.mem_cons_self _ _)
    have hrest := ih fun y hy => hl y (List.mem_cons_of_mem _ hy)
    intro t ht
    by_cases hprod : isProd x = true
    · obtain ⟨inner, rfl⟩ : ∃ inner, x = .prod inner := by
        cases x <;> simp [isProd] at hprod ⊢
      rw [flattenFactors_cons_prod] at ht
      rcases List.mem_append.mp ht with hin | ht2
      · have hfo := (simplified_prod_iff.mp hx).1
        have := simpFactorsOk_mem hfo t hin
        exact ⟨this.1, this.2.1⟩
      · exact hrest t ht2
    · rw [Bool.not_eq_true] at hprod
      rw [flattenFactors_cons_nonprod hprod] at ht
      rcases List.mem_cons.mp ht with rfl | ht2
      · exact ⟨hx, hprod⟩
      · exact hrest t ht2

/-- Two chains that do not overlap are disjoint, and conversely. -/
theorem overlaps_eq_false_iff {a b : List String} :
    overlaps a b = false ↔ DisjR a b := by
  simp [overlaps, DisjR, List.any_eq_false, List.elem_iff]

/-- Disjointness is symmetric. -/
theorem DisjR.symmRel : Symmetric DisjR := by
  intro a b h x hx hxa
  exact h x hxa hx

/-- `pairwiseDisj` is the boolean of `List.Pairwise DisjR`. -/
theorem pairwiseDisj_iff {gs : List (List String)} :
    pairwiseDisj gs = true ↔ List.Pairwise DisjR gs := by
  induction gs with
  | nil => simp [pairwiseDisj]
  | cons g rest ih =>
    simp only [pairwiseDisj, Bool.and_eq_true, List.pairwise_cons, ih, disjFrom,
      List.all_eq_true, Bool.not_eq_true', List.elem_iff]
    constructor
    · rintro ⟨h1, h2⟩
      refine ⟨fun g2 hg2 x hx => ?_, h2⟩
      have := h1 g2 hg2 x hx
      simpa [List.elem_iff] using this
    · rintro ⟨h1, h2⟩
      refine ⟨fun g2 hg2 x hx => ?_, h2⟩
      simpa [List.elem_iff] using h1 g2 hg2 x hx

/-- Membership in the concatenation of a list of chains. -/
theorem mem_foldr_append {x : String} {l : List (List String)} :
    x ∈ l.foldr (fun g acc => g ++ acc) [] ↔ ∃ g ∈ l, x ∈ g := by
  induction l with
  | nil => simp
  | cons g rest ih => simp [ih]

/-- `addGroup` keeps the groups pairwise disjoint. -/
theorem pairwise_addGroup {gs : List (List String)} {es : List String}
    (h : List.Pairwise DisjR gs) : List.Pairwise DisjR (addGroup gs es) := by
  unfold addGroup
  rw [List.pairwise_append]
  refine ⟨h.filter _, List.pairwise_singleton _ _, ?_⟩
  intro g2 hg2 new hnew
  rw [List.mem_singleton] at hnew
  subst hnew
  rw [List.mem_filter] at hg2
  obtain ⟨hg2mem, hg2no⟩ := hg2
  have hdis : DisjR es g2 := by
    rw [Bool.not_eq_true'] at hg2no
    exact overlaps_eq_false_iff.mp hg2no
  intro x hx
  rw [List.mem_append]
  rintro (hxes | hxhits)
  · exact hdis x hxes hx
  · rw [mem_foldr_append] at hxhits
    obtain ⟨hgrp, hgrpmem, hxgrp⟩ := hxhits
    rw [List.mem_filter] at hgrpmem
    obtain ⟨hmem, hov⟩ := hgrpmem
    have hne : hgrp ≠ g2 := by
      intro hcontra
      rw [hcontra] at hov
      rw [hov] at hg2no
      simp at hg2no
    have := List.Pairwise.forall DisjR.symmRel h hmem hg2mem hne
    exact this x hxgrp hx

/-- The fold of `addGroup` keeps groups pairwise disjoint. -/
theorem pairwise_foldl_addGroup {C : List (List String)} :
    ∀ {acc : List (List String)}, List.Pairwise DisjR acc →
      List.Pairwise DisjR (C.foldl addGroup acc) := by
  induction C with
  | nil => intro acc h; exact h
  | cons e rest ih =>
    intro acc h
    exact ih (pairwise_addGroup h)

/-- Adding a chain that overlaps no group appends it. -/
theorem addGroup_of_disjoint {gs : List (List String)} {es : List String}
    (h : ∀ g ∈ gs, overlaps es g = false) : addGroup gs es = gs ++ [es] := by
  unfold addGroup
  have hhits : gs.filter (fun g => overlaps es g) = [] :=
    List.filter_eq_nil_iff.mpr (fun g hg => by simp [h g hg])
  have hmiss : gs.filter (fun g => !(overlaps es g)) = gs :=
    List.filter_eq_self.mpr (fun g hg => by simp [h g hg])
  rw [hhits, hmiss]
  simp

/-- Folding pairwise disjoint chains into disjoint groups appends them. -/
theorem foldl_addGroup_of_disjoint {C : List (List String)} :
    ∀ {acc : List (List String)},
      (∀ g ∈ C, ∀ g2 ∈ acc, overlaps g g2 = false) →
      List.Pairwise DisjR C →
      C.foldl addGroup acc = acc ++ C := by
  induction C with
  | nil => intro acc _ _; simp
  | cons e rest ih =>
    intro acc hacc hpw
    rw [List.pairwise_cons] at hpw
    have hstep : addGroup acc e = acc ++ [e] :=
      addGroup_of_disjoint (fun g hg => hacc e (List.mem_cons_self _ _) g hg)
    show List.foldl addGroup (addGroup acc e) rest = _
    rw [hstep, ih ?_ hpw.2]
    · simp
    · intro g hg g2 hg2
      rw [List.mem_append] at hg2
      rcases hg2 with hg2 | hg2
      · exact hacc g (List.mem_cons_of_mem _ hg) g2 hg2
      · rw [List.mem_singleton] at hg2
        subst hg2
        rw [overlaps_eq_false_iff]
        intro x hx hxe
        exact hpw.1 g hg x hxe hx

/-- A non-copy node has no copy edge list. -/
theorem copyEdgeList_eq_none {t : Tensor} (h : isCopy t = false) : copyEdgeList t = none := by
  cases t <;> simp [isCopy, copyEdgeList] at h ⊢

/-- A list of copy nodes is recovered from its edge lists. -/
theorem map_copy_filterMap {l : List Tensor} (h : ∀ t ∈ l, isCopy t = true) :
    (l.filterMap copyEdgeList).map Tensor.copy = l ∧ l.filter (fun t => !(isCopy t)) = [] := by
  induction l with
  | nil => simp
  | cons t rest ih =>
    have ht := h t (List.mem_cons_self _ _)
    obtain ⟨es, rfl⟩ : ∃ es, t = .copy es := by
      cases t <;> simp [isCopy] at ht ⊢
    have := ih fun y hy => h y (List.mem_cons_of_mem _ hy)
    refine ⟨?_, ?_⟩
    · simp [List.filterMap_cons, copyEdgeList, this.1]
    · rw [List.filter_cons_of_neg (by simp [isCopy])]
      exact this.2

/-- Extracting the edge lists of mapped copy nodes. -/
theorem filterMap_copyEdgeList_map_copy {l : List (List String)} :
    (l.map Tensor.copy).filterMap copyEdgeList = l := by
  induction l with
  | nil => rfl
  | cons g rest ih => simp [List.filterMap_cons, copyEdgeList, ih]

/-- A list of non-copies followed by copies is segregated. -/
theorem segregated_append {a b : List Tensor} (ha : ∀ t ∈ a, isCopy t = false)
    (hb : ∀ t ∈ b, isCopy t = true) : segregated (a ++ b) = true := by
  induction a with
  | nil =>
    simp only [List.nil_append]
    cases b with
    | nil => rfl
    | cons t rest =>
      have := hb t (List.mem_cons_self _ _)
      simp only [segregated, this, if_true, List.all_eq_true]
      intro y hy
      exact hb y (List.mem_cons_of_mem _ hy)
  | cons x xs ih =>
    have hx := ha x (List.mem_cons_self _ _)
    simp only [List.cons_append, segregated, hx]
    exact ih fun t ht => ha t (List.mem_cons_of_mem _ ht)

/-- A segregated factor list is its non-copies followed by its copies. -/
theorem segregated_decomp {fs : List Tensor} (h : segregated fs = true) :
    fs = fs.filter (fun t => !(isCopy t)) ++ (fs.filterMap copyEdgeList).map Tensor.copy := by
  induction fs with
  | nil => rfl
  | cons x xs ih =>
    by_cases hx : isCopy x = true
    · have hall : ∀ t ∈ x :: xs, isCopy t = true := by
        simp only [segregated, hx, if_true, List.all_eq_true] at h
        intro t ht
        rcases List.mem_cons.mp ht with rfl | ht
        · exact hx
        · exact h t ht
      have := map_copy_filterMap hall
      rw [this.2, this.1]
      rfl
    · rw [Bool.not_eq_true] at hx
      simp only [segregated, hx] at h
      rw [List.filter_cons_of_pos (by simp [hx]), List.filterMap_cons_none (copyEdgeList_eq_none hx)]
      rw [List.cons_append]
      exact congrArg _ (ih h)

/-- Merged chains carry no duplicate edges. -/
theorem onceNames_nodup {g : List String} : (onceNames g).Nodup :=
  List.Nodup.filter _ (List.nodup_dedup g)

/-- A duplicate-free chain is kept whole by `onceNames`. -/
theorem onceNames_of_nodup {g : List String} (h : g.Nodup) : onceNames g = g := by
  unfold onceNames
  rw [List.Nodup.dedup h]
  exact List.filter_eq_self.mpr fun e he => by simp [List.count_eq_one_of_mem h he]

/-- `onceNames` keeps only edges of the chain. -/
theorem onceNames_subset {g : List String} : ∀ x ∈ onceNames g, x ∈ g := by
  intro x hx
  unfold onceNames at hx
  rw [List.mem_filter, List.mem_dedup] at hx
  exact hx.1

/-- A list without copy nodes yields no copy edge lists. -/
theorem filterMap_copyEdgeList_nil {l : List Tensor} (h : ∀ t ∈ l, isCopy t = false) :
    l.filterMap copyEdgeList = [] := by
  induction l with
  | nil => rfl
  | cons t rest ih =>
    rw [List.filterMap_cons_none (copyEdgeList_eq_none (h t (List.mem_cons_self _ _)))]
    exact ih fun y hy => h y (List.mem_cons_of_mem _ hy)

/-- Filtering by `p` after keeping only the non-`p` elements is empty. -/
theorem filter_not_filter {α : Type} (p : α → Bool) (l : List α) :
    (l.filter (fun x => !(p x))).filter p = [] := by
  apply List.filter_eq_nil_iff.mpr
  intro x hx
  rw [List.mem_filter] at hx
  simp only [Bool.not_eq_true'] at hx
  simp [hx.2]

/-- Unfolding lemma for `copyMerge`. -/
theorem copyMerge_eq (fs : List Tensor) :
    copyMerge fs = fs.filter (fun t => !(isCopy t)) ++
      ((fs.filterMap copyEdgeList).foldl addGroup []).map (fun g => Tensor.copy (onceNames g)) :=
  rfl

/-- Unfolding lemma for `dropOnes`. -/
theorem dropOnes_eq (fs : List Tensor) :
    dropOnes fs = if (fs.filter (fun t => !(isOnes t))).isEmpty then fs.take 1
      else fs.filter (fun t => !(isOnes t)) := rfl

/-- A segregated product whose copies are disjoint and duplicate-free is
fixed by `copyMerge`. -/
theorem copyMerge_of_normal {fs : List Tensor} (hseg : segregated fs = true)
    (hpw : pairwiseDisj (fs.filterMap copyEdgeList) = true)
    (hnd : ∀ g ∈ fs.filterMap copyEdgeList, g.Nodup) :
    copyMerge fs = fs := by
  rw [copyMerge_eq]
  have hfold : (fs.filterMap copyEdgeList).foldl addGroup [] = fs.filterMap copyEdgeList := by
    have := @foldl_addGroup_of_disjoint (fs.filterMap copyEdgeList) []
      (by intro g hg g2 hg2; cases hg2) (pairwiseDisj_iff.mp hpw)
    simpa using this
  rw [hfold]
  have hmap : (fs.filterMap copyEdgeList).map (fun g => Tensor.copy (onceNames g)) =
      (fs.filterMap copyEdgeList).map Tensor.copy := by
    apply List.map_congr_left
    intro g hg
    rw [onceNames_of_nodup (hnd g hg)]
  rw [hmap]
  exact (segregated_decomp hseg).symm

/-- A product respecting the `Ones` condition is fixed by `dropOnes`. -/
theorem dropOnes_of_normal {fs : List Tensor}
    (h : (fs.filter isOnes).isEmpty = true ∨ (fs.length = 1 ∧ fs.all isOnes = true)) :
    dropOnes fs = fs := by
  unfold dropOnes
  rcases h with h | ⟨hlen, hall⟩
  · have hnil : fs.filter isOnes = [] := by
      cases hh : fs.filter isOnes with
      | nil => rfl
      | cons a l => rw [hh] at h; simp [List.isEmpty] at h
    have hfix : fs.filter (fun t => !(isOnes t)) = fs := by
      apply List.filter_eq_self.mpr
      intro t ht
      by_cases hot : isOnes t = true
      · exfalso
        have : t ∈ fs.filter isOnes := List.mem_filter.mpr ⟨ht, hot⟩
        rw [hnil] at this
        cases this
      · simpa using hot
    rw [hfix]
    cases fs with
    | nil => simp
    | cons x xs => simp [List.isEmpty]
  · obtain ⟨o, rfl⟩ : ∃ o, fs = [o] := by
      cases fs with
      | nil => simp at hlen
      | cons x xs =>
        cases xs with
        | nil => exact ⟨x, rfl⟩
        | cons y ys => simp at hlen
    have ho : isOnes o = true := by simpa using hall
    simp [List.filter_cons, ho, List.isEmpty, List.take]

/-- Normal forms are fixed points of `simplify`. -/
theorem simplify_of_simplified : ∀ t : Tensor, simplified t = true → simplify t = t := by
  intro t
  induction t using Tensor.myInd with
  | hv n o es => intro _; rfl
  | hc es => intro _; rfl
  | hz es => intro _; rfl
  | ho es => intro _; rfl
  | he n f t iht =>
    intro h
    simp only [simplified] at h
    simp only [simplify]
    rw [iht h]
  | hs ts ih =>
    intro h
    obtain ⟨hne, hok, hpw⟩ := simplified_sum_iff.mp h
    have hmem := simpTermsOk_mem hok
    have h1 : simpTerms ts = ts := simpTerms_eq_of fun ct hct => ih ct hct ((hmem ct hct).1)
    have h2 : flattenTerms ts = ts := flattenTerms_of_noSum fun ct hct => (hmem ct hct).2.1
    have h3 : ts.filter (fun ct => !(isZero ct.2)) = ts :=
      List.filter_eq_self.mpr fun ct hct => by simp [(hmem ct hct).2.2]
    have h4 : ts.isEmpty = false := by
      cases ts with
      | nil => exact absurd rfl hne
      | cons p rest => rfl
    have h5 : mergeTerms ts = ts := mergeTerms_of_pairwise hpw
    simp only [simplify]
    rw [h1, h2, h3, h5, h4]
    simp
  | hp fs ih =>
    intro h
    obtain ⟨hok, hseg, hpw, hnd, hones⟩ := simplified_prod_iff.mp h
    have hmem := simpFactorsOk_mem hok
    have h1 : simpFactors fs = fs := simpFactors_eq_of fun t ht => ih t ht ((hmem t ht).1)
    have h2 : flattenFactors fs = fs := flattenFactors_of_noProd fun t ht => (hmem t ht).2.1
    have h3 : fs.any isZero = false := by
      cases hh : fs.any isZero with
      | false => rfl
      | true =>
        exfalso
        rw [List.any_eq_true] at hh
        obtain ⟨x, hx, hxz⟩ := hh
        rw [(hmem x hx).2.2] at hxz
        cases hxz
    simp only [simplify]
    rw [h1, h2, h3]
    simp only [Bool.false_eq_true, if_false]
    rw [copyMerge_of_normal hseg hpw hnd, dropOnes_of_normal hones]

/-- `simplify` always produces a normal form. -/
theorem simplified_simplify : ∀ t : Tensor, simplified (simplify t) = true := by
  intro t
  induction t using Tensor.myInd with
  | hv n o es => rfl
  | hc es => rfl
  | hz es => rfl
  | ho es => rfl
  | he n f t iht =>
    simp only [simplify, simplified]
    exact iht
  | hs ts ih =>
    have hterms : ∀ p ∈ simpTerms ts, simplified p.2 = true := by
      intro p hp
      obtain ⟨q, hq, rfl⟩ := simpTerms_mem hp
      exact ih q hq
    have hflat := flattenTerms_mem hterms
    simp only [simplify]
    split
    · rfl
    · rename_i hne
      rw [simplified_sum_iff]
      refine ⟨?_, ?_, mergeTerms_pairwise _⟩
      · apply mergeTerms_ne_nil
        intro hcontra
        rw [hcontra] at hne
        exact hne rfl
      · apply simpTermsOk_of
        intro ct hct
        obtain ⟨q, hq, hq2⟩ := mergeTerms_mem hct
        rw [hq2]
        have hmf := List.mem_filter.mp hq
        have := hflat q hmf.1
        refine ⟨this.1, this.2, ?_⟩
        have := hmf.2
        simpa using this
  | hp fs ih =>
    have hfacs : ∀ t ∈ simpFactors fs, simplified t = true := by
      intro x hx
      obtain ⟨y, hy, rfl⟩ := simpFactors_mem hx
      exact ih y hy
    have hflat := flattenFactors_mem hfacs
    simp only [simplify]
    split
    · rfl
    · rename_i hanyz
      have hanyz2 : (flattenFactors (simpFactors fs)).any isZero = false := by
        cases hh : (flattenFactors (simpFactors fs)).any isZero with
        | false => rfl
        | true => exact absurd hh hanyz
      have hflatz : ∀ t ∈ flattenFactors (simpFactors fs), isZero t = false := by
        intro t ht
        cases hh : isZero t with
        | false => rfl
        | true =>
          exfalso
          have : (flattenFactors (simpFactors fs)).any isZero = true :=
            List.any_eq_true.mpr ⟨t, ht, hh⟩
          rw [hanyz2] at this
          cases this
      -- abbreviations for the three pieces of copyMerge
      have hothers : ∀ t ∈ (flattenFactors (simpFactors fs)).filter (fun t => !(isCopy t)),
          simplified t = true ∧ isProd t = false ∧ isZero t = false ∧ isCopy t = false := by
        intro t ht
        have hmf := List.mem_filter.mp ht
        refine ⟨(hflat t hmf.1).1, (hflat t hmf.1).2, hflatz t hmf.1, ?_⟩
        have := hmf.2
        simpa using this
      have hpwg : List.Pairwise DisjR
          (((flattenFactors (simpFactors fs)).filterMap copyEdgeList).foldl addGroup []) :=
        pairwise_foldl_addGroup List.Pairwise.nil
      rw [copyMerge_eq, dropOnes_eq]
      split
      · -- all factors of the merged product are Ones: only a prefix survives
        rename_i hempty
        have hmerged_nil :
            (((flattenFactors (simpFactors fs)).filterMap copyEdgeList).foldl addGroup []).map
              (fun g => Tensor.copy (onceNames g)) = [] := by
          cases hh : (((flattenFactors (simpFactors fs)).filterMap copyEdgeList).foldl
              addGroup []).map (fun g => Tensor.copy (onceNames g)) with
          | nil => rfl
          | cons m ms =>
            exfalso
            have hmmem : m ∈ ((flattenFactors (simpFactors fs)).filter (fun t => !(isCopy t)) ++
                (((flattenFactors (simpFactors fs)).filterMap copyEdgeList).foldl addGroup []).map
                  (fun g => Tensor.copy (onceNames g))) := by
              rw [hh]
              exact List.mem_append.mpr (Or.inr (List.mem_cons_self _ _))
            have hmcopy : isOnes m = false := by
              have : m ∈ (m :: ms) := List.mem_cons_self _ _
              rw [← hh] at this
              rw [List.mem_map] at this
              obtain ⟨g, _, rfl⟩ := this
              rfl
            have : m ∈ ((flattenFactors (simpFactors fs)).filter (fun t => !(isCopy t)) ++
                (((flattenFactors (simpFactors fs)).filterMap copyEdgeList).foldl addGroup []).map
                  (fun g => Tensor.copy (onceNames g))).filter (fun t => !(isOnes t)) :=
              List.mem_filter.mpr ⟨hmmem, by simp [hmcopy]⟩
            rw [List.isEmpty_iff.mp hempty] at this
            cases this
        rw [hmerged_nil, List.append_nil] at hempty ⊢
        have hallones : ∀ t ∈ (flattenFactors (simpFactors fs)).filter (fun t => !(isCopy t)),
            isOnes t = true := by
          intro t ht
          cases hh : isOnes t with
          | true => rfl
          | false =>
            exfalso
            have : t ∈ ((flattenFactors (simpFactors fs)).filter
                (fun t => !(isCopy t))).filter (fun t => !(isOnes t)) :=
              List.mem_filter.mpr ⟨ht, by simp [hh]⟩
            rw [List.isEmpty_iff.mp hempty] at this
            cases this
        cases hcase : (flattenFactors (simpFactors fs)).filter (fun t => !(isCopy t)) with
        | nil => rfl
        | cons x xs =>
          show simplified (.prod [x]) = true
          have hx := hothers x (by rw [hcase]; exact List.mem_cons_self _ _)
          have hxo := hallones x (by rw [hcase]; exact List.mem_cons_self _ _)
          rw [simplified_prod_iff]
          refine ⟨simpFactorsOk_of ?_, ?_, ?_, ?_, Or.inr ⟨rfl, by simp [hxo]⟩⟩
          · intro t ht
            rw [List.mem_singleton] at ht
            subst ht
            exact ⟨hx.1, hx.2.1, hx.2.2.1⟩
          · simp [segregated, hx.2.2.2]
          · rw [filterMap_copyEdgeList_nil]
            · rfl
            · intro t ht
              rw [List.mem_singleton] at ht
              subst ht
              exact hx.2.2.2
          · rw [filterMap_copyEdgeList_nil]
            · intro g hg
              cases hg
            · intro t ht
              rw [List.mem_singleton] at ht
              subst ht
              exact hx.2.2.2
      · -- some non-Ones factor remains: Ones factors are dropped
        rename_i hnonempty
        have hsplit : ((flattenFactors (simpFactors fs)).filter (fun t => !(isCopy t)) ++
            (((flattenFactors (simpFactors fs)).filterMap copyEdgeList).foldl addGroup []).map
              (fun g => Tensor.copy (onceNames g))).filter (fun t => !(isOnes t)) =
            ((flattenFactors (simpFactors fs)).filter (fun t => !(isCopy t))).filter
              (fun t => !(isOnes t)) ++
            (((flattenFactors (simpFactors fs)).filterMap copyEdgeList).foldl addGroup []).map
              (fun g => Tensor.copy (onceNames g)) := by
          rw [List.filter_append]
          have : ((((flattenFactors (simpFactors fs)).filterMap copyEdgeList).foldl
              addGroup []).map (fun g => Tensor.copy (onceNames g))).filter
                (fun t => !(isOnes t)) =
              (((flattenFactors (simpFactors fs)).filterMap copyEdgeList).foldl addGroup []).map
                (fun g => Tensor.copy (onceNames g)) := by
            apply List.filter_eq_self.mpr
            intro t ht
            rw [List.mem_map] at ht
            obtain ⟨g, _, rfl⟩ := ht
            rfl
          rw [this]
        rw [hsplit]
        rw [simplified_prod_iff]
        refine ⟨simpFactorsOk_of ?_, ?_, ?_, ?_, Or.inl ?_⟩
        · intro t ht
          rcases List.mem_append.mp ht with hto | htm
          · have := hothers t (List.mem_filter.mp hto).1
            exact ⟨this.1, this.2.1, this.2.2.1⟩
          · rw [List.mem_map] at htm
            obtain ⟨g, _, rfl⟩ := htm
            exact ⟨rfl, rfl, rfl⟩
        · apply segregated_append
          · intro t ht
            exact (hothers t (List.mem_filter.mp ht).1).2.2.2
          · intro t ht
            rw [List.mem_map] at ht
            obtain ⟨g, _, rfl⟩ := ht
            rfl
        · rw [List.filterMap_append]
          rw [filterMap_copyEdgeList_nil (fun t ht => (hothers t (List.mem_filter.mp ht).1).2.2.2)]
          rw [List.nil_append]
          have hmm : (((flattenFactors (simpFactors fs)).filterMap copyEdgeList).foldl
              addGroup []).map (fun g => Tensor.copy (onceNames g)) =
              ((((flattenFactors (simpFactors fs)).filterMap copyEdgeList).foldl
                addGroup []).map onceNames).map Tensor.copy := by
            rw [List.map_map]
            rfl
          rw [hmm, filterMap_copyEdgeList_map_copy]
          rw [pairwiseDisj_iff]
          exact List.Pairwise.map onceNames
            (fun a b hab x hx hxb => hab x (onceNames_subset x hx) (onceNames_subset x hxb)) hpwg
        · intro g hg
          rw [List.filterMap_append] at hg
          rw [filterMap_copyEdgeList_nil
            (fun t ht => (hothers t (List.mem_filter.mp ht).1).2.2.2)] at hg
          rw [List.nil_append] at hg
          have hmm : (((flattenFactors (simpFactors fs)).filterMap copyEdgeList).foldl
              addGroup []).map (fun g => Tensor.copy (onceNames g)) =
              ((((flattenFactors (simpFactors fs)).filterMap copyEdgeList).foldl
                addGroup []).map onceNames).map Tensor.copy := by
            rw [List.map_map]
            rfl
          rw [hmm, filterMap_copyEdgeList_map_copy] at hg
          rw [List.mem_map] at hg
          obtain ⟨g2, _, rfl⟩ := hg
          exact onceNames_nodup
        · have h1 : (((flattenFactors (simpFactors fs)).filter (fun t => !(isCopy t))).filter
              (fun t => !(isOnes t))).filter isOnes = [] := filter_not_filter _ _
          have h2 : ((((flattenFactors (simpFactors fs)).filterMap copyEdgeList).foldl
              addGroup []).map (fun g => Tensor.copy (onceNames g))).filter isOnes = [] := by
            apply List.filter_eq_nil_iff.mpr
            intro x hx
            rw [List.mem_map] at hx
            obtain ⟨g, _, rfl⟩ := hx
            simp [isOnes]
          rw [List.filter_append, h1, h2]
          rfl

/-- C6: the modelled simplification pass is idempotent: simplifying a
second time changes nothing, for every graph (whether or not reachable
from the composition operators), including graphs containing
`Elementwise` nodes, whose `simplify` re-wraps the recursively
simplified inner tensor. -/
theorem C6_simplify_idempotent : ∀ g : Tensor, simplify (simplify g) = simplify g :=
  fun g => simplify_of_simplified (simplify g) (simplified_simplify g)

/-- Witness for C10 at `t = u = Variable("t", ["i"])`, `k = 2`. -/
theorem C10_pow_spec_witness :
    functions.pow (Tensor.variable_ "t" ["i"] ["i"]) 2 =
      Tensor.elem "pow(2)" (.powk 2) (Tensor.variable_ "t" ["i"] ["i"]) :=
  (C10_pow_spec (Tensor.variable_ "t" ["i"] ["i"]) (Tensor.variable_ "t" ["i"] ["i"]) 2).2.2.1
    (by decide)

/-- Every used name is bounded by `maxLen`. -/
theorem maxLen_ge {used : List String} : ∀ u ∈ used, u.length ≤ maxLen used := by
  induction used with
  | nil => intro u hu; cases hu
  | cons a l ih =>
    intro u hu
    rcases List.mem_cons.mp hu with rfl | hu
    · exact Nat.le_max_left _ _
    · exact le_trans (ih u hu) (Nat.le_max_right _ _)

/-- The length of a run of underscores. -/
theorem underscores_length (n : Nat) : (underscores n).length = n := by
  simp [underscores, String.length]

/-- The length of a generated fresh name. -/
theorem freshName_length (used : List String) (e : String) :
    (freshName used e).length = e.length + maxLen used + 1 := by
  simp only [freshName, String.length_append, underscores_length]
  omega

/-- A generated fresh name is longer than anything used, hence unused. -/
theorem freshName_not_mem (used : List String) (e : String) : freshName used e ∉ used := by
  intro h
  have h1 := maxLen_ge _ h
  rw [freshName_length] at h1
  omega

/-- `applyRen` is the identity outside the keys. -/
theorem applyRen_not_mem {σ : List (String × String)} {e : String}
    (h : e ∉ σ.map Prod.fst) : applyRen σ e = e := by
  unfold applyRen
  have : σ.find? (fun pr => pr.1 == e) = none := by
    rw [List.find?_eq_none]
    intro pr hpr
    simp only [beq_iff_eq]
    intro hcontra
    exact h (List.mem_map.mpr ⟨pr, hpr, hcontra⟩)
  rw [this]

/-- With duplicate-free keys, `applyRen` pairs each key with its entry. -/
theorem applyRen_entry {σ : List (String × String)} (hN : (σ.map Prod.fst).Nodup) :
    ∀ k ∈ σ.map Prod.fst, (k, applyRen σ k) ∈ σ := by
  induction σ with
  | nil => intro k hk; cases hk
  | cons p σ2 ih =>
    obtain ⟨k0, v0⟩ := p
    simp only [List.map_cons, List.nodup_cons] at hN
    intro k hk
    rcases List.mem_cons.mp hk with rfl | hk
    · have h0 : applyRen ((k, v0) :: σ2) k = v0 := by
        unfold applyRen
        rw [List.find?_cons_of_pos _ (by simp)]
      rw [h0]
      exact List.mem_cons_self _ _
    · have hne : k0 ≠ k := fun hcontra => hN.1 (hcontra ▸ hk)
      have : applyRen ((k0, v0) :: σ2) k = applyRen σ2 k := by
        unfold applyRen
        rw [List.find?_cons_of_neg _ (by simp [hne])]
      rw [this]
      exact List.mem_cons_of_mem _ (ih hN.2 k hk)

/-- With duplicate-free keys, mapping `applyRen` over the keys yields the
values. -/
theorem applyRen_keys_map {σ : List (String × String)} (hN : (σ.map Prod.fst).Nodup) :
    (σ.map Prod.fst).map (applyRen σ) = σ.map Prod.snd := by
  induction σ with
  | nil => rfl
  | cons p σ2 ih =>
    obtain ⟨k0, v0⟩ := p
    simp only [List.map_cons, List.nodup_cons] at hN
    simp only [List.map_cons]
    have h0 : applyRen ((k0, v0) :: σ2) k0 = v0 := by
      unfold applyRen
      rw [List.find?_cons_of_pos _ (by simp)]
    rw [h0]
    have h1 : (σ2.map Prod.fst).map (applyRen ((k0, v0) :: σ2)) =
        (σ2.map Prod.fst).map (applyRen σ2) := by
      apply List.map_congr_left
      intro k hk
      have hne : k0 ≠ k := fun hcontra => hN.1 (hcontra ▸ hk)
      unfold applyRen
      rw [List.find?_cons_of_neg _ (by simp [hne])]
    rw [h1, ih hN.2]

/-- Distinct keys with equal values are impossible under duplicate-free
values. -/
theorem applyRen_snd_inj {σ : List (String × String)} (hN : (σ.map Prod.snd).Nodup)
    {a b r : String} (ha : (a, r) ∈ σ) (hb : (b, r) ∈ σ) : a = b := by
  induction σ with
  | nil => cases ha
  | cons p σ2 ih =>
    obtain ⟨k0, v0⟩ := p
    simp only [List.map_cons, List.nodup_cons] at hN
    rcases List.mem_cons.mp ha with ha0 | ha2
    · rcases List.mem_cons.mp hb with hb0 | hb2
      · rw [Prod.mk.injEq] at ha0 hb0
        rw [ha0.1, hb0.1]
      · exfalso
        rw [Prod.mk.injEq] at ha0
        apply hN.1
        rw [← ha0.2]
        exact List.mem_map.mpr ⟨(b, r), hb2, rfl⟩
    · rcases List.mem_cons.mp hb with hb0 | hb2
      · exfalso
        rw [Prod.mk.injEq] at hb0
        apply hN.1
        rw [← hb0.2]
        exact List.mem_map.mpr ⟨(a, r), ha2, rfl⟩
      · exact ih hN.2 ha2 hb2

/-- A key maps into the values. -/
theorem applyRen_mem_snd {σ : List (String × String)} (hN : (σ.map Prod.fst).Nodup)
    {k : String} (hk : k ∈ σ.map Prod.fst) : applyRen σ k ∈ σ.map Prod.snd :=
  List.mem_map.mpr ⟨(k, applyRen σ k), applyRen_entry hN k hk, rfl⟩

/-- `applyRen` is injective on a set containing the keys and avoiding the
values. -/
theorem applyRen_injOn {σ : List (String × String)} {S : List String}
    (hkN : (σ.map Prod.fst).Nodup) (hvN : (σ.map Prod.snd).Nodup)
    (htar : ∀ v ∈ σ.map Prod.snd, v ∉ S) :
    ∀ a ∈ S, ∀ b ∈ S, applyRen σ a = applyRen σ b → a = b := by
  intro a haS b hbS heq
  by_cases ha : a ∈ σ.map Prod.fst <;> by_cases hb : b ∈ σ.map Prod.fst
  · have hea := applyRen_entry hkN a ha
    have heb := applyRen_entry hkN b hb
    rw [heq] at hea
    exact applyRen_snd_inj hvN hea heb
  · exfalso
    rw [applyRen_not_mem hb] at heq
    apply htar (applyRen σ a) (applyRen_mem_snd hkN ha)
    rw [heq]
    exact hbS
  · exfalso
    rw [applyRen_not_mem ha] at heq
    apply htar (applyRen σ b) (applyRen_mem_snd hkN hb)
    rw [← heq]
    exact haS
  · rw [applyRen_not_mem ha, applyRen_not_mem hb] at heq
    exact heq

/-- Membership in the occurrence list of a factor list. -/
theorem mem_occsOf {fs : List Tensor} {e : String} :
    e ∈ occsOf fs ↔ ∃ t ∈ fs, e ∈ freeEdges t := by
  induction fs with
  | nil => simp [occsOf]
  | cons t rest ih => simp [occsOf, ih]

/-- The names of a member factor are names of the list. -/
theorem mem_namesOfL {fs : List Tensor} {t : Tensor} (ht : t ∈ fs) :
    ∀ a ∈ namesOf t, a ∈ namesOfL fs := by
  induction fs with
  | nil => cases ht
  | cons x rest ih =>
    intro a ha
    rcases List.mem_cons.mp ht with rfl | ht2
    · exact List.mem_append.mpr (Or.inl ha)
    · exact List.mem_append.mpr (Or.inr (ih ht2 a ha))

/-- The names of a member term are names of the list. -/
theorem mem_namesOfT {ts : List (Int × Tensor)} {ct : Int × Tensor} (h : ct ∈ ts) :
    ∀ a ∈ namesOf ct.2, a ∈ namesOfT ts := by
  induction ts with
  | nil => cases h
  | cons p rest ih =>
    obtain ⟨c, t⟩ := p
    intro a ha
    rcases List.mem_cons.mp h with rfl | h2
    · exact List.mem_append.mpr (Or.inl ha)
    · exact List.mem_append.mpr (Or.inr (ih h2 a ha))

/-- Free edges are written somewhere in the graph. -/
theorem freeEdges_subset_namesOf : ∀ t : Tensor, ∀ e ∈ freeEdges t, e ∈ namesOf t := by
  intro t
  induction t using Tensor.myInd with
  | hv n o es => intro e he; exact he
  | hc es => intro e he; exact he
  | hz es => intro e he; exact he
  | ho es => intro e he; exact he
  | he n f t iht => intro e hes; exact iht e hes
  | hp fs ih =>
    intro e he
    rw [freeEdges_prod_def] at he
    have := (List.mem_filter.mp he).1
    rw [List.mem_dedup, mem_occsOf] at this
    obtain ⟨t, ht, het⟩ := this
    exact mem_namesOfL ht e (ih t ht e het)
  | hs ts ih =>
    intro e he
    cases ts with
    | nil => cases he
    | cons p rest =>
      obtain ⟨c, t⟩ := p
      have : e ∈ freeEdges t := he
      exact mem_namesOfT (List.mem_cons_self _ _) e (ih (c, t) (List.mem_cons_self _ _) e this)

/-- The image count is zero when the preimage is absent. -/
theorem count_map_eq_zero_of {l : List String} {f : String → String} {a : String}
    (h : ∀ b ∈ l, f b = f a → b = a) (ha : a ∉ l) : (l.map f).count (f a) = 0 := by
  rw [List.count_eq_zero]
  intro hmem
  rw [List.mem_map] at hmem
  obtain ⟨b, hb, hfb⟩ := hmem
  exact ha (h b hb hfb ▸ hb)

/-- Count of an image under a map injective on the list. -/
theorem count_map_injOn {l : List String} {f : String → String}
    (hinj : ∀ a ∈ l, ∀ b ∈ l, f a = f b → a = b) :
    ∀ a ∈ l, (l.map f).count (f a) = l.count a := by
  induction l with
  | nil => intro a ha; cases ha
  | cons x rest ih =>
    intro a ha
    have hrest : ∀ c ∈ rest, ∀ b ∈ rest, f c = f b → c = b := fun c hc b hb =>
      hinj c (List.mem_cons_of_mem _ hc) b (List.mem_cons_of_mem _ hb)
    simp only [List.map_cons, List.count_cons]
    by_cases hax : a = x
    · subst hax
      simp only [beq_self_eq_true, if_true]
      by_cases har : a ∈ rest
      · rw [ih hrest a har]
      · have h0 : (rest.map f).count (f a) = 0 := by
          apply count_map_eq_zero_of _ har
          intro b hb hfb
          exact hinj b (List.mem_cons_of_mem _ hb) a ha hfb
        rw [h0, List.count_eq_zero.mpr har]
    · have ha2 : a ∈ rest := by
        rcases List.mem_cons.mp ha with rfl | h2
        · exact absurd rfl hax
        · exact h2
      have hfx : (f x == f a) = false := by
        rw [beq_eq_false_iff_ne]
        intro hcontra
        exact hax (hinj a ha x (List.mem_cons_self _ _) hcontra.symm)
      have hx : (x == a) = false := by
        rw [beq_eq_false_iff_ne]
        intro hcontra
        exact hax hcontra.symm
      simp only [hfx, hx, if_false]
      exact ih hrest a ha2

/-- Deduplication commutes with a map injective on the list. -/
theorem dedup_map_injOn {l : List String} {f : String → String}
    (hinj : ∀ a ∈ l, ∀ b ∈ l, f a = f b → a = b) :
    (l.map f).dedup = l.dedup.map f := by
  induction l with
  | nil => rfl
  | cons x rest ih =>
    have hrest : ∀ c ∈ rest, ∀ b ∈ rest, f c = f b → c = b := fun c hc b hb =>
      hinj c (List.mem_cons_of_mem _ hc) b (List.mem_cons_of_mem _ hb)
    simp only [List.map_cons]
    by_cases hx : x ∈ rest
    · rw [List.dedup_cons_of_mem hx, List.dedup_cons_of_mem (List.mem_map_of_mem f hx),
        ih hrest]
    · have hfx : f x ∉ rest.map f := by
        intro hmem
        rw [List.mem_map] at hmem
        obtain ⟨b, hb, hfb⟩ := hmem
        exact hx (hinj b (List.mem_cons_of_mem _ hb) x (List.mem_cons_self _ _) hfb ▸ hb)
      rw [List.dedup_cons_of_not_mem hx, List.dedup_cons_of_not_mem hfx, List.map_cons,
        ih hrest]

/-- Renaming a factor list renames its occurrence list. -/
theorem occsOf_renameFL {f : String → String} {fs : List Tensor}
    (h : ∀ t ∈ fs, freeEdges (renameF f t) = (freeEdges t).map f) :
    occsOf (renameFL f fs) = (occsOf fs).map f := by
  induction fs with
  | nil => rfl
  | cons t rest ih =>
    simp only [renameFL, occsOf, List.map_append]
    rw [h t (List.mem_cons_self _ _), ih fun y hy => h y (List.mem_cons_of_mem _ hy)]

/-- A rename injective on the names of the graph maps the free edges
pointwise. -/
theorem freeEdges_renameF : ∀ (t : Tensor) (f : String → String),
    (∀ a ∈ namesOf t, ∀ b ∈ namesOf t, f a = f b → a = b) →
    freeEdges (renameF f t) = (freeEdges t).map f := by
  intro t
  induction t using Tensor.myInd with
  | hv n o es => intro f _; rfl
  | hc es => intro f _; rfl
  | hz es => intro f _; rfl
  | ho es => intro f _; rfl
  | he n g t iht => intro f hinj; exact iht f hinj
  | hs ts ih =>
    intro f hinj
    cases ts with
    | nil => rfl
    | cons p rest =>
      obtain ⟨c, t⟩ := p
      show freeEdges (renameF f t) = (freeEdges t).map f
      apply ih (c, t) (List.mem_cons_self _ _)
      intro a ha b hb
      exact hinj a (mem_namesOfT (List.mem_cons_self _ _) a ha)
        b (mem_namesOfT (List.mem_cons_self _ _) b hb)
  | hp fs ih =>
    intro f hinj
    have hmem : ∀ t ∈ fs, freeEdges (renameF f t) = (freeEdges t).map f := by
      intro t ht
      apply ih t ht
      intro a ha b hb
      exact hinj a (mem_namesOfL ht a ha) b (mem_namesOfL ht b hb)
    have hocc : occsOf (renameFL f fs) = (occsOf fs).map f := occsOf_renameFL hmem
    have hoinj : ∀ a ∈ occsOf fs, ∀ b ∈ occsOf fs, f a = f b → a = b := by
      intro a ha b hb
      rw [mem_occsOf] at ha hb
      obtain ⟨t1, ht1, ha1⟩ := ha
      obtain ⟨t2, ht2, hb1⟩ := hb
      exact hinj a (mem_namesOfL ht1 a (freeEdges_subset_namesOf t1 a ha1))
        b (mem_namesOfL ht2 b (freeEdges_subset_namesOf t2 b hb1))
    show freeEdges (.prod (renameFL f fs)) = _
    rw [freeEdges_prod_def, freeEdges_prod_def, hocc, dedup_map_injOn hoinj]
    rw [List.filter_map]
    apply congrArg
    apply List.filter_congr
    intro a ha
    rw [List.mem_dedup] at ha
    simp only [Function.comp_apply, decide_eq_decide]
    rw [count_map_injOn hoinj a ha]

/-- Modelled-renaming bookkeeping: with every edge colliding, `mkSigma`
keys are the edges, its values are fresh for the incoming universe and
pairwise distinct, and the outgoing universe contains the incoming one
and all values. -/
theorem mkSigma_spec (coll : String → Bool) : ∀ (es used : List String),
    (∀ e ∈ es, coll e = true) →
    ((mkSigma coll used es).1.map Prod.fst = es) ∧
    (∀ x ∈ (mkSigma coll used es).1.map Prod.snd, x ∉ used) ∧
    ((mkSigma coll used es).1.map Prod.snd).Nodup ∧
    (∀ x ∈ used, x ∈ (mkSigma coll used es).2) ∧
    (∀ x ∈ (mkSigma coll used es).1.map Prod.snd, x ∈ (mkSigma coll used es).2) := by
  intro es
  induction es with
  | nil =>
    intro used _
    exact ⟨rfl, fun x hx => absurd hx (List.not_mem_nil x), List.nodup_nil,
      fun x hx => hx, fun x hx => absurd hx (List.not_mem_nil x)⟩
  | cons e rest ih =>
    intro used hall
    have hce : coll e = true := hall e (List.mem_cons_self _ _)
    have hrest : ∀ x ∈ rest, coll x = true := fun x hx => hall x (List.mem_cons_of_mem _ hx)
    have hmk : mkSigma coll used (e :: rest) =
        ((e, freshName used e) :: (mkSigma coll (freshName used e :: used) rest).1,
          (mkSigma coll (freshName used e :: used) rest).2) := by
      simp [mkSigma, hce]
    obtain ⟨ih1, ih2, ih3, ih4, ih5⟩ := ih (freshName used e :: used) hrest
    rw [hmk]
    refine ⟨?_, ?_, ?_, ?_, ?_⟩
    · simp only [List.map_cons, ih1]
    · intro x hx
      simp only [List.map_cons, List.mem_cons] at hx
      rcases hx with rfl | hx
      · exact freshName_not_mem used e
      · intro hcontra
        exact ih2 x hx (List.mem_cons_of_mem _ hcontra)
    · simp only [List.map_cons, List.nodup_cons]
      refine ⟨?_, ih3⟩
      intro hcontra
      exact ih2 _ hcontra (List.mem_cons_self _ _)
    · intro x hx
      exact ih4 x (List.mem_cons_of_mem _ hx)
    · intro x hx
      simp only [List.map_cons, List.mem_cons] at hx
      rcases hx with rfl | hx
      · exact ih4 _ (List.mem_cons_self _ _)
      · exact ih5 x hx

/-- Modelled-renaming bookkeeping over a tensor list: the rename maps
are keyed by each node's free edges, the renamed nodes' occurrence list
is exactly the generated values, and the values are pairwise distinct
and fresh for the incoming universe. -/
theorem mdAux_spec (coll : String → Bool) : ∀ (ts : List Tensor) (used : List String),
    (∀ t ∈ ts, ∀ e ∈ freeEdges t, coll e = true) →
    (∀ t ∈ ts, ∀ a ∈ namesOf t, a ∈ used) →
    (∀ t ∈ ts, (freeEdges t).Nodup) →
    List.Forall₂ (fun t σ => σ.map Prod.fst = freeEdges t) ts (mdAux coll used ts).2 ∧
    occsOf (mdAux coll used ts).1 = targetsOf (mdAux coll used ts).2 ∧
    (targetsOf (mdAux coll used ts).2).Nodup ∧
    (∀ x ∈ targetsOf (mdAux coll used ts).2, x ∉ used) := by
  intro ts
  induction ts with
  | nil =>
    intro used _ _ _
    exact ⟨List.Forall₂.nil, rfl, List.nodup_nil, fun x hx => absurd hx (List.not_mem_nil x)⟩
  | cons t rest ih =>
    intro used hcoll hnames hnodup
    set σ1 := (mkSigma coll used (freeEdges t)).1 with hσ1
    set u2 := (mkSigma coll used (freeEdges t)).2 with hu2
    obtain ⟨mk1, mk2, mk3, mk4, mk5⟩ :=
      mkSigma_spec coll (freeEdges t) used (hcoll t (List.mem_cons_self _ _))
    obtain ⟨ih1, ih2, ih3, ih4⟩ := ih u2
      (fun y hy => hcoll y (List.mem_cons_of_mem _ hy))
      (fun y hy a ha => mk4 a (hnames y (List.mem_cons_of_mem _ hy) a ha))
      (fun y hy => hnodup y (List.mem_cons_of_mem _ hy))
    have hkeysN : (σ1.map Prod.fst).Nodup := by
      rw [mk1]
      exact hnodup t (List.mem_cons_self _ _)
    have hfree : freeEdges (renameF (applyRen σ1) t) = σ1.map Prod.snd := by
      rw [freeEdges_renameF t _ (applyRen_injOn hkeysN mk3
        (fun v hv hvS => mk2 v hv (hnames t (List.mem_cons_self _ _) v hvS)))]
      rw [← mk1]
      exact applyRen_keys_map hkeysN
    have hmd : mdAux coll used (t :: rest) =
        (renameF (applyRen σ1) t :: (mdAux coll u2 rest).1,
          σ1 :: (mdAux coll u2 rest).2) := by
      simp [mdAux]
    rw [hmd]
    refine ⟨List.Forall₂.cons mk1 ih1, ?_, ?_, ?_⟩
    · show freeEdges _ ++ occsOf _ = _ ++ targetsOf _
      rw [hfree, ih2]
    · show (σ1.map Prod.snd ++ targetsOf (mdAux coll u2 rest).2).Nodup
      rw [List.nodup_append]
      exact ⟨mk3, ih3, fun x hx hy => ih4 x hy (mk5 x hx)⟩
    · intro x hx
      rcases List.mem_append.mp hx with hx | hx
      · exact mk2 x hx
      · intro hcontra
        exact ih4 x hx (mk4 x hcontra)

/-- Occurrence lists concatenate over appended factor lists. -/
theorem occsOf_append (a b : List Tensor) : occsOf (a ++ b) = occsOf a ++ occsOf b := by
  induction a with
  | nil => rfl
  | cons t rest ih => simp [occsOf, ih]

/-- Counting inside the occurrence list of mapped `Copy` nodes. -/
theorem count_occsOf_map_copy {l : List String} {g : String → List String} {x : String} :
    (occsOf (l.map (fun e => Tensor.copy (g e)))).count x =
      (l.map (fun e => (g e).count x)).sum := by
  induction l with
  | nil => rfl
  | cons e rest ih => simp [occsOf, freeEdges, List.count_append, ih]

/-- Unfolding lemma for `targetsOf`. -/
theorem targetsOf_cons {σ : List (String × String)} {σs : List (List (String × String))} :
    targetsOf (σ :: σs) = σ.map Prod.snd ++ targetsOf σs := rfl

/-- Counting inside the concatenated rename targets. -/
theorem count_targetsOf {σs : List (List (String × String))} {x : String} :
    (targetsOf σs).count x = (σs.map (fun σ => (σ.map Prod.snd).count x)).sum := by
  induction σs with
  | nil => rfl
  | cons σ rest ih => rw [targetsOf_cons, List.count_append, ih, List.map_cons, List.sum_cons]

/-- Sums of pointwise sums split. -/
theorem sum_map_add {β : Type} (B : List β) (f g : β → Nat) :
    (B.map (fun b => f b + g b)).sum = (B.map f).sum + (B.map g).sum := by
  induction B with
  | nil => rfl
  | cons b rest ih =>
    simp only [List.map_cons, List.sum_cons, ih]
    omega

/-- Double list sums commute. -/
theorem list_sum_comm {α β : Type} (A : List α) (B : List β) (f : α → β → Nat) :
    (A.map (fun a => (B.map (f a)).sum)).sum = (B.map (fun b => (A.map (fun a => f a b)).sum)).sum := by
  induction A with
  | nil =>
    simp only [List.map_nil, List.sum_nil]
    symm
    apply List.sum_eq_zero
    intro x hx
    rw [List.mem_map] at hx
    obtain ⟨b, _, rfl⟩ := hx
    rfl
  | cons a rest ih =>
    simp only [List.map_cons, List.sum_cons, ih]
    rw [← sum_map_add]

/-- Counting the hits of a lookup over a list of rename maps. -/
theorem count_filterMap_findRen {σs : List (List (String × String))} {e x : String} :
    ((σs.filterMap (fun σ => findRen σ e)).count x) =
      (σs.map (fun σ => if findRen σ e = some x then 1 else 0)).sum := by
  induction σs with
  | nil => rfl
  | cons σ rest ih =>
    have hcons : (σ :: rest).filterMap (fun σ2 => findRen σ2 e) =
        (match findRen σ e with
          | some v => [v]
          | none => []) ++ rest.filterMap (fun σ2 => findRen σ2 e) := by
      cases hh : findRen σ e with
      | none => simp [List.filterMap_cons, hh]
      | some v => simp [List.filterMap_cons, hh]
    cases hf : findRen σ e with
    | none =>
      rw [hcons, hf]
      simp [ih, hf]
    | some v =>
      rw [hcons, hf, List.count_append, List.count_cons, List.count_nil, ih,
        List.map_cons, List.sum_cons, hf]
      by_cases hvx : v = x
      · subst hvx
        simp only [beq_self_eq_true, if_true, Option.some.injEq, if_pos rfl]
      · have h2 : (x == v) = false := by
          rw [beq_eq_false_iff_ne]
          exact Ne.symm hvx
        have h3 : (v == x) = false := by
          rw [beq_eq_false_iff_ne]
          exact hvx
        simp only [Option.some.injEq, hvx, if_false, h2, h3, Bool.false_eq_true]

/-- Lookup misses outside the keys. -/
theorem findRen_eq_none {σ : List (String × String)} {e : String}
    (h : e ∉ σ.map Prod.fst) : findRen σ e = none := by
  unfold findRen
  have : σ.find? (fun pr => pr.1 == e) = none := by
    rw [List.find?_eq_none]
    intro pr hpr
    simp only [beq_iff_eq]
    intro hcontra
    exact h (List.mem_map.mpr ⟨pr, hpr, hcontra⟩)
  rw [this]
  rfl

/-- Lookup at the head key. -/
theorem findRen_cons_self {k v : String} {σ : List (String × String)} :
    findRen ((k, v) :: σ) k = some v := by
  unfold findRen
  rw [List.find?_cons_of_pos _ (by simp)]
  rfl

/-- Lookup skipping a mismatched head. -/
theorem findRen_cons_ne {k v e : String} {σ : List (String × String)} (h : k ≠ e) :
    findRen ((k, v) :: σ) e = findRen σ e := by
  unfold findRen
  rw [List.find?_cons_of_neg _ (by simp [h])]

/-- Summing the lookup indicator of one rename map over a duplicate-free
superset of its keys counts the value's occurrences. -/
theorem lookup_sum : ∀ (σ : List (String × String)) (es : List String) (x : String),
    es.Nodup → (σ.map Prod.fst).Nodup → (∀ k ∈ σ.map Prod.fst, k ∈ es) →
    (es.map (fun e => if findRen σ e = some x then 1 else 0)).sum = (σ.map Prod.snd).count x := by
  intro σ
  induction σ with
  | nil =>
    intro es x _ _ _
    have hnone : ∀ e, findRen ([] : List (String × String)) e = none := fun _ => rfl
    simp [hnone]
  | cons p σ2 ih =>
    obtain ⟨k, v⟩ := p
    intro es x hesN hkN hsub
    simp only [List.map_cons, List.nodup_cons] at hkN
    have hk : k ∈ es := hsub k (by simp)
    obtain ⟨es1, es2, rfl⟩ := List.append_of_mem hk
    have hN1 : k ∉ es1 ∧ k ∉ es2 ∧ (es1 ++ es2).Nodup := by
      rw [List.nodup_append] at hesN ⊢
      obtain ⟨h1, h2, h3⟩ := hesN
      rw [List.nodup_cons] at h2
      refine ⟨fun hc => h3 hc (List.mem_cons_self _ _), h2.1, h1, h2.2, ?_⟩
      intro a ha hb
      exact h3 ha (List.mem_cons_of_mem _ hb)
    have hcongr1 : es1.map (fun e => if findRen ((k, v) :: σ2) e = some x then 1 else 0) =
        es1.map (fun e => if findRen σ2 e = some x then 1 else 0) := by
      apply List.map_congr_left
      intro e he
      rw [findRen_cons_ne (fun hc => hN1.1 (by rw [hc]; exact he))]
    have hcongr2 : es2.map (fun e => if findRen ((k, v) :: σ2) e = some x then 1 else 0) =
        es2.map (fun e => if findRen σ2 e = some x then 1 else 0) := by
      apply List.map_congr_left
      intro e he
      rw [findRen_cons_ne (fun hc => hN1.2.1 (by rw [hc]; exact he))]
    have hkmiss : findRen σ2 k = none := findRen_eq_none hkN.1
    have hsub2 : ∀ k2 ∈ σ2.map Prod.fst, k2 ∈ es1 ++ es2 := by
      intro k2 hk2
      have := hsub k2 (List.mem_cons_of_mem _ hk2)
      rw [List.mem_append] at this ⊢
      rcases this with h | h
      · exact Or.inl h
      · rcases List.mem_cons.mp h with rfl | h
        · exact absurd hk2 hkN.1
        · exact Or.inr h
    have hIH := ih (es1 ++ es2) x hN1.2.2 hkN.2 hsub2
    rw [List.map_append, List.sum_append] at hIH
    simp only [List.map_append, List.sum_append, List.map_cons, List.sum_cons,
      hcongr1, hcongr2, findRen_cons_self, List.count_cons]
    by_cases hvx : v = x
    · subst hvx
      simp only [if_pos rfl, beq_self_eq_true, if_true]
      omega
    · have h2 : (x == v) = false := by
        rw [beq_eq_false_iff_ne]
        exact Ne.symm hvx
      have h3 : (v == x) = false := by
        rw [beq_eq_false_iff_ne]
        exact hvx
      simp only [Option.some.injEq, hvx, if_false, h2, h3, Bool.false_eq_true]
      omega

/-- Summing the output-edge indicator over a duplicate-free list. -/
theorem ite_mem_sum {outE : List String} {x : String} : ∀ (es : List String), es.Nodup →
    (es.map (fun e => ((if e ∈ outE then [e] else [] : List String)).count x)).sum =
      if x ∈ outE ∧ x ∈ es then 1 else 0 := by
  intro es
  induction es with
  | nil => simp
  | cons e rest ih =>
    intro hN
    rw [List.nodup_cons] at hN
    rw [List.map_cons, List.sum_cons, ih hN.2]
    by_cases hex : e = x
    · subst hex
      have hxr : e ∉ rest := hN.1
      by_cases hxo : e ∈ outE
      · simp [hxo, hxr, List.count_cons]
      · simp [hxo, hxr]
    · have h0 : ((if e ∈ outE then [e] else [] : List String)).count x = 0 := by
        by_cases hxo : e ∈ outE
        · simp only [hxo, if_true]
          rw [List.count_eq_zero]
          simp [Ne.symm hex]
        · simp [hxo]
      rw [h0]
      have : (x ∈ outE ∧ x ∈ e :: rest) ↔ (x ∈ outE ∧ x ∈ rest) := by
        constructor
        · rintro ⟨h1, h2⟩
          rcases List.mem_cons.mp h2 with rfl | h2
          · exact absurd rfl hex
          · exact ⟨h1, h2⟩
        · rintro ⟨h1, h2⟩
          exact ⟨h1, List.mem_cons_of_mem _ h2⟩
      rw [if_congr this rfl rfl]
      omega

/-- The inline fold in `make_distinct` is `namesOfL`. -/
theorem foldr_namesOf (ts : List Tensor) :
    ts.foldr (fun t acc => namesOf t ++ acc) [] = namesOfL ts := by
  induction ts with
  | nil => rfl
  | cons t rest ih => simp [namesOfL, ih]

/-- Each right member of a `Forall₂` has a related left member. -/
theorem forall2_exists_left {α β : Type} {R : α → β → Prop} :
    ∀ {as : List α} {bs : List β}, List.Forall₂ R as bs → ∀ b ∈ bs, ∃ a ∈ as, R a b := by
  intro as bs h
  induction h with
  | nil => intro b hb; cases hb
  | cons hR hrest ih =>
    intro b hb
    rcases List.mem_cons.mp hb with rfl | hb
    · exact ⟨_, List.mem_cons_self _ _, hR⟩
    · obtain ⟨a, ha, hab⟩ := ih b hb
      exact ⟨a, List.mem_cons_of_mem _ ha, hab⟩

/-- Free-edge membership in a product is having occurrence count one. -/
theorem mem_freeEdges_prod_iff {fs : List Tensor} {x : String} :
    x ∈ freeEdges (.prod fs) ↔ (occsOf fs).count x = 1 := by
  rw [freeEdges_prod_def]
  constructor
  · intro h
    have := List.mem_filter.mp h
    simpa using this.2
  · intro h
    apply List.mem_filter.mpr
    refine ⟨?_, by simpa using h⟩
    rw [List.mem_dedup, ← List.count_pos_iff, h]
    omega

/-- The free edges of the join construction are exactly the requested
output edges, provided each requested edge occurs among the inputs. -/
theorem joinNet_free (tensors : List Tensor) (outE : List String)
    (hts : ∀ t ∈ tensors, (freeEdges t).Nodup)
    (hsub : ∀ e ∈ outE, e ∈ occsOf tensors) :
    (∀ x, x ∈ freeEdges (joinNet tensors outE) ↔ x ∈ outE) ∧
      (freeEdges (joinNet tensors outE)).Nodup := by
  have hjoin : joinNet tensors outE = Tensor.prod
      ((mdAux (fun e => ((occsOf tensors).dedup).contains e ||
          (sharedNames tensors).contains e)
        ((occsOf tensors).dedup ++ namesOfL tensors) tensors).1 ++
        ((occsOf tensors).dedup).map (fun e =>
          Tensor.copy (((mdAux (fun e => ((occsOf tensors).dedup).contains e ||
              (sharedNames tensors).contains e)
            ((occsOf tensors).dedup ++ namesOfL tensors) tensors).2.filterMap
              (fun σ => findRen σ e)) ++ (if e ∈ outE then [e] else [])))) := by
    unfold joinNet make_distinct
    rw [foldr_namesOf]
  set coll := fun e => ((occsOf tensors).dedup).contains e ||
    (sharedNames tensors).contains e with hcolldef
  set u0 := (occsOf tensors).dedup ++ namesOfL tensors with hu0def
  have hcoll : ∀ t ∈ tensors, ∀ e ∈ freeEdges t, coll e = true := by
    intro t ht e he
    rw [hcolldef]
    simp only [Bool.or_eq_true]
    left
    rw [List.elem_iff, List.mem_dedup, mem_occsOf]
    exact ⟨t, ht, he⟩
  have hnames0 : ∀ t ∈ tensors, ∀ a ∈ namesOf t, a ∈ u0 :=
    fun t ht a ha => List.mem_append.mpr (Or.inr (mem_namesOfL ht a ha))
  obtain ⟨md1, md2, md3, md4⟩ := mdAux_spec coll tensors u0 hcoll hnames0 hts
  rw [hjoin]
  set ds := (mdAux coll u0 tensors).1
  set σs := (mdAux coll u0 tensors).2
  have hcount : ∀ x, (occsOf (ds ++ ((occsOf tensors).dedup).map (fun e =>
      Tensor.copy ((σs.filterMap (fun σ => findRen σ e)) ++
        (if e ∈ outE then [e] else []))))).count x =
      2 * (targetsOf σs).count x + (if x ∈ outE then 1 else 0) := by
    intro x
    rw [occsOf_append, List.count_append, md2, count_occsOf_map_copy]
    have hsummand : ((occsOf tensors).dedup).map (fun e =>
        ((σs.filterMap (fun σ => findRen σ e)) ++ (if e ∈ outE then [e] else [])).count x) =
        ((occsOf tensors).dedup).map (fun e =>
          ((σs.filterMap (fun σ => findRen σ e)).count x) +
          ((if e ∈ outE then [e] else [] : List String)).count x) := by
      apply List.map_congr_left
      intro e _
      rw [List.count_append]
    rw [hsummand, sum_map_add]
    have hlook : (((occsOf tensors).dedup).map (fun e =>
        (σs.filterMap (fun σ => findRen σ e)).count x)).sum = (targetsOf σs).count x := by
      have hswap : (((occsOf tensors).dedup).map (fun e =>
          (σs.map (fun σ => if findRen σ e = some x then 1 else 0)).sum)).sum =
          (σs.map (fun σ => (((occsOf tensors).dedup).map
            (fun e => if findRen σ e = some x then 1 else 0)).sum)).sum :=
        list_sum_comm _ _ _
      have hstep1 : (((occsOf tensors).dedup).map (fun e =>
          (σs.filterMap (fun σ => findRen σ e)).count x)).sum =
          (((occsOf tensors).dedup).map (fun e =>
            (σs.map (fun σ => if findRen σ e = some x then 1 else 0)).sum)).sum := by
        apply congrArg
        apply List.map_congr_left
        intro e _
        exact count_filterMap_findRen
      rw [hstep1, hswap, count_targetsOf]
      apply congrArg
      apply List.map_congr_left
      intro σ hσ
      obtain ⟨t, ht, hkeys⟩ := forall2_exists_left md1 σ hσ
      apply lookup_sum σ _ x (List.nodup_dedup _) (by rw [hkeys]; exact hts t ht)
      intro k hk
      rw [hkeys] at hk
      rw [List.mem_dedup, mem_occsOf]
      exact ⟨t, ht, hk⟩
    have hite : (((occsOf tensors).dedup).map (fun e =>
        ((if e ∈ outE then [e] else [] : List String)).count x)).sum =
        if x ∈ outE then 1 else 0 := by
      rw [ite_mem_sum _ (List.nodup_dedup _)]
      by_cases hx : x ∈ outE
      · have : x ∈ (occsOf tensors).dedup := by
          rw [List.mem_dedup]
          exact hsub x hx
        simp [hx, this]
      · simp [hx]
    rw [hlook, hite]
    omega
  constructor
  · intro x
    rw [mem_freeEdges_prod_iff, hcount x]
    constructor
    · intro h
      by_cases hx : x ∈ outE
      · exact hx
      · exfalso
        rw [if_neg hx] at h
        omega
    · intro hx
      rw [if_pos hx]
      have hT : (targetsOf σs).count x = 0 := by
        rw [List.count_eq_zero]
        intro hmem
        apply md4 x hmem
        exact List.mem_append.mpr (Or.inl (by rw [List.mem_dedup]; exact hsub x hx))
      rw [hT]
  · rw [freeEdges_prod_def]
    exact List.Nodup.filter _ (List.nodup_dedup _)

/-- Collapsing a sum against a Kronecker delta (condition on the left). -/
theorem sum_pull {n c : Nat} (hc : c < n) (F : Nat → Rat) :
    (Finset.range n).sum (fun v => (if c = v then (1 : Rat) else 0) * F v) = F c := by
  have h1 : (fun v => (if c = v then (1 : Rat) else 0) * F v) =
      fun v => if c = v then F v else 0 := by
    funext v
    by_cases h : c = v <;> simp [h]
  rw [h1, Finset.sum_ite_eq]
  rw [if_pos (Finset.mem_range.mpr hc)]

/-- Collapsing a sum against a Kronecker delta (condition on the right). -/
theorem sum_pull2 {n c : Nat} (hc : c < n) (F : Nat → Rat) :
    (Finset.range n).sum (fun v => (if v = c then (1 : Rat) else 0) * F v) = F c := by
  have h1 : (fun v => (if v = c then (1 : Rat) else 0) * F v) =
      fun v => (if c = v then (1 : Rat) else 0) * F v := by
    funext v
    by_cases h : v = c
    · subst h
      simp
    · rw [if_neg h, if_neg (fun hc2 => h hc2.symm)]
  rw [h1]
  exact sum_pull hc F

/-- `applyRen` of a single-entry map is a one-point update. -/
theorem applyRen_single (e e2 a : String) :
    applyRen [(e, e2)] a = if e = a then e2 else a := by
  by_cases h : e = a
  · subst h
    simp [applyRen]
  · have hb : (e == a) = false := by simp [h]
    simp [applyRen, List.find?, hb, h]

/-- A single identity entry leaves every name unchanged. -/
theorem applyRen_single_id (e a : String) : applyRen [(e, e)] a = a := by
  rw [applyRen_single]
  by_cases h : e = a
  · subst h
    simp
  · rw [if_neg h]

/-- A single-edge tensor shares no edge with itself, so `make_distinct`
sees no intra-list collisions. -/
theorem sharedNames_single {t : Tensor} {e : String} (hfe : freeEdges t = [e]) :
    sharedNames [t] = [] := by
  have hocc : occsOf [t] = [e] := by simp [occsOf, hfe]
  show (occsOf [t]).dedup.filter (fun x => 2 ≤ (occsOf [t]).count x) = []
  rw [hocc]
  simp [List.count_singleton]

/-- `mkSigma` on a single edge produces a single entry, fresh for the
universe when the edge collides and the identity otherwise. -/
theorem mkSigma_single (coll : String → Bool) (u0 : List String) (e : String) :
    ∃ e2, (mkSigma coll u0 [e]).1 = [(e, e2)] ∧
      (coll e = false → e2 = e) ∧ (coll e = true → e2 ∉ u0) ∧
      (coll e = true → e2 = freshName u0 e) := by
  by_cases h : coll e = true
  · refine ⟨freshName u0 e, by simp [mkSigma, h], ?_, fun _ => freshName_not_mem u0 e,
      fun _ => rfl⟩
    intro hc
    rw [hc] at h
    cases h
  · have h0 : coll e = false := by
      cases hc : coll e
      · rfl
      · exact absurd hc h
    refine ⟨e, by simp [mkSigma, h0], fun _ => rfl, ?_, ?_⟩
    · intro hc
      rw [hc] at h0
      cases h0
    · intro hc
      rw [hc] at h0
      cases h0

/-- The renamed vector inside `diag`: it is the single-entry rename of
the input, its one free edge avoids `new_edges`, the fresh name is the
original possibly underscore-suffixed, and the rename is injective on the
input's names. -/
theorem diag_renamed_edge {t : Tensor} {e : String} (ne : List String)
    (hfe : freeEdges t = [e]) :
    ∃ e2, (make_distinct [t] ne).1.headD t = renameF (applyRen [(e, e2)]) t ∧
      freeEdges ((make_distinct [t] ne).1.headD t) = [e2] ∧ e2 ∉ ne ∧
      (e2 = e ∨ ∃ k, e2 = e ++ underscores k) ∧
      (∀ a ∈ namesOf t, ∀ b ∈ namesOf t,
        applyRen [(e, e2)] a = applyRen [(e, e2)] b → a = b) := by
  have hsh : sharedNames [t] = [] := sharedNames_single hfe
  have hmd : (make_distinct [t] ne).1 =
      [renameF (applyRen (mkSigma
        (fun x => ne.contains x || (sharedNames [t]).contains x)
        (ne ++ (namesOf t ++ [])) (freeEdges t)).1) t] := rfl
  obtain ⟨e2, hσ, hc0, hc1, hcf⟩ := mkSigma_single
    (fun x => ne.contains x || (sharedNames [t]).contains x)
    (ne ++ (namesOf t ++ [])) e
  have he2n : e2 = e ∨ e2 ∉ namesOf t := by
    cases hb : (ne.contains e || (sharedNames [t]).contains e) with
    | false => exact Or.inl (hc0 hb)
    | true =>
      right
      intro hmem
      exact hc1 hb (List.mem_append.mpr (Or.inr (List.mem_append.mpr (Or.inl hmem))))
  have hne2 : e2 ∉ ne := by
    by_cases hee : e ∈ ne
    · have hct : (ne.contains e || (sharedNames [t]).contains e) = true := by
        simp [List.elem_iff, hee]
      intro hmem
      exact hc1 hct (List.mem_append.mpr (Or.inl hmem))
    · have hct : (ne.contains e || (sharedNames [t]).contains e) = false := by
        rw [hsh]
        simp [List.elem_iff, hee]
      rw [hc0 hct]
      exact hee
  have hshape : e2 = e ∨ ∃ k, e2 = e ++ underscores k := by
    cases hb : (ne.contains e || (sharedNames [t]).contains e) with
    | false => exact Or.inl (hc0 hb)
    | true => exact Or.inr ⟨maxLen (ne ++ (namesOf t ++ [])) + 1, hcf hb⟩
  have hinj : ∀ a ∈ namesOf t, ∀ b ∈ namesOf t,
      applyRen [(e, e2)] a = applyRen [(e, e2)] b → a = b := by
    intro a ha b hb hab
    rcases he2n with rfl | hnt
    · rw [applyRen_single_id, applyRen_single_id] at hab
      exact hab
    · rw [applyRen_single, applyRen_single] at hab
      by_cases h1 : e = a <;> by_cases h2 : e = b
      · exact h1.symm.trans h2
      · rw [if_pos h1, if_neg h2] at hab
        exfalso
        apply hnt
        rw [hab]
        exact hb
      · rw [if_neg h1, if_pos h2] at hab
        exfalso
        apply hnt
        rw [← hab]
        exact ha
      · rw [if_neg h1, if_neg h2] at hab
        exact hab
  have hhead : (make_distinct [t] ne).1.headD t = renameF (applyRen [(e, e2)]) t := by
    rw [hmd]
    simp only [List.headD_cons]
    rw [hfe, hσ]
  refine ⟨e2, hhead, ?_, hne2, hshape, hinj⟩
  rw [hhead, freeEdges_renameF t _ hinj, hfe]
  simp [applyRen_single]

/-- The free edges of the `Copy`–vector contraction built by `diag`. -/
theorem diag_prod_free {ne : List String} {e2 : String} {t2 : Tensor}
    (hne : ne.Nodup) (he2 : e2 ∉ ne) (ht2 : freeEdges t2 = [e2]) :
    freeEdges (Tensor.prod [Tensor.copy (ne ++ [e2]), t2]) = ne := by
  have hocc : occsOf [Tensor.copy (ne ++ [e2]), t2] = ne ++ [e2, e2] := by
    simp [occsOf, freeEdges, ht2]
  rw [freeEdges_prod_def, hocc]
  have hd : (ne ++ [e2, e2]).dedup = ne ++ [e2] := by
    have hassoc : ne ++ [e2, e2] = (ne ++ [e2]) ++ [e2] := by simp
    rw [hassoc, dedup_append_tail _ _ (List.nodup_singleton e2)]
    have hfil : (ne ++ [e2]).filter (fun x => !(([e2] : List String).contains x)) = ne := by
      rw [List.filter_append]
      have h1 : ne.filter (fun x => !(([e2] : List String).contains x)) = ne := by
        apply List.filter_eq_self.mpr
        intro x hx
        have hx2 : x ≠ e2 := fun hc => he2 (hc ▸ hx)
        simp [hx2]
      have h2 : ([e2] : List String).filter
          (fun x => !(([e2] : List String).contains x)) = [] := by
        simp
      rw [h1, h2, List.append_nil]
    rw [hfil, List.Nodup.dedup hne]
  rw [hd, List.filter_append]
  have hcount2 : (ne ++ [e2, e2]).count e2 = 2 := by
    have h0 : ne.count e2 = 0 := List.count_eq_zero.mpr he2
    simp [List.count_append, h0]
  have hfne : ne.filter (fun x => (ne ++ [e2, e2]).count x = 1) = ne := by
    apply List.filter_eq_self.mpr
    intro x hx
    have hx2 : x ≠ e2 := fun hc => he2 (hc ▸ hx)
    have h1 : ne.count x = 1 := List.count_eq_one_of_mem hne hx
    have hcx : (ne ++ [e2, e2]).count x = 1 := by
      simp [List.count_append, h1, hx2]
    simp [hcx]
  have hfe2 : ([e2] : List String).filter
      (fun x => (ne ++ [e2, e2]).count x = 1) = [] := by
    simp [hcount2]
  rw [hfne, hfe2, List.append_nil]

/-- `diag` unfolded in the success case: the vector has one edge and the
`Copy` constructor's duplicate check passes. -/
theorem diag_ok_eq (t : Tensor) (ne : List String) (h : (freeEdges t).length = 1)
    (hnd : (ne ++ freeEdges ((make_distinct [t] ne).1.headD t)).Nodup) :
    functions.diag t ne = Except.ok (Tensor.prod
      [Tensor.copy (ne ++ freeEdges ((make_distinct [t] ne).1.headD t)),
        (make_distinct [t] ne).1.headD t]) := by
  unfold functions.diag
  rw [if_neg (not_not_intro h)]
  show (Copy (ne ++ freeEdges ((make_distinct [t] ne).1.headD t))).map
    (fun c => Tensor.prod [c, (make_distinct [t] ne).1.headD t]) = _
  unfold Copy
  rw [if_pos hnd]
  rfl

/-- `diag` unfolded in the invariant-violation case: the vector has one
edge but the `Copy` node would carry a duplicate name. -/
theorem diag_dup_eq (t : Tensor) (ne : List String) (h : (freeEdges t).length = 1)
    (hnd : ¬(ne ++ freeEdges ((make_distinct [t] ne).1.headD t)).Nodup) :
    functions.diag t ne = Except.error TgError.invariantViolation := by
  unfold functions.diag
  rw [if_neg (not_not_intro h)]
  show (Copy (ne ++ freeEdges ((make_distinct [t] ne).1.headD t))).map
    (fun c => Tensor.prod [c, (make_distinct [t] ne).1.headD t]) = _
  unfold Copy
  rw [if_neg hnd]
  rfl

/-- The derivative marker is one character long. -/
theorem marker_length : marker.length = 1 := rfl

/-- Appending the marker lengthens a name by one. -/
theorem append_marker_length (e : String) : (e ++ marker).length = e.length + 1 := by
  rw [String.length_append, marker_length]

/-- Priming terminates on an unused name: each failed candidate is one
character longer, so with fuel `used.length` the chain exhausts the used
names that are longer than the seed. -/
theorem primeAux_spec : ∀ (n : Nat) (used : List String) (e : String),
    (used.filter (fun u => decide (e.length < u.length))).length ≤ n →
    primeAux n used e ∉ used := by
  intro n
  induction n with
  | zero =>
    intro used e h hmem
    have hf : (e ++ marker) ∈ used.filter (fun u => decide (e.length < u.length)) := by
      apply List.mem_filter.mpr
      refine ⟨hmem, ?_⟩
      rw [append_marker_length]
      simp
    have := List.length_pos_of_mem hf
    omega
  | succ n ih =>
    intro used e h
    by_cases hc : (e ++ marker) ∈ used
    · have hstep : primeAux (n + 1) used e = primeAux n used (e ++ marker) := by
        simp [primeAux, hc]
      rw [hstep]
      apply ih
      have hsub : used.filter (fun u => decide ((e ++ marker).length < u.length)) =
          (used.filter (fun u => decide (e.length < u.length))).filter
            (fun u => decide ((e ++ marker).length < u.length)) := by
        rw [List.filter_filter]
        apply List.filter_congr
        intro u _
        by_cases hu : (e ++ marker).length < u.length
        · have hu2 : e.length < u.length := by
            rw [append_marker_length] at hu
            omega
          rw [decide_eq_true hu, decide_eq_true hu2]
          rfl
        · rw [decide_eq_false hu]
          rfl
      have hlt : ((used.filter (fun u => decide (e.length < u.length))).filter
          (fun u => decide ((e ++ marker).length < u.length))).length <
          (used.filter (fun u => decide (e.length < u.length))).length := by
        apply List.length_filter_lt_length_iff_exists.mpr
        refine ⟨e ++ marker, ?_, ?_⟩
        · apply List.mem_filter.mpr
          refine ⟨hc, ?_⟩
          rw [append_marker_length]
          simp
        · simp
      rw [hsub]
      omega
    · have hstep : primeAux (n + 1) used e = e ++ marker := by
        simp [primeAux, hc]
      rw [hstep]
      exact hc

/-- The primed counterpart of a name avoids the used names. -/
theorem primeName_not_mem (used : List String) (e : String) : primeName used e ∉ used := by
  apply primeAux_spec
  exact List.length_filter_le _ _

/-- Primed-name bookkeeping: `mkPrimes` is keyed by the variable's edges
and its generated names avoid the incoming universe and each other. -/
theorem mkPrimes_spec : ∀ (vo used : List String),
    ((mkPrimes used vo).map Prod.fst = vo) ∧
    (∀ x ∈ (mkPrimes used vo).map Prod.snd, x ∉ used) ∧
    ((mkPrimes used vo).map Prod.snd).Nodup := by
  intro vo
  induction vo with
  | nil =>
    intro used
    exact ⟨rfl, fun x hx => absurd hx (List.not_mem_nil x), List.nodup_nil⟩
  | cons e rest ih =>
    intro used
    obtain ⟨ih1, ih2, ih3⟩ := ih (primeName used e :: used)
    have hmk : mkPrimes used (e :: rest) =
        (e, primeName used e) :: mkPrimes (primeName used e :: used) rest := by
      simp [mkPrimes]
    rw [hmk]
    refine ⟨by simp [ih1], ?_, ?_⟩
    · intro x hx
      simp only [List.map_cons, List.mem_cons] at hx
      rcases hx with rfl | hx
      · exact primeName_not_mem used e
      · intro hmem
        exact ih2 x hx (List.mem_cons_of_mem _ hmem)
    · simp only [List.map_cons, List.nodup_cons]
      refine ⟨?_, ih3⟩
      intro hcontra
      exact ih2 _ hcontra (List.mem_cons_self _ _)

/-- Unfolding: the free edges of a nonempty sum are its head term's. -/
theorem freeEdges_sum_cons (c : Int) (t : Tensor) (ts : List (Int × Tensor)) :
    freeEdges (Tensor.sumT ((c, t) :: ts)) = freeEdges t := rfl

/-- Unfolding: occurrence list of a factor-list cons. -/
theorem occsOf_cons (t : Tensor) (ts : List Tensor) :
    occsOf (t :: ts) = freeEdges t ++ occsOf ts := rfl

/-- Unfolding: occurrence list of the empty factor list. -/
theorem occsOf_nil : occsOf [] = [] := rfl

/-- The stored derivative rule of an elementwise node keeps the free
edges of the inner tensor (the rule is invoked with no new edges). -/
theorem derivEdges : ∀ (f : ElemFn) (t : Tensor),
    freeEdges (ElemFn.deriv f t) = freeEdges t := by
  intro f t
  cases f with
  | log =>
    show freeEdges (functions.pow t (-1)) = freeEdges t
    unfold functions.pow
    rw [if_neg (by decide)]
    rfl
  | exp => rfl
  | powk k =>
    show freeEdges (Tensor.sumT [(k, functions.pow t (k - 1))]) = freeEdges t
    rw [freeEdges_sum_cons]
    unfold functions.pow
    by_cases hk : k - 1 = 0
    · rw [if_pos hk]
      rfl
    · rw [if_neg hk]
      rfl

/-- Memberwise well-formedness of a factor list. -/
theorem wfL_mem : ∀ {fs : List Tensor}, wfL fs = true → ∀ u ∈ fs, wfB u = true := by
  intro fs
  induction fs with
  | nil => intro _ u hu; cases hu
  | cons t rest ih =>
    intro h u hu
    simp only [wfL, Bool.and_eq_true] at h
    rcases List.mem_cons.mp hu with rfl | hu2
    · exact h.1
    · exact ih h.2 u hu2

/-- Memberwise well-formedness of a term list. -/
theorem wfT_mem : ∀ {ts : List (Int × Tensor)}, wfT ts = true → ∀ ct ∈ ts, wfB ct.2 = true := by
  intro ts
  induction ts with
  | nil => intro _ ct hct; cases hct
  | cons p rest ih =>
    obtain ⟨c, t⟩ := p
    intro h ct hct
    simp only [wfT, Bool.and_eq_true] at h
    rcases List.mem_cons.mp hct with rfl | hct2
    · exact h.1
    · exact ih h.2 ct hct2

/-- Memberwise unrenamedness of a factor list. -/
theorem unrenL_mem {vn : String} {vo : List String} :
    ∀ {fs : List Tensor}, unrenL vn vo fs = true → ∀ u ∈ fs, unren vn vo u = true := by
  intro fs
  induction fs with
  | nil => intro _ u hu; cases hu
  | cons t rest ih =>
    intro h u hu
    simp only [unrenL, Bool.and_eq_true] at h
    rcases List.mem_cons.mp hu with rfl | hu2
    · exact h.1
    · exact ih h.2 u hu2

/-- Memberwise unrenamedness of a term list. -/
theorem unrenT_mem {vn : String} {vo : List String} :
    ∀ {ts : List (Int × Tensor)}, unrenT vn vo ts = true →
      ∀ ct ∈ ts, unren vn vo ct.2 = true := by
  intro ts
  induction ts with
  | nil => intro _ ct hct; cases hct
  | cons p rest ih =>
    obtain ⟨c, t⟩ := p
    intro h ct hct
    simp only [unrenT, Bool.and_eq_true] at h
    rcases List.mem_cons.mp hct with rfl | hct2
    · exact h.1
    · exact ih h.2 ct hct2

/-- Well-formed graphs expose duplicate-free free-edge lists. -/
theorem wf_freeEdges_nodup : ∀ t : Tensor, wfB t = true → (freeEdges t).Nodup := by
  intro t
  induction t using Tensor.myInd with
  | hv n o es =>
    intro h
    simp [wfB] at h
    tauto
  | hc es => intro h; simpa [wfB] using h
  | hz es => intro h; simpa [wfB] using h
  | ho es => intro h; simpa [wfB] using h
  | hp fs ih =>
    intro _
    rw [freeEdges_prod_def]
    exact List.Nodup.filter _ (List.nodup_dedup _)
  | hs ts ih =>
    intro h
    cases ts with
    | nil => exact List.nodup_nil
    | cons p rest =>
      obtain ⟨c, t0⟩ := p
      rw [freeEdges_sum_cons]
      apply ih (c, t0) (List.mem_cons_self _ _)
      simp only [wfB, Bool.and_eq_true] at h
      exact (wfT_mem h.2 (c, t0) (List.mem_cons_self _ _))
  | he n f t iht => intro h; exact iht h

/-- Membership in the occurrence list of the `Copy` pairs built by the
variable rule of `gradAux`. -/
theorem pair_occ_mem {es : List String} {g : String → String} {x : String} :
    x ∈ occsOf (es.map (fun e => Tensor.copy [e, g e])) ↔ x ∈ es ∨ x ∈ es.map g := by
  induction es with
  | nil => simp [occsOf]
  | cons a rest ih =>
    rw [List.map_cons, occsOf_cons]
    show x ∈ [a, g a] ++ occsOf (rest.map (fun e => Tensor.copy [e, g e])) ↔ _
    rw [List.mem_append, ih]
    simp only [List.mem_cons, List.map_cons, List.mem_singleton, List.not_mem_nil, or_false]
    tauto

/-- The occurrence list of the `Copy` pairs is duplicate-free when the
edges, their images, and the two sides are mutually distinct. -/
theorem pair_occ_nodup : ∀ (es : List String) (g : String → String),
    es.Nodup → (es.map g).Nodup → (∀ e ∈ es, g e ∉ es) →
    (occsOf (es.map (fun e => Tensor.copy [e, g e]))).Nodup := by
  intro es g
  induction es with
  | nil =>
    intro _ _ _
    exact List.nodup_nil
  | cons a rest ih =>
    intro h1 h2 h3
    rw [List.nodup_cons] at h1
    rw [List.map_cons, List.nodup_cons] at h2
    rw [List.map_cons, occsOf_cons]
    show (a :: g a :: occsOf (rest.map (fun e => Tensor.copy [e, g e]))).Nodup
    rw [List.nodup_cons, List.nodup_cons]
    have hR := ih h1.2 h2.2
      (fun e he hc => h3 e (List.mem_cons_of_mem _ he) (List.mem_cons_of_mem _ hc))
    refine ⟨?_, ?_, hR⟩
    · intro hmem
      rcases List.mem_cons.mp hmem with heq | hmem2
      · exact h3 a (List.mem_cons_self _ _) (by rw [← heq]; exact List.mem_cons_self _ _)
      · rw [pair_occ_mem] at hmem2
        rcases hmem2 with hm | hm
        · exact h1.1 hm
        · obtain ⟨e, he, hge⟩ := List.mem_map.mp hm
          exact h3 e (List.mem_cons_of_mem _ he) (by rw [hge]; exact List.mem_cons_self _ _)
    · intro hmem
      rw [pair_occ_mem] at hmem
      rcases hmem with hm | hm
      · exact h3 a (List.mem_cons_self _ _) (List.mem_cons_of_mem _ hm)
      · exact h2.1 hm

/-- A product whose occurrence list is duplicate-free keeps every
occurring edge free. -/
theorem freeEdges_prod_of_nodup {fs : List Tensor} (h : (occsOf fs).Nodup) :
    freeEdges (Tensor.prod fs) = occsOf fs := by
  rw [freeEdges_prod_def, List.Nodup.dedup h]
  apply List.filter_eq_self.mpr
  intro x hx
  simp [List.count_eq_one_of_mem h hx]

/-- Unfolding: `gradAux` on a nonempty product (head term of the product
rule). -/
theorem gradAux_prod_cons (σ : List (String × String)) (vn : String) (vo : List String)
    (t1 : Tensor) (rest : List Tensor) :
    gradAux σ vn vo (Tensor.prod (t1 :: rest)) =
      Tensor.sumT (((1 : Int), Tensor.prod (gradAux σ vn vo t1 :: rest)) ::
        ((gradTerms σ vn vo rest).map (fun l => t1 :: l)).map
          (fun l => ((1 : Int), Tensor.prod l))) := by
  simp [gradAux, gradTerms]

/-- Unfolding: `gradAux` on a nonempty sum. -/
theorem gradAux_sum_cons (σ : List (String × String)) (vn : String) (vo : List String)
    (c : Int) (t1 : Tensor) (rest : List (Int × Tensor)) :
    gradAux σ vn vo (Tensor.sumT ((c, t1) :: rest)) =
      Tensor.sumT ((c, gradAux σ vn vo t1) :: gradSum σ vn vo rest) := by
  simp [gradAux, gradSum]

/-- Unfolding: `gradAux` on an elementwise node is the broadcast product
of the stored derivative rule with the inner derivative. -/
theorem gradAux_elem (σ : List (String × String)) (vn : String) (vo : List String)
    (n : String) (f : ElemFn) (t : Tensor) :
    gradAux σ vn vo (Tensor.elem n f t) =
      joinNet [ElemFn.deriv f t, gradAux σ vn vo t]
        ((freeEdges (ElemFn.deriv f t) ++ freeEdges (gradAux σ vn vo t)).dedup) := by
  simp [gradAux, hadamard]

/-- The zero-leaf case of the derivative free-edge analysis. -/
theorem zero_case_free {σ : List (String × String)} {vo es : List String}
    (hvals : vo.map (applyRen σ) = σ.map Prod.snd)
    (hvN : (σ.map Prod.snd).Nodup) (hesN : es.Nodup)
    (hfresh : ∀ p ∈ σ.map Prod.snd, p ∉ es) :
    (es ++ vo.map (applyRen σ)).Nodup ∧
    (∀ x, x ∈ es ++ vo.map (applyRen σ) ↔ x ∈ es ∨ x ∈ vo.map (applyRen σ)) := by
  constructor
  · rw [List.nodup_append]
    refine ⟨hesN, by rw [hvals]; exact hvN, ?_⟩
    intro x hx hy
    rw [hvals] at hy
    exact hfresh x hy hx
  · intro x
    exact List.mem_append

/-- The derivative graph of an unrenamed well-formed graph has
duplicate-free free edges: the original free edges together with the
primed counterparts of the differentiation variable's edges. -/
theorem gradAux_free (σ : List (String × String)) (vn : String) (vo : List String)
    (hk : σ.map Prod.fst = vo) (hvoN : vo.Nodup) (hvN : (σ.map Prod.snd).Nodup) :
    ∀ t : Tensor, wfB t = true → unren vn vo t = true →
      (∀ p ∈ σ.map Prod.snd, p ∉ namesOf t) →
      (freeEdges (gradAux σ vn vo t)).Nodup ∧
      (∀ x, x ∈ freeEdges (gradAux σ vn vo t) ↔
        x ∈ freeEdges t ∨ x ∈ vo.map (applyRen σ)) := by
  have hkN : (σ.map Prod.fst).Nodup := by rw [hk]; exact hvoN
  have hvals : vo.map (applyRen σ) = σ.map Prod.snd := by
    rw [← hk]
    exact applyRen_keys_map hkN
  intro t
  induction t using Tensor.myInd with
  | hv n o es =>
    intro hwf hun hfresh
    have hesN : es.Nodup := by
      simp [wfB] at hwf
      tauto
    by_cases hmatch : n = vn ∧ o = vo
    · have hes : es = vo := by
        simp [unren, hmatch] at hun
        exact hun
      have hg : gradAux σ vn vo (.variable_ n o es) =
          Tensor.prod (es.map (fun e => Tensor.copy [e, applyRen σ e])) := by
        simp only [gradAux]
        rw [if_pos hmatch]
      rw [hg]
      have hmapN : (es.map (applyRen σ)).Nodup := by
        rw [hes, hvals]
        exact hvN
      have hga : ∀ e ∈ es, applyRen σ e ∉ es := by
        intro e he hc
        have hkm : e ∈ σ.map Prod.fst := by
          rw [hk, ← hes]
          exact he
        exact hfresh _ (applyRen_mem_snd hkN hkm) hc
      have hoccN := pair_occ_nodup es (applyRen σ) hesN hmapN hga
      constructor
      · rw [freeEdges_prod_of_nodup hoccN]
        exact hoccN
      · intro x
        rw [freeEdges_prod_of_nodup hoccN, pair_occ_mem]
        show x ∈ es ∨ x ∈ es.map (applyRen σ) ↔
          x ∈ es ∨ x ∈ vo.map (applyRen σ)
        rw [hes]
    · have hg : gradAux σ vn vo (.variable_ n o es) =
          Tensor.zero (es ++ vo.map (applyRen σ)) := by
        simp only [gradAux]
        rw [if_neg hmatch]
      rw [hg]
      exact zero_case_free hvals hvN hesN hfresh
  | hc es =>
    intro hwf _ hfresh
    exact zero_case_free hvals hvN (by simpa [wfB] using hwf) hfresh
  | hz es =>
    intro hwf _ hfresh
    exact zero_case_free hvals hvN (by simpa [wfB] using hwf) hfresh
  | ho es =>
    intro hwf _ hfresh
    exact zero_case_free hvals hvN (by simpa [wfB] using hwf) hfresh
  | hp fs ih =>
    intro hwf hun hfresh
    cases fs with
    | nil => simp [wfB, wfL] at hwf
    | cons t1 rest =>
      have hwl : wfL (t1 :: rest) = true := by
        simp only [wfB, Bool.and_eq_true] at hwf
        exact hwf.2
      have hwft1 : wfB t1 = true := wfL_mem hwl t1 (List.mem_cons_self _ _)
      have hunl : unrenL vn vo (t1 :: rest) = true := by simpa [unren] using hun
      have hunt1 : unren vn vo t1 = true := unrenL_mem hunl t1 (List.mem_cons_self _ _)
      have hfr1 : ∀ p ∈ σ.map Prod.snd, p ∉ namesOf t1 :=
        fun p hp hmem => hfresh p hp (mem_namesOfL (List.mem_cons_self _ _) p hmem)
      obtain ⟨ihN, ihMem⟩ := ih t1 (List.mem_cons_self _ _) hwft1 hunt1 hfr1
      have ht1N : (freeEdges t1).Nodup := wf_freeEdges_nodup t1 hwft1
      have hoccsub : ∀ y ∈ occsOf (t1 :: rest), y ∈ namesOf (Tensor.prod (t1 :: rest)) := by
        intro y hy
        rw [mem_occsOf] at hy
        obtain ⟨u, hu, hyu⟩ := hy
        exact mem_namesOfL hu y (freeEdges_subset_namesOf u y hyu)
      rw [gradAux_prod_cons, freeEdges_sum_cons]
      refine ⟨by rw [freeEdges_prod_def]; exact List.Nodup.filter _ (List.nodup_dedup _), ?_⟩
      intro x
      rw [mem_freeEdges_prod_iff, mem_freeEdges_prod_iff, occsOf_cons, occsOf_cons,
        List.count_append, List.count_append]
      by_cases hxp : x ∈ vo.map (applyRen σ)
      · have hxs : x ∈ σ.map Prod.snd := by
          rw [← hvals]
          exact hxp
        have hnn : x ∉ namesOf (Tensor.prod (t1 :: rest)) := hfresh x hxs
        have hcr : (occsOf rest).count x = 0 := by
          rw [List.count_eq_zero]
          intro hc
          apply hnn
          apply hoccsub
          rw [occsOf_cons]
          exact List.mem_append.mpr (Or.inr hc)
        have hct1 : (freeEdges t1).count x = 0 := by
          rw [List.count_eq_zero]
          intro hc
          apply hnn
          apply hoccsub
          rw [occsOf_cons]
          exact List.mem_append.mpr (Or.inl hc)
        have hg1 : x ∈ freeEdges (gradAux σ vn vo t1) := (ihMem x).mpr (Or.inr hxp)
        have hcg : (freeEdges (gradAux σ vn vo t1)).count x = 1 :=
          List.count_eq_one_of_mem ihN hg1
        rw [hcg, hcr, hct1]
        simp [hxp]
      · have hcnt : (freeEdges (gradAux σ vn vo t1)).count x = (freeEdges t1).count x := by
          by_cases hxt : x ∈ freeEdges t1
          · rw [List.count_eq_one_of_mem ihN ((ihMem x).mpr (Or.inl hxt)),
              List.count_eq_one_of_mem ht1N hxt]
          · have h1 : x ∉ freeEdges (gradAux σ vn vo t1) := by
              intro hc
              rcases (ihMem x).mp hc with h | h
              · exact hxt h
              · exact hxp h
            rw [List.count_eq_zero.mpr h1, List.count_eq_zero.mpr hxt]
        rw [hcnt]
        simp [hxp]
  | hs ts ih =>
    intro hwf hun hfresh
    cases ts with
    | nil => simp [wfB, wfT] at hwf
    | cons p rest =>
      obtain ⟨c, t1⟩ := p
      have hwt : wfT ((c, t1) :: rest) = true := by
        simp only [wfB, Bool.and_eq_true] at hwf
        exact hwf.2
      have hwft1 : wfB t1 = true := wfT_mem hwt (c, t1) (List.mem_cons_self _ _)
      have hunt : unrenT vn vo ((c, t1) :: rest) = true := by simpa [unren] using hun
      have hunt1 : unren vn vo t1 = true := unrenT_mem hunt (c, t1) (List.mem_cons_self _ _)
      have hfr1 : ∀ p2 ∈ σ.map Prod.snd, p2 ∉ namesOf t1 :=
        fun p2 hp hmem => hfresh p2 hp (mem_namesOfT (List.mem_cons_self _ _) p2 hmem)
      obtain ⟨ihN, ihMem⟩ := ih (c, t1) (List.mem_cons_self _ _) hwft1 hunt1 hfr1
      rw [gradAux_sum_cons, freeEdges_sum_cons]
      refine ⟨ihN, ?_⟩
      intro x
      rw [freeEdges_sum_cons]
      exact ihMem x
  | he n f t iht =>
    intro hwf hun hfresh
    obtain ⟨ihN, ihMem⟩ := iht hwf hun hfresh
    have hD : freeEdges (ElemFn.deriv f t) = freeEdges t := derivEdges f t
    have htN : (freeEdges t).Nodup := wf_freeEdges_nodup t hwf
    have hts : ∀ u ∈ [ElemFn.deriv f t, gradAux σ vn vo t], (freeEdges u).Nodup := by
      intro u hu
      rcases List.mem_cons.mp hu with rfl | hu2
      · rw [hD]
        exact htN
      · rcases List.mem_cons.mp hu2 with rfl | h3
        · exact ihN
        · cases h3
    have hsub : ∀ e ∈ (freeEdges (ElemFn.deriv f t) ++
        freeEdges (gradAux σ vn vo t)).dedup,
        e ∈ occsOf [ElemFn.deriv f t, gradAux σ vn vo t] := by
      intro e he
      rw [List.mem_dedup] at he
      rw [occsOf_cons, occsOf_cons, occsOf_nil, List.append_nil]
      exact he
    have hjf := joinNet_free [ElemFn.deriv f t, gradAux σ vn vo t]
      ((freeEdges (ElemFn.deriv f t) ++ freeEdges (gradAux σ vn vo t)).dedup) hts hsub
    rw [gradAux_elem]
    refine ⟨hjf.2, ?_⟩
    intro x
    have h1 := hjf.1 x
    rw [List.mem_dedup, List.mem_append] at h1
    have hfe : freeEdges (Tensor.elem n f t) = freeEdges t := rfl
    rw [hfe, h1, hD, ihMem x]
    tauto

/-- C7: an `Elementwise` node (a `Function` with no declared input and no
declared output edges, wrapping one inner tensor) differentiates to a
graph whose free edges are exactly its own free edges together with the
primed counterparts of the variable's declared edges, with no
duplicates; the stored local-derivative rule is invoked with no new
edges, so it keeps the inner tensor's free edges; and `update_edge_dims`
propagates dimensions rather than edges: its entries pair the inner
tensor (`false`) and the node itself (`true`) over the same edge name
and the same known dimension, and mention no other edges. -/
theorem C7_elementwise_grad :
    (∀ (nm : String) (fn : ElemFn) (u : Tensor) (vn : String) (vo : List String),
        wfB (Tensor.elem nm fn u) = true → vo.Nodup →
        unren vn vo (Tensor.elem nm fn u) = true →
        (freeEdges (grad (Tensor.elem nm fn u) vn vo)).Nodup ∧
        (∀ x, x ∈ freeEdges (grad (Tensor.elem nm fn u) vn vo) ↔
          x ∈ freeEdges (Tensor.elem nm fn u) ∨
          x ∈ vo.map (applyRen (mkPrimes (namesOf (Tensor.elem nm fn u)) vo)))) ∧
    (∀ (fn : ElemFn) (u : Tensor), freeEdges (ElemFn.deriv fn u) = freeEdges u) ∧
    (∀ (union : List (String × Nat)) (tEdges : List String) (b : Bool) (e : String) (d : Nat),
        (b, e, d) ∈ functions.update_edge_dims union tEdges ↔
          e ∈ tEdges ∧ (union.find? (fun pr => pr.1 == e)).map Prod.snd = some d) := by
  refine ⟨?_, derivEdges, ?_⟩
  · intro nm fn u vn vo hwf hvo hun
    obtain ⟨hmk1, hmk2, hmk3⟩ := mkPrimes_spec vo (namesOf (Tensor.elem nm fn u))
    exact gradAux_free (mkPrimes (namesOf (Tensor.elem nm fn u)) vo) vn vo
      hmk1 hvo hmk3 (Tensor.elem nm fn u) hwf hun hmk2
  · intro union tEdges
    induction tEdges with
    | nil =>
      intro b e d
      simp [functions.update_edge_dims]
    | cons a rest ih =>
      intro b e d
      cases hfa : (union.find? (fun pr => pr.1 == a)).map Prod.snd with
      | none =>
        have hstep : functions.update_edge_dims union (a :: rest) =
            functions.update_edge_dims union rest := by
          unfold functions.update_edge_dims
          simp only [List.foldr_cons]
          rw [hfa]
        rw [hstep, ih b e d]
        constructor
        · intro h
          exact ⟨List.mem_cons_of_mem _ h.1, h.2⟩
        · rintro ⟨he, hd⟩
          rcases List.mem_cons.mp he with rfl | he2
          · rw [hfa] at hd
            cases hd
          · exact ⟨he2, hd⟩
      | some d0 =>
        have hstep : functions.update_edge_dims union (a :: rest) =
            (false, a, d0) :: (true, a, d0) :: functions.update_edge_dims union rest := by
          unfold functions.update_edge_dims
          simp only [List.foldr_cons]
          rw [hfa]
        rw [hstep]
        constructor
        · intro h
          rcases List.mem_cons.mp h with h0 | h1
          · rw [Prod.mk.injEq, Prod.mk.injEq] at h0
            obtain ⟨hb, hea, hdd⟩ := h0
            subst hea
            subst hdd
            exact ⟨List.mem_cons_self _ _, hfa⟩
          · rcases List.mem_cons.mp h1 with h0 | h2
            · rw [Prod.mk.injEq, Prod.mk.injEq] at h0
              obtain ⟨hb, hea, hdd⟩ := h0
              subst hea
              subst hdd
              exact ⟨List.mem_cons_self _ _, hfa⟩
            · obtain ⟨h3, h4⟩ := (ih b e d).mp h2
              exact ⟨List.mem_cons_of_mem _ h3, h4⟩
        · rintro ⟨he, hd⟩
          rcases List.mem_cons.mp he with rfl | he2
          · rw [hfa] at hd
            injection hd with hdd
            subst hdd
            cases b
            · exact List.mem_cons_self _ _
            · exact List.mem_cons_of_mem _ (List.mem_cons_self _ _)
          · exact List.mem_cons_of_mem _
              (List.mem_cons_of_mem _ ((ih b e d).mpr ⟨he2, hd⟩))

/-- Witness for C7: the free-edge contract at `f = exp(x)` for
`x = Variable("x", ["x"])` (as in `main5`), with the membership
equivalence instantiated at the primed name. -/
theorem C7_elementwise_grad_witness :
    (freeEdges (grad (Tensor.elem "exp" ElemFn.exp
        (Tensor.variable_ "x" ["x"] ["x"])) "x" ["x"])).Nodup ∧
    ("x'" ∈ freeEdges (grad (Tensor.elem "exp" ElemFn.exp
        (Tensor.variable_ "x" ["x"] ["x"])) "x" ["x"]) ↔
      "x'" ∈ freeEdges (Tensor.elem "exp" ElemFn.exp
        (Tensor.variable_ "x" ["x"] ["x"])) ∨
      "x'" ∈ (["x"] : List String).map (applyRen
        (mkPrimes (namesOf (Tensor.elem "exp" ElemFn.exp
          (Tensor.variable_ "x" ["x"] ["x"]))) ["x"]))) :=
  ⟨(C7_elementwise_grad.1 "exp" ElemFn.exp (Tensor.variable_ "x" ["x"] ["x"]) "x" ["x"]
      (by decide) (by decide) (by decide)).1,
   (C7_elementwise_grad.1 "exp" ElemFn.exp (Tensor.variable_ "x" ["x"] ["x"]) "x" ["x"]
      (by decide) (by decide) (by decide)).2 "x'"⟩

/-- Unfolding: `sumOver` on the empty name list. -/
theorem sumOver_nil (dims : String → Nat) (ι : String → Nat) (F : (String → Nat) → Rat) :
    sumOver dims [] ι F = F ι := rfl

/-- Unfolding: `sumOver` on a name cons. -/
theorem sumOver_cons (dims : String → Nat) (e : String) (es : List String)
    (ι : String → Nat) (F : (String → Nat) → Rat) :
    sumOver dims (e :: es) ι F =
      (Finset.range (dims e)).sum (fun v => sumOver dims es (updF ι e v) F) := rfl

/-- `sumOver` over a concatenation nests. -/
theorem sumOver_append (dims : String → Nat) : ∀ (a b : List String) (ι : String → Nat)
    (F : (String → Nat) → Rat),
    sumOver dims (a ++ b) ι F = sumOver dims a ι (fun κ => sumOver dims b κ F) := by
  intro a
  induction a with
  | nil => intro b ι F; rfl
  | cons e rest ih =>
    intro b ι F
    rw [List.cons_append, sumOver_cons, sumOver_cons]
    exact Finset.sum_congr rfl (fun v _ => ih b (updF ι e v) F)

/-- Summands that agree on every assignment reachable by updating the
summed names give equal iterated sums. -/
theorem sumOver_congr_off (dims : String → Nat) : ∀ (es : List String) (κ : String → Nat)
    (F G : (String → Nat) → Rat),
    (∀ κ2 : String → Nat, (∀ y, y ∉ es → κ2 y = κ y) → F κ2 = G κ2) →
    sumOver dims es κ F = sumOver dims es κ G := by
  intro es
  induction es with
  | nil =>
    intro κ F G h
    exact h κ (fun y _ => rfl)
  | cons e rest ih =>
    intro κ F G h
    rw [sumOver_cons, sumOver_cons]
    refine Finset.sum_congr rfl (fun v _ => ih (updF κ e v) F G ?_)
    intro κ2 h2
    apply h
    intro y hy
    have hyr : y ∉ rest := fun hc => hy (List.mem_cons_of_mem _ hc)
    have hye : y ≠ e := fun hc => hy (hc ▸ List.mem_cons_self _ _)
    rw [h2 y hyr]
    simp [updF, hye]

/-- Constant factors pull out of `sumOver`. -/
theorem sumOver_mul_left (dims : String → Nat) : ∀ (es : List String) (κ : String → Nat)
    (c : Rat) (F : (String → Nat) → Rat),
    sumOver dims es κ (fun κ2 => c * F κ2) = c * sumOver dims es κ F := by
  intro es
  induction es with
  | nil => intro κ c F; rfl
  | cons e rest ih =>
    intro κ c F
    rw [sumOver_cons, sumOver_cons, Finset.mul_sum]
    exact Finset.sum_congr rfl (fun v _ => ih (updF κ e v) c F)

/-- Point updates at distinct names commute. -/
theorem updF_comm {ι : String → Nat} {a b : String} {u v : Nat} (h : a ≠ b) :
    updF (updF ι a u) b v = updF (updF ι b v) a u := by
  funext x
  by_cases hxb : x = b <;> by_cases hxa : x = a
  · exact absurd (hxa.symm.trans hxb) h
  · simp [updF, hxa, hxb, Ne.symm h]
  · simp [updF, hxa, hxb, h]
  · simp [updF, hxa, hxb]

/-- A second update at the same name overrides the first. -/
theorem updF_updF_self {ι : String → Nat} {a : String} {u v : Nat} :
    updF (updF ι a u) a v = updF ι a v := by
  funext x
  by_cases hx : x = a <;> simp [updF, hx]

/-- `sumOver` is invariant under permuting the summed names. -/
theorem sumOver_perm (dims : String → Nat) {es es2 : List String} (h : es.Perm es2) :
    ∀ (κ : String → Nat) (F : (String → Nat) → Rat),
    sumOver dims es κ F = sumOver dims es2 κ F := by
  induction h with
  | nil => intro κ F; rfl
  | cons x h ih =>
    intro κ F
    rw [sumOver_cons, sumOver_cons]
    exact Finset.sum_congr rfl (fun v _ => ih (updF κ x v) F)
  | swap a b l =>
    intro κ F
    by_cases hab : b = a
    · rw [hab]
    · simp only [sumOver_cons]
      rw [Finset.sum_comm]
      refine Finset.sum_congr rfl (fun v _ => Finset.sum_congr rfl (fun u _ => ?_))
      rw [updF_comm hab]
  | trans h1 h2 ih1 ih2 =>
    intro κ F
    rw [ih1 κ F, ih2 κ F]

/-- Membership in the contracted edges of a product is having occurrence
count two. -/
theorem mem_innerEdges_iff {fs : List Tensor} {x : String} :
    x ∈ innerEdges fs ↔ (occsOf fs).count x = 2 := by
  rw [innerEdges_def]
  constructor
  · intro h
    have := List.mem_filter.mp h
    simpa using this.2
  · intro h
    apply List.mem_filter.mpr
    refine ⟨?_, by simpa using h⟩
    rw [List.mem_dedup, ← List.count_pos_iff, h]
    omega

/-- Memberwise evaluation-grade well-formedness of a factor list. -/
theorem wfEL_mem : ∀ {fs : List Tensor}, wfEL fs = true → ∀ u ∈ fs, wfE u = true := by
  intro fs
  induction fs with
  | nil => intro _ u hu; cases hu
  | cons t rest ih =>
    intro h u hu
    simp only [wfEL, Bool.and_eq_true] at h
    rcases List.mem_cons.mp hu with rfl | hu2
    · exact h.1
    · exact ih h.2 u hu2

/-- Memberwise evaluation-grade well-formedness of a term list. -/
theorem wfET_mem : ∀ {ts : List (Int × Tensor)}, wfET ts = true →
    ∀ ct ∈ ts, wfE ct.2 = true := by
  intro ts
  induction ts with
  | nil => intro _ ct hct; cases hct
  | cons p rest ih =>
    obtain ⟨c, t⟩ := p
    intro h ct hct
    simp only [wfET, Bool.and_eq_true] at h
    rcases List.mem_cons.mp hct with rfl | hct2
    · exact h.1
    · exact ih h.2 ct hct2

/-- Memberwise environment respect for a factor list. -/
theorem EnvOkL_mem {env : String → (String → Nat) → Rat} :
    ∀ {fs : List Tensor}, EnvOkL env fs → ∀ u ∈ fs, EnvOk env u := by
  intro fs
  induction fs with
  | nil => intro _ u hu; cases hu
  | cons t rest ih =>
    intro h u hu
    obtain ⟨h1, h2⟩ := h
    rcases List.mem_cons.mp hu with rfl | hu2
    · exact h1
    · exact ih h2 u hu2

/-- Memberwise environment respect for a term list. -/
theorem EnvOkT_mem {env : String → (String → Nat) → Rat} :
    ∀ {ts : List (Int × Tensor)}, EnvOkT env ts → ∀ ct ∈ ts, EnvOk env ct.2 := by
  intro ts
  induction ts with
  | nil => intro _ ct hct; cases hct
  | cons p rest ih =>
    obtain ⟨c, t⟩ := p
    intro h ct hct
    obtain ⟨h1, h2⟩ := h
    rcases List.mem_cons.mp hct with rfl | hct2
    · exact h1
    · exact ih h2 ct hct2

/-- A declared edge looks up to one of the current edges when the two
lists have equal length. -/
theorem lookupEdge_mem : ∀ (o es : List String) (oe : String), o.length = es.length →
    oe ∈ o → lookupEdge o es oe ∈ es := by
  intro o
  induction o with
  | nil => intro es oe _ hoe; cases hoe
  | cons o0 os ih =>
    intro es oe hlen hoe
    cases es with
    | nil => simp at hlen
    | cons c cs =>
      show (if o0 = oe then c else lookupEdge os cs oe) ∈ c :: cs
      by_cases h0 : o0 = oe
      · rw [if_pos h0]
        exact List.mem_cons_self _ _
      · rw [if_neg h0]
        rcases List.mem_cons.mp hoe with rfl | hoe2
        · exact absurd rfl h0
        · exact List.mem_cons_of_mem _ (ih cs oe (by simpa using hlen) hoe2)

/-- Positional lookup commutes with renaming the current edges. -/
theorem lookupEdge_map (f : String → String) : ∀ (o es : List String) (oe : String),
    o.length = es.length → oe ∈ o →
    lookupEdge o (es.map f) oe = f (lookupEdge o es oe) := by
  intro o
  induction o with
  | nil => intro es oe _ hoe; cases hoe
  | cons o0 os ih =>
    intro es oe hlen hoe
    cases es with
    | nil => simp at hlen
    | cons c cs =>
      show (if o0 = oe then f c else lookupEdge os (cs.map f) oe) =
        f (if o0 = oe then c else lookupEdge os cs oe)
      by_cases h0 : o0 = oe
      · rw [if_pos h0, if_pos h0]
      · rw [if_neg h0, if_neg h0]
        rcases List.mem_cons.mp hoe with rfl | hoe2
        · exact absurd rfl h0
        · exact ih cs oe (by simpa using hlen) hoe2

/-- Boolean `all` scans agree when the predicates agree memberwise. -/
theorem all_congr_mem {α : Type} {l : List α} {p q : α → Bool}
    (h : ∀ x ∈ l, p x = q x) : l.all p = l.all q := by
  induction l with
  | nil => rfl
  | cons a as ih =>
    simp only [List.all_cons]
    rw [h a (List.mem_cons_self _ _), ih (fun x hx => h x (List.mem_cons_of_mem _ hx))]

/-- Iterated sums over name lists related by congruence on an agreement
set: the summands only need to agree on assignments that agree on the
set, and the initial assignments agree on the set outside the summed
names. -/
theorem sumOver_congrP (dims : String → Nat) (P : String → Prop) :
    ∀ (es : List String) (κ1 κ2 : String → Nat) (F G : (String → Nat) → Rat),
    (∀ κ3 κ4 : String → Nat, (∀ x, P x → κ3 x = κ4 x) → F κ3 = G κ4) →
    (∀ x, P x → x ∈ es ∨ κ1 x = κ2 x) →
    sumOver dims es κ1 F = sumOver dims es κ2 G := by
  intro es
  induction es with
  | nil =>
    intro κ1 κ2 F G hFG hinit
    exact hFG κ1 κ2 (fun x hx => (hinit x hx).resolve_left (List.not_mem_nil x))
  | cons e rest ih =>
    intro κ1 κ2 F G hFG hinit
    rw [sumOver_cons, sumOver_cons]
    refine Finset.sum_congr rfl (fun v _ => ih (updF κ1 e v) (updF κ2 e v) F G hFG ?_)
    intro x hx
    by_cases hxe : x = e
    · right
      simp [updF, hxe]
    · rcases hinit x hx with hmem | heq
      · rcases List.mem_cons.mp hmem with rfl | h2
        · exact absurd rfl hxe
        · exact Or.inl h2
      · right
        simp [updF, hxe, heq]

/-- Under the evaluation-grade invariants and a respectful environment,
the value of a graph depends on the ambient index assignment only
through the graph's free edges. -/
theorem eval_free_congr (dims : String → Nat) (env : String → (String → Nat) → Rat)
    (appF : ElemFn → Rat → Rat) : ∀ t : Tensor, wfE t = true → EnvOk env t →
    ∀ κ1 κ2 : String → Nat, (∀ x ∈ freeEdges t, κ1 x = κ2 x) →
    eval dims env appF κ1 t = eval dims env appF κ2 t := by
  intro t
  induction t using Tensor.myInd with
  | hv n o es =>
    intro hwf henv κ1 κ2 hag
    have hlen : o.length = es.length := by
      simp [wfE] at hwf
      tauto
    show env n (fun oe => κ1 (lookupEdge o es oe)) = env n (fun oe => κ2 (lookupEdge o es oe))
    apply henv
    intro oe hoe
    exact hag _ (lookupEdge_mem o es oe hlen hoe)
  | hc es =>
    intro _ _ κ1 κ2 hag
    cases es with
    | nil => rfl
    | cons h rest =>
      show (if rest.all (fun x => κ1 x == κ1 h) then (1 : Rat) else 0) =
        (if rest.all (fun x => κ2 x == κ2 h) then (1 : Rat) else 0)
      have heq : rest.all (fun x => κ1 x == κ1 h) = rest.all (fun x => κ2 x == κ2 h) := by
        apply all_congr_mem
        intro x hx
        rw [hag x (List.mem_cons_of_mem _ hx), hag h (List.mem_cons_self _ _)]
      rw [heq]
  | hz es => intro _ _ _ _ _; rfl
  | ho es => intro _ _ _ _ _; rfl
  | he n f t iht =>
    intro hwf henv κ1 κ2 hag
    show appF f (eval dims env appF κ1 t) = appF f (eval dims env appF κ2 t)
    rw [iht hwf henv κ1 κ2 hag]
  | hs ts ih =>
    intro hwf henv κ1 κ2 hag
    cases ts with
    | nil => rfl
    | cons p rest =>
      obtain ⟨c0, t0⟩ := p
      have hwfT : wfET ((c0, t0) :: rest) = true := by
        simp only [wfE, Bool.and_eq_true] at hwf
        exact hwf.1.2
      have hsame : ∀ ct ∈ (c0, t0) :: rest, freeEdges ct.2 = freeEdges t0 := by
        have hall : (rest.all (fun ct => freeEdges ct.2 == freeEdges t0)) = true := by
          simp only [wfE, Bool.and_eq_true] at hwf
          exact hwf.2
        intro ct hct
        rcases List.mem_cons.mp hct with rfl | hct2
        · rfl
        · have := List.all_eq_true.mp hall ct hct2
          exact eq_of_beq this
      have henvT : EnvOkT env ((c0, t0) :: rest) := henv
      have key : ∀ l : List (Int × Tensor), (∀ ct ∈ l, ct ∈ (c0, t0) :: rest) →
          evalSum dims env appF κ1 l = evalSum dims env appF κ2 l := by
        intro l
        induction l with
        | nil => intro _; rfl
        | cons q qs ihq =>
          intro hsub
          obtain ⟨cq, tq⟩ := q
          have hq := hsub (cq, tq) (List.mem_cons_self _ _)
          have hagq : ∀ x ∈ freeEdges tq, κ1 x = κ2 x := by
            intro x hx
            apply hag
            show x ∈ freeEdges t0
            rw [← hsame (cq, tq) hq]
            exact hx
          show (cq : Rat) * eval dims env appF κ1 tq + evalSum dims env appF κ1 qs = _
          rw [ih (cq, tq) hq (wfET_mem hwfT _ hq) (EnvOkT_mem henvT _ hq) κ1 κ2 hagq,
            ihq (fun ct hct => hsub ct (List.mem_cons_of_mem _ hct))]
          rfl
      exact key ((c0, t0) :: rest) (fun ct h => h)
  | hp fs ih =>
    intro hwf henv κ1 κ2 hag
    have hwfl : wfEL fs = true := by
      simp only [wfE, Bool.and_eq_true] at hwf
      exact hwf.1.2
    have hcnt : ∀ e ∈ occsOf fs, (occsOf fs).count e ≤ 2 := by
      have := by
        simp only [wfE, Bool.and_eq_true] at hwf
        exact hwf.2
      intro e he
      have h2 := List.all_eq_true.mp this e he
      simpa using h2
    have henvL : EnvOkL env fs := henv
    show sumOver dims (innerEdges fs) κ1 (fun κ => evalProd dims env appF κ fs) =
      sumOver dims (innerEdges fs) κ2 (fun κ => evalProd dims env appF κ fs)
    apply sumOver_congrP dims (fun x => x ∈ freeEdges (.prod fs) ∨ x ∈ innerEdges fs)
    · intro κ3 κ4 hag2
      have key : ∀ l : List Tensor, (∀ u ∈ l, u ∈ fs) →
          evalProd dims env appF κ3 l = evalProd dims env appF κ4 l := by
        intro l
        induction l with
        | nil => intro _; rfl
        | cons u us ihu =>
          intro hsub
          have hu := hsub u (List.mem_cons_self _ _)
          have hagu : ∀ x ∈ freeEdges u, κ3 x = κ4 x := by
            intro x hx
            apply hag2
            have hocc : x ∈ occsOf fs := mem_occsOf.mpr ⟨u, hu, hx⟩
            have h1 : 0 < (occsOf fs).count x := List.count_pos_iff.mpr hocc
            have h2 := hcnt x hocc
            have h3 : (occsOf fs).count x = 1 ∨ (occsOf fs).count x = 2 := by omega
            rcases h3 with hc | hc
            · exact Or.inl (mem_freeEdges_prod_iff.mpr hc)
            · exact Or.inr (mem_innerEdges_iff.mpr hc)
          show eval dims env appF κ3 u * evalProd dims env appF κ3 us = _
          rw [ih u hu (wfEL_mem hwfl u hu) (EnvOkL_mem henvL u hu) κ3 κ4 hagu,
            ihu (fun y hy => hsub y (List.mem_cons_of_mem _ hy))]
          rfl
      exact key fs (fun u h => h)
    · intro x hx
      rcases hx with hfree | hinner
      · exact Or.inr (hag x hfree)
      · exact Or.inl hinner

/-- Renaming with a map injective on the graph's names maps the
contracted edges of a product elementwise. -/
theorem innerEdges_renameF {fs : List Tensor} {f : String → String}
    (hinj : ∀ a ∈ namesOfL fs, ∀ b ∈ namesOfL fs, f a = f b → a = b) :
    innerEdges (renameFL f fs) = (innerEdges fs).map f := by
  have hmem : ∀ t ∈ fs, freeEdges (renameF f t) = (freeEdges t).map f := by
    intro t ht
    apply freeEdges_renameF t f
    intro a ha b hb
    exact hinj a (mem_namesOfL ht a ha) b (mem_namesOfL ht b hb)
  have hocc : occsOf (renameFL f fs) = (occsOf fs).map f := occsOf_renameFL hmem
  have hoinj : ∀ a ∈ occsOf fs, ∀ b ∈ occsOf fs, f a = f b → a = b := by
    intro a ha b hb
    rw [mem_occsOf] at ha hb
    obtain ⟨t1, ht1, ha1⟩ := ha
    obtain ⟨t2, ht2, hb1⟩ := hb
    exact hinj a (mem_namesOfL ht1 a (freeEdges_subset_namesOf t1 a ha1))
      b (mem_namesOfL ht2 b (freeEdges_subset_namesOf t2 b hb1))
  rw [innerEdges_def, innerEdges_def, hocc, dedup_map_injOn hoinj]
  rw [List.filter_map]
  apply congrArg
  apply List.filter_congr
  intro a ha
  rw [List.mem_dedup] at ha
  simp only [Function.comp_apply, decide_eq_decide]
  rw [count_map_injOn hoinj a ha]

/-- An iterated sum over injectively renamed names, with summands related
through the rename on an ambient name set. -/
theorem sumOver_map_rename (dims : String → Nat) (f : String → String) (S : List String)
    (hinj : ∀ a ∈ S, ∀ b ∈ S, f a = f b → a = b) :
    ∀ (es : List String), (∀ e ∈ es, e ∈ S) → (∀ e ∈ es, dims (f e) = dims e) →
    ∀ (κ μ : String → Nat) (F G : (String → Nat) → Rat),
    (∀ κ3 μ3 : String → Nat, (∀ x ∈ S, μ3 x = κ3 (f x)) → F κ3 = G μ3) →
    (∀ x ∈ S, μ x = κ (f x)) →
    sumOver dims (es.map f) κ F = sumOver dims es μ G := by
  intro es
  induction es with
  | nil =>
    intro _ _ κ μ F G hFG hag
    exact hFG κ μ hag
  | cons e rest ih =>
    intro hsub hdims κ μ F G hFG hag
    rw [List.map_cons, sumOver_cons, sumOver_cons, hdims e (List.mem_cons_self _ _)]
    refine Finset.sum_congr rfl (fun v _ => ?_)
    apply ih (fun x hx => hsub x (List.mem_cons_of_mem _ hx))
      (fun x hx => hdims x (List.mem_cons_of_mem _ hx)) _ _ F G hFG
    intro x hxS
    by_cases hxe : x = e
    · subst hxe
      simp [updF]
    · have hfne : f x ≠ f e := by
        intro hc
        exact hxe (hinj x hxS e (hsub e (List.mem_cons_self _ _)) hc)
      simp only [updF, if_neg hxe, if_neg hfne]
      exact hag x hxS

/-- Under the evaluation-grade invariants and a respectful environment,
evaluating an injectively renamed graph at `κ` equals evaluating the
original at any assignment that reads each name through the rename
(dimensions are carried along the rename). -/
theorem eval_renameF (dims : String → Nat) (env : String → (String → Nat) → Rat)
    (appF : ElemFn → Rat → Rat) (f : String → String) :
    ∀ t : Tensor, wfE t = true → EnvOk env t →
    (∀ a ∈ namesOf t, ∀ b ∈ namesOf t, f a = f b → a = b) →
    (∀ x ∈ namesOf t, dims (f x) = dims x) →
    ∀ (κ μ : String → Nat), (∀ x ∈ namesOf t, μ x = κ (f x)) →
    eval dims env appF κ (renameF f t) = eval dims env appF μ t := by
  intro t
  induction t using Tensor.myInd with
  | hv n o es =>
    intro hwf henv _ _ κ μ hag
    have hlen : o.length = es.length := by
      simp [wfE] at hwf
      tauto
    show env n (fun oe => κ (lookupEdge o (es.map f) oe)) =
      env n (fun oe => μ (lookupEdge o es oe))
    apply henv
    intro oe hoe
    rw [lookupEdge_map f o es oe hlen hoe]
    exact (hag _ (lookupEdge_mem o es oe hlen hoe)).symm
  | hc es =>
    intro _ _ _ _ κ μ hag
    cases es with
    | nil => rfl
    | cons h rest =>
      show (if (rest.map f).all (fun x => κ x == κ (f h)) then (1 : Rat) else 0) =
        (if rest.all (fun x => μ x == μ h) then (1 : Rat) else 0)
      have heq : (rest.map f).all (fun x => κ x == κ (f h)) =
          rest.all (fun x => μ x == μ h) := by
        rw [List.all_map]
        apply all_congr_mem
        intro x hx
        show (κ (f x) == κ (f h)) = (μ x == μ h)
        rw [hag x (List.mem_cons_of_mem _ hx), hag h (List.mem_cons_self _ _)]
      rw [heq]
  | hz es => intro _ _ _ _ κ μ _; rfl
  | ho es => intro _ _ _ _ κ μ _; rfl
  | he n g t iht =>
    intro hwf henv hinj hdims κ μ hag
    show appF g (eval dims env appF κ (renameF f t)) = appF g (eval dims env appF μ t)
    rw [iht hwf henv hinj hdims κ μ hag]
  | hs ts ih =>
    intro hwf henv hinj hdims κ μ hag
    have hwfT : wfET ts = true := by
      cases ts with
      | nil => rfl
      | cons p rest =>
        obtain ⟨c, t0⟩ := p
        simp only [wfE, Bool.and_eq_true] at hwf
        exact hwf.1.2
    have henvT : EnvOkT env ts := henv
    show evalSum dims env appF κ (renameFT f ts) = evalSum dims env appF μ ts
    have key : ∀ l : List (Int × Tensor), (∀ ct ∈ l, ct ∈ ts) →
        evalSum dims env appF κ (renameFT f l) = evalSum dims env appF μ l := by
      intro l
      induction l with
      | nil => intro _; rfl
      | cons q l2 ihq =>
        intro hsub
        obtain ⟨cq, tq⟩ := q
        have hq := hsub (cq, tq) (List.mem_cons_self _ _)
        show (cq : Rat) * eval dims env appF κ (renameF f tq) +
          evalSum dims env appF κ (renameFT f l2) = _
        rw [ih (cq, tq) hq (wfET_mem hwfT _ hq) (EnvOkT_mem henvT _ hq)
            (fun a ha b hb => hinj a (mem_namesOfT hq a ha) b (mem_namesOfT hq b hb))
            (fun x hx => hdims x (mem_namesOfT hq x hx)) κ μ
            (fun x hx => hag x (mem_namesOfT hq x hx)),
          ihq (fun ct hct => hsub ct (List.mem_cons_of_mem _ hct))]
        rfl
    exact key ts (fun ct h => h)
  | hp fs ih =>
    intro hwf henv hinj hdims κ μ hag
    have hwfl : wfEL fs = true := by
      cases fs with
      | nil => rfl
      | cons t0 rest =>
        simp only [wfE, Bool.and_eq_true] at hwf
        exact hwf.1.2
    have henvL : EnvOkL env fs := henv
    have hinjL : ∀ a ∈ namesOfL fs, ∀ b ∈ namesOfL fs, f a = f b → a = b := hinj
    have hsubS : ∀ e ∈ innerEdges fs, e ∈ namesOfL fs := by
      intro e he
      have hocc : e ∈ occsOf fs := by
        have := mem_innerEdges_iff.mp he
        rw [← List.count_pos_iff]
        omega
      rw [mem_occsOf] at hocc
      obtain ⟨t2, ht2, het⟩ := hocc
      exact mem_namesOfL ht2 e (freeEdges_subset_namesOf t2 e het)
    show sumOver dims (innerEdges (renameFL f fs)) κ
        (fun κ2 => evalProd dims env appF κ2 (renameFL f fs)) =
      sumOver dims (innerEdges fs) μ (fun μ2 => evalProd dims env appF μ2 fs)
    rw [innerEdges_renameF hinjL]
    refine sumOver_map_rename dims f (namesOfL fs) hinjL (innerEdges fs) hsubS
      (fun e he => hdims e (hsubS e he)) κ μ _ _ ?_ hag
    intro κ3 μ3 hag3
    have key : ∀ l : List Tensor, (∀ u ∈ l, u ∈ fs) →
        evalProd dims env appF κ3 (renameFL f l) = evalProd dims env appF μ3 l := by
      intro l
      induction l with
      | nil => intro _; rfl
      | cons u us ihu =>
        intro hsub
        have hu := hsub u (List.mem_cons_self _ _)
        show eval dims env appF κ3 (renameF f u) * evalProd dims env appF κ3 (renameFL f us) = _
        rw [ih u hu (wfEL_mem hwfl u hu) (EnvOkL_mem henvL u hu)
            (fun a ha b hb => hinjL a (mem_namesOfL hu a ha) b (mem_namesOfL hu b hb))
            (fun x hx => hdims x (mem_namesOfL hu x hx)) κ3 μ3
            (fun x hx => hag3 x (mem_namesOfL hu x hx)),
          ihu (fun y hy => hsub y (List.mem_cons_of_mem _ hy))]
        rfl
    exact key fs (fun u h => h)

/-- Unfolding: `updAll` on nil. -/
theorem updAll_nil (ι : String → Nat) (v : Nat) : updAll ι [] v = ι := rfl

/-- Unfolding: `updAll` on cons. -/
theorem updAll_cons (ι : String → Nat) (e : String) (es : List String) (v : Nat) :
    updAll ι (e :: es) v = updAll (updF ι e v) es v := rfl

/-- `updAll` leaves names outside the list unchanged. -/
theorem updAll_apply_of_not_mem : ∀ (es : List String) (ι : String → Nat) (v : Nat)
    (x : String), x ∉ es → updAll ι es v x = ι x := by
  intro es
  induction es with
  | nil => intro ι v x _; rfl
  | cons e rest ih =>
    intro ι v x hx
    have hxe : x ≠ e := fun hc => hx (hc ▸ List.mem_cons_self _ _)
    have hxr : x ∉ rest := fun hc => hx (List.mem_cons_of_mem _ hc)
    rw [updAll_cons, ih (updF ι e v) v x hxr]
    simp [updF, hxe]

/-- `updAll` sets every listed name to the shared value. -/
theorem updAll_apply_of_mem : ∀ (es : List String) (ι : String → Nat) (v : Nat)
    (x : String), x ∈ es → updAll ι es v x = v := by
  intro es
  induction es with
  | nil => intro ι v x hx; cases hx
  | cons e rest ih =>
    intro ι v x hx
    by_cases hxr : x ∈ rest
    · rw [updAll_cons, ih (updF ι e v) v x hxr]
    · rcases List.mem_cons.mp hx with rfl | h2
      · rw [updAll_cons, updAll_apply_of_not_mem rest (updF ι x v) v x hxr]
        simp [updF]
      · exact absurd h2 hxr

/-- Evaluating a `Copy` node only reads the assignment at its edges. -/
theorem eval_copy_congr (dims : String → Nat) (env : String → (String → Nat) → Rat)
    (appF : ElemFn → Rat → Rat) (es : List String) (κ1 κ2 : String → Nat)
    (h : ∀ x ∈ es, κ1 x = κ2 x) :
    eval dims env appF κ1 (Tensor.copy es) = eval dims env appF κ2 (Tensor.copy es) := by
  cases es with
  | nil => rfl
  | cons h0 rest =>
    show (if rest.all (fun x => κ1 x == κ1 h0) then (1 : Rat) else 0) =
      (if rest.all (fun x => κ2 x == κ2 h0) then (1 : Rat) else 0)
    have heq : rest.all (fun x => κ1 x == κ1 h0) = rest.all (fun x => κ2 x == κ2 h0) := by
      apply all_congr_mem
      intro x hx
      rw [h x (List.mem_cons_of_mem _ hx), h h0 (List.mem_cons_self _ _)]
    rw [heq]

/-- The value of a factor-list concatenation is the product of the
values. -/
theorem evalProd_append (dims : String → Nat) (env : String → (String → Nat) → Rat)
    (appF : ElemFn → Rat → Rat) : ∀ (a b : List Tensor) (κ : String → Nat),
    evalProd dims env appF κ (a ++ b) =
      evalProd dims env appF κ a * evalProd dims env appF κ b := by
  intro a
  induction a with
  | nil =>
    intro b κ
    show evalProd dims env appF κ b = 1 * evalProd dims env appF κ b
    rw [one_mul]
  | cons t rest ih =>
    intro b κ
    show eval dims env appF κ t * evalProd dims env appF κ (rest ++ b) = _
    rw [ih b κ, ← mul_assoc]
    rfl

/-- Collapsing an iterated sum over duplicate-free names against the
indicator that every summed name equals the fixed value `u`. -/
theorem delta_collapse (dims : String → Nat) : ∀ (rs : List String) (κ0 : String → Nat)
    (u : Nat) (H : (String → Nat) → Rat), rs.Nodup → (∀ x ∈ rs, u < dims x) →
    sumOver dims rs κ0
        (fun κ2 => (if rs.all (fun x => κ2 x == u) then (1 : Rat) else 0) * H κ2) =
      H (updAll κ0 rs u) := by
  intro rs
  induction rs with
  | nil =>
    intro κ0 u H _ _
    show (if true then (1 : Rat) else 0) * H κ0 = H κ0
    rw [if_pos rfl, one_mul]
  | cons r rs2 ih =>
    intro κ0 u H hnd hdlt
    rw [List.nodup_cons] at hnd
    rw [sumOver_cons]
    have hstep : ∀ w, sumOver dims rs2 (updF κ0 r w)
        (fun κ2 => (if (r :: rs2).all (fun x => κ2 x == u) then (1 : Rat) else 0) * H κ2) =
        (if w = u then (1 : Rat) else 0) * sumOver dims rs2 (updF κ0 r w)
          (fun κ2 => (if rs2.all (fun x => κ2 x == u) then (1 : Rat) else 0) * H κ2) := by
      intro w
      rw [← sumOver_mul_left]
      apply sumOver_congr_off
      intro κ2 hoff
      have hr : κ2 r = w := by
        rw [hoff r hnd.1]
        simp [updF]
      show (if (r :: rs2).all (fun x => κ2 x == u) then (1 : Rat) else 0) * H κ2 =
        (if w = u then (1 : Rat) else 0) *
          ((if rs2.all (fun x => κ2 x == u) then (1 : Rat) else 0) * H κ2)
      rw [List.all_cons, hr]
      by_cases hwu : w = u
      · subst hwu
        simp
      · have hb : (w == u) = false := by simp [hwu]
        rw [hb]
        simp [hwu]
    rw [Finset.sum_congr rfl (fun w _ => hstep w)]
    rw [sum_pull2 (hdlt r (List.mem_cons_self _ _))]
    rw [ih (updF κ0 r u) u H hnd.2 (fun x hx => hdlt x (List.mem_cons_of_mem _ hx))]
    rw [updAll_cons]

/-- Collapsing one `Copy` join block whose name is kept free: the block's
targets are forced to the anchor's outer index. -/
theorem copy_block_collapse_out (dims : String → Nat) (h : String) (tR : List String)
    (e : String) (κ : String → Nat) (H : (String → Nat) → Rat)
    (hnd : (h :: tR).Nodup) (he : e ∉ h :: tR)
    (hdims : ∀ x ∈ h :: tR, dims x = dims e) (hbound : κ e < dims e) :
    sumOver dims (h :: tR) κ (fun κ2 =>
        (if (tR ++ [e]).all (fun x => κ2 x == κ2 h) then (1 : Rat) else 0) * H κ2) =
      H (updAll κ (h :: tR) (κ e)) := by
  rw [List.nodup_cons] at hnd
  rw [sumOver_cons]
  have hstep : ∀ w, sumOver dims tR (updF κ h w)
      (fun κ2 => (if (tR ++ [e]).all (fun x => κ2 x == κ2 h) then (1 : Rat) else 0) * H κ2) =
      (if κ e = w then (1 : Rat) else 0) * sumOver dims tR (updF κ h w)
        (fun κ2 => (if tR.all (fun x => κ2 x == w) then (1 : Rat) else 0) * H κ2) := by
    intro w
    rw [← sumOver_mul_left]
    apply sumOver_congr_off
    intro κ2 hoff
    have hκh : κ2 h = w := by
      rw [hoff h hnd.1]
      simp [updF]
    have hκe : κ2 e = κ e := by
      have hetR : e ∉ tR := fun hc => he (List.mem_cons_of_mem _ hc)
      have heh : e ≠ h := fun hc => he (hc ▸ List.mem_cons_self _ _)
      rw [hoff e hetR]
      simp [updF, heh]
    show (if (tR ++ [e]).all (fun x => κ2 x == κ2 h) then (1 : Rat) else 0) * H κ2 =
      (if κ e = w then (1 : Rat) else 0) *
        ((if tR.all (fun x => κ2 x == w) then (1 : Rat) else 0) * H κ2)
    rw [List.all_append, hκh]
    have hsing : ([e] : List String).all (fun x => κ2 x == w) = (κ e == w) := by
      simp only [List.all_cons, List.all_nil, Bool.and_true]
      rw [hκe]
    rw [hsing]
    by_cases hwu : κ e = w
    · rw [if_pos hwu]
      have hb : (κ e == w) = true := by simp [hwu]
      rw [hb]
      simp
    · rw [if_neg hwu]
      have hb : (κ e == w) = false := by simp [hwu]
      rw [hb]
      simp
  rw [Finset.sum_congr rfl (fun w _ => hstep w)]
  have hbound2 : κ e < dims h := by
    rw [hdims h (List.mem_cons_self _ _)]
    exact hbound
  rw [sum_pull hbound2]
  rw [delta_collapse dims tR (updF κ h (κ e)) (κ e) H hnd.2 ?dlt]
  case dlt =>
    intro x hx
    rw [hdims x (List.mem_cons_of_mem _ hx)]
    exact hbound
  rw [updAll_cons]

/-- Collapsing one `Copy` join block whose name is contracted: the
block's targets range together over the shared dimension. -/
theorem copy_block_collapse_sum (dims : String → Nat) (h : String) (tR : List String)
    (κ : String → Nat) (H : (String → Nat) → Rat) (d : Nat)
    (hnd : (h :: tR).Nodup) (hdims : ∀ x ∈ h :: tR, dims x = d) :
    sumOver dims (h :: tR) κ (fun κ2 =>
        (if tR.all (fun x => κ2 x == κ2 h) then (1 : Rat) else 0) * H κ2) =
      (Finset.range d).sum (fun v => H (updAll κ (h :: tR) v)) := by
  rw [List.nodup_cons] at hnd
  rw [sumOver_cons, hdims h (List.mem_cons_self _ _)]
  refine Finset.sum_congr rfl (fun w hw => ?_)
  have hmassage : sumOver dims tR (updF κ h w)
      (fun κ2 => (if tR.all (fun x => κ2 x == κ2 h) then (1 : Rat) else 0) * H κ2) =
      sumOver dims tR (updF κ h w)
        (fun κ2 => (if tR.all (fun x => κ2 x == w) then (1 : Rat) else 0) * H κ2) := by
    apply sumOver_congr_off
    intro κ2 hoff
    have hr : κ2 h = w := by
      rw [hoff h hnd.1]
      simp [updF]
    rw [hr]
  rw [hmassage, delta_collapse dims tR (updF κ h w) w H hnd.2 ?dlt]
  case dlt =>
    intro x hx
    rw [hdims x (List.mem_cons_of_mem _ hx)]
    exact Finset.mem_range.mp hw
  rw [updAll_cons]

/-- A successful rename lookup exhibits its association pair. -/
theorem findRen_some_pair {σ : List (String × String)} {e x : String}
    (h : findRen σ e = some x) : (e, x) ∈ σ := by
  unfold findRen at h
  cases hf : σ.find? (fun pr => pr.1 == e) with
  | none => rw [hf] at h; cases h
  | some pr =>
    obtain ⟨a, b⟩ := pr
    rw [hf] at h
    have hb : b = x := by simpa using h
    have ha : a = e := by simpa using List.find?_some hf
    rw [← ha, ← hb]
    exact List.mem_of_find?_eq_some hf

/-- A key present among the firsts always has a rename lookup hit. -/
theorem findRen_is_some : ∀ {σ : List (String × String)} {e : String},
    e ∈ σ.map Prod.fst → ∃ v, findRen σ e = some v := by
  intro σ
  induction σ with
  | nil => intro e he; cases he
  | cons p σ2 ih =>
    obtain ⟨k, w⟩ := p
    intro e he
    by_cases hke : k = e
    · subst hke
      exact ⟨w, findRen_cons_self⟩
    · rw [findRen_cons_ne hke]
      apply ih
      simp only [List.map_cons, List.mem_cons] at he
      rcases he with h1 | h2
      · exact absurd h1.symm hke
      · exact h2

/-- `applyRen` agrees with a successful `findRen` lookup. -/
theorem findRen_applyRen {σ : List (String × String)} {e v : String}
    (h : findRen σ e = some v) : applyRen σ e = v := by
  unfold findRen at h
  unfold applyRen
  cases hf : σ.find? (fun pr => pr.1 == e) with
  | none => rw [hf] at h; cases h
  | some pr =>
    rw [hf] at h
    simpa using h

/-- A map without duplicates is injective on the underlying list. -/
theorem map_nodup_inj_on {α β : Type} {f : α → β} : ∀ {l : List α}, (l.map f).Nodup →
    ∀ x ∈ l, ∀ y ∈ l, f x = f y → x = y := by
  intro l
  induction l with
  | nil => intro _ x hx; cases hx
  | cons a l2 ih =>
    intro hN x hx y hy hxy
    simp only [List.map_cons, List.nodup_cons] at hN
    rcases List.mem_cons.mp hx with rfl | hx2
    · rcases List.mem_cons.mp hy with rfl | hy2
      · rfl
      · exact absurd (List.mem_map.mpr ⟨y, hy2, hxy.symm⟩) hN.1
    · rcases List.mem_cons.mp hy with rfl | hy2
      · exact absurd (List.mem_map.mpr ⟨x, hx2, hxy⟩) hN.1
      · exact ih hN.2 x hx2 y hy2 hxy

/-- Duplicate-free concatenated targets give duplicate-free per-map
values. -/
theorem snds_nodup_of_targets : ∀ {σs : List (List (String × String))},
    (targetsOf σs).Nodup → ∀ σ ∈ σs, (σ.map Prod.snd).Nodup := by
  intro σs
  induction σs with
  | nil => intro _ σ hσ; cases hσ
  | cons σ0 rest ih =>
    intro hN σ hσ
    rw [targetsOf_cons, List.nodup_append] at hN
    rcases List.mem_cons.mp hσ with rfl | hσ2
    · exact hN.1
    · exact ih hN.2.1 σ hσ2

/-- Per-map values sit inside the concatenated targets. -/
theorem mem_targetsOf : ∀ {σs : List (List (String × String))} {σ : List (String × String)},
    σ ∈ σs → ∀ {x : String}, x ∈ σ.map Prod.snd → x ∈ targetsOf σs := by
  intro σs
  induction σs with
  | nil => intro σ hσ; cases hσ
  | cons σ0 rest ih =>
    intro σ hσ x hx
    rw [targetsOf_cons, List.mem_append]
    rcases List.mem_cons.mp hσ with rfl | hσ2
    · exact Or.inl hx
    · exact Or.inr (ih hσ2 hx)

/-- Distinct member maps of a duplicate-free target concatenation have
disjoint values. -/
theorem targets_disjoint_of_ne : ∀ {σs : List (List (String × String))},
    (targetsOf σs).Nodup → ∀ {σ σ2 : List (String × String)}, σ ∈ σs → σ2 ∈ σs → σ ≠ σ2 →
    ∀ x ∈ σ.map Prod.snd, x ∉ σ2.map Prod.snd := by
  intro σs
  induction σs with
  | nil => intro _ σ σ2 hσ; cases hσ
  | cons σ0 rest ih =>
    intro hN σ σ2 hσ hσ2 hne x hx hx2
    rw [targetsOf_cons, List.nodup_append] at hN
    rcases List.mem_cons.mp hσ with rfl | hσr
    · rcases List.mem_cons.mp hσ2 with rfl | hσ2r
      · exact hne rfl
      · exact hN.2.2 hx (mem_targetsOf hσ2r hx2)
    · rcases List.mem_cons.mp hσ2 with rfl | hσ2r
      · exact hN.2.2 hx2 (mem_targetsOf hσr hx)
      · exact ih hN.2.1 hσr hσ2r hne x hx hx2

/-- The renamed copies of one original name are rename targets. -/
theorem filterMap_findRen_mem {σs : List (List (String × String))} {e x : String}
    (hx : x ∈ σs.filterMap (fun σ => findRen σ e)) : x ∈ targetsOf σs := by
  rw [List.mem_filterMap] at hx
  obtain ⟨σ, hσ, hfind⟩ := hx
  exact mem_targetsOf hσ (List.mem_map.mpr ⟨(e, x), findRen_some_pair hfind, rfl⟩)

/-- The renamed copies of one original name are pairwise distinct. -/
theorem filterMap_findRen_nodup : ∀ {σs : List (List (String × String))},
    (targetsOf σs).Nodup → ∀ (e : String), (σs.filterMap (fun σ => findRen σ e)).Nodup := by
  intro σs
  induction σs with
  | nil => intro _ e; exact List.nodup_nil
  | cons σ0 rest ih =>
    intro hN e
    rw [targetsOf_cons, List.nodup_append] at hN
    cases hf : findRen σ0 e with
    | none =>
      have hcons : (σ0 :: rest).filterMap (fun σ => findRen σ e) =
          rest.filterMap (fun σ => findRen σ e) := by
        simp [List.filterMap_cons, hf]
      rw [hcons]
      exact ih hN.2.1 e
    | some v =>
      have hcons : (σ0 :: rest).filterMap (fun σ => findRen σ e) =
          v :: rest.filterMap (fun σ => findRen σ e) := by
        simp [List.filterMap_cons, hf]
      rw [hcons, List.nodup_cons]
      refine ⟨?_, ih hN.2.1 e⟩
      intro hc
      exact hN.2.2 (List.mem_map.mpr ⟨(e, v), findRen_some_pair hf, rfl⟩)
        (filterMap_findRen_mem hc)

/-- The renamed copies of two different original names are disjoint. -/
theorem filterMap_findRen_disj {σs : List (List (String × String))}
    (hN : (targetsOf σs).Nodup) {e e2 : String} (hne : e ≠ e2) :
    ∀ x ∈ σs.filterMap (fun σ => findRen σ e), x ∉ σs.filterMap (fun σ => findRen σ e2) := by
  intro x hx hx2
  rw [List.mem_filterMap] at hx hx2
  obtain ⟨σ, hσ, hfind⟩ := hx
  obtain ⟨σ2, hσ2, hfind2⟩ := hx2
  by_cases hss : σ = σ2
  · subst hss
    have heq : ((e, x) : String × String) = (e2, x) :=
      map_nodup_inj_on (snds_nodup_of_targets hN σ hσ) (e, x) (findRen_some_pair hfind)
        (e2, x) (findRen_some_pair hfind2) rfl
    rw [Prod.mk.injEq] at heq
    exact hne heq.1
  · exact targets_disjoint_of_ne hN hσ hσ2 hss x
      (List.mem_map.mpr ⟨(e, x), findRen_some_pair hfind, rfl⟩)
      (List.mem_map.mpr ⟨(e2, x), findRen_some_pair hfind2, rfl⟩)

/-- Each left member of a `Forall₂` has a related right member. -/
theorem forall2_exists_right {α β : Type} {R : α → β → Prop} :
    ∀ {as : List α} {bs : List β}, List.Forall₂ R as bs → ∀ a ∈ as, ∃ b ∈ bs, R a b := by
  intro as bs h
  induction h with
  | nil => intro a ha; cases ha
  | cons hR hrest ih =>
    intro a ha
    rcases List.mem_cons.mp ha with rfl | ha2
    · exact ⟨_, List.mem_cons_self _ _, hR⟩
    · obtain ⟨b, hb, hab⟩ := ih a ha2
      exact ⟨b, List.mem_cons_of_mem _ hb, hab⟩

/-- Counting in a flattened map is the sum of blockwise counts. -/
theorem count_flatten_map {f : String → List String} {x : String} :
    ∀ {l : List String}, ((l.map f).flatten).count x = (l.map (fun e => (f e).count x)).sum := by
  intro l
  induction l with
  | nil => rfl
  | cons e rest ih =>
    rw [List.map_cons, List.flatten_cons, List.count_append, ih, List.map_cons, List.sum_cons]

/-- Duplicate-free lists with the same members are permutations. -/
theorem perm_of_nodup_mem_iff {a b : List String} (ha : a.Nodup) (hb : b.Nodup)
    (h : ∀ x, x ∈ a ↔ x ∈ b) : a.Perm b := by
  rw [List.perm_iff_count]
  intro x
  by_cases hx : x ∈ a
  · rw [List.count_eq_one_of_mem ha hx, List.count_eq_one_of_mem hb ((h x).mp hx)]
  · rw [List.count_eq_zero_of_not_mem hx,
      List.count_eq_zero_of_not_mem (fun hc => hx ((h x).mpr hc))]

/-- Every rename value generated by `mkSigma` is its key, possibly
underscore-suffixed. -/
theorem mkSigma_snd_shape (coll : String → Bool) : ∀ (es used : List String),
    ∀ p ∈ (mkSigma coll used es).1, p.2 = p.1 ∨ ∃ k, p.2 = p.1 ++ underscores k := by
  intro es
  induction es with
  | nil => intro used p hp; cases hp
  | cons e rest ih =>
    intro used p hp
    by_cases hce : coll e = true
    · have hmk : mkSigma coll used (e :: rest) =
          ((e, freshName used e) :: (mkSigma coll (freshName used e :: used) rest).1,
            (mkSigma coll (freshName used e :: used) rest).2) := by
        simp [mkSigma, hce]
      rw [hmk] at hp
      rcases List.mem_cons.mp hp with rfl | hp2
      · exact Or.inr ⟨maxLen used + 1, rfl⟩
      · exact ih _ p hp2
    · have hmk : mkSigma coll used (e :: rest) =
          ((e, e) :: (mkSigma coll used rest).1, (mkSigma coll used rest).2) := by
        simp [mkSigma, hce]
      rw [hmk] at hp
      rcases List.mem_cons.mp hp with rfl | hp2
      · exact Or.inl rfl
      · exact ih _ p hp2

/-- Every rename value generated by `mdAux` is its key, possibly
underscore-suffixed. -/
theorem mdAux_snd_shape (coll : String → Bool) : ∀ (ts : List Tensor) (used : List String),
    ∀ σ ∈ (mdAux coll used ts).2, ∀ p ∈ σ, p.2 = p.1 ∨ ∃ k, p.2 = p.1 ++ underscores k := by
  intro ts
  induction ts with
  | nil => intro used σ hσ; cases hσ
  | cons t rest ih =>
    intro used σ hσ
    have hmd : mdAux coll used (t :: rest) =
        (renameF (applyRen (mkSigma coll used (freeEdges t)).1) t ::
            (mdAux coll (mkSigma coll used (freeEdges t)).2 rest).1,
          (mkSigma coll used (freeEdges t)).1 ::
            (mdAux coll (mkSigma coll used (freeEdges t)).2 rest).2) := by
      simp [mdAux]
    rw [hmd] at hσ
    rcases List.mem_cons.mp hσ with rfl | hσ2
    · exact mkSigma_snd_shape coll (freeEdges t) used
    · exact ih _ σ hσ2

/-- The renaming bookkeeping of `joinNet`, in terms of the named
projections: keys are the original free edges, the renamed occurrence
list is the target list, and targets are duplicate-free and fresh. -/
theorem jn_md_spec (tensors : List Tensor) (hts : ∀ t ∈ tensors, (freeEdges t).Nodup) :
    List.Forall₂ (fun t σ => σ.map Prod.fst = freeEdges t) tensors (jnSs tensors) ∧
    occsOf (jnDs tensors) = targetsOf (jnSs tensors) ∧
    (targetsOf (jnSs tensors)).Nodup ∧
    (∀ x ∈ targetsOf (jnSs tensors), x ∉ jnU0 tensors) := by
  have hcoll : ∀ t ∈ tensors, ∀ e ∈ freeEdges t, jnColl tensors e = true := by
    intro t ht e he
    show (((occsOf tensors).dedup).contains e || (sharedNames tensors).contains e) = true
    simp only [Bool.or_eq_true]
    left
    rw [List.elem_iff, List.mem_dedup, mem_occsOf]
    exact ⟨t, ht, he⟩
  have hnames0 : ∀ t ∈ tensors, ∀ a ∈ namesOf t, a ∈ jnU0 tensors := by
    intro t ht a ha
    exact List.mem_append.mpr (Or.inr (mem_namesOfL ht a ha))
  exact mdAux_spec (jnColl tensors) tensors (jnU0 tensors) hcoll hnames0 hts

/-- Summed over all original names, the per-name renamed copies count
every rename target once. -/
theorem jn_group_count (tensors : List Tensor)
    (hts : ∀ t ∈ tensors, (freeEdges t).Nodup) (x : String) :
    (((occsOf tensors).dedup).map (fun e => (jnTe tensors e).count x)).sum =
      (targetsOf (jnSs tensors)).count x := by
  obtain ⟨md1, _, _, _⟩ := jn_md_spec tensors hts
  have hstep1 : (((occsOf tensors).dedup).map (fun e => (jnTe tensors e).count x)).sum =
      (((occsOf tensors).dedup).map (fun e =>
        ((jnSs tensors).map (fun σ => if findRen σ e = some x then 1 else 0)).sum)).sum := by
    apply congrArg
    apply List.map_congr_left
    intro e _
    exact count_filterMap_findRen
  have hswap : (((occsOf tensors).dedup).map (fun e =>
      ((jnSs tensors).map (fun σ => if findRen σ e = some x then 1 else 0)).sum)).sum =
      ((jnSs tensors).map (fun σ => (((occsOf tensors).dedup).map
        (fun e => if findRen σ e = some x then 1 else 0)).sum)).sum :=
    list_sum_comm _ _ _
  rw [hstep1, hswap, count_targetsOf]
  apply congrArg
  apply List.map_congr_left
  intro σ hσ
  obtain ⟨t, ht, hkeys⟩ := forall2_exists_left md1 σ hσ
  apply lookup_sum σ _ x (List.nodup_dedup _) (by rw [hkeys]; exact hts t ht)
  intro k hk
  rw [hkeys] at hk
  rw [List.mem_dedup, mem_occsOf]
  exact ⟨t, ht, hk⟩

/-- Occurrence counting in the joined factor list: twice per rename
target, plus one for each kept output edge. -/
theorem jn_count (tensors : List Tensor) (outE : List String)
    (hts : ∀ t ∈ tensors, (freeEdges t).Nodup)
    (hsub : ∀ e ∈ outE, e ∈ occsOf tensors) (x : String) :
    (occsOf (jnDs tensors ++ jnJoins tensors outE ((occsOf tensors).dedup))).count x =
      2 * (targetsOf (jnSs tensors)).count x + (if x ∈ outE then 1 else 0) := by
  obtain ⟨md1, md2, md3, md4⟩ := jn_md_spec tensors hts
  rw [occsOf_append, List.count_append, md2]
  have hjoins : (occsOf (jnJoins tensors outE ((occsOf tensors).dedup))).count x =
      (targetsOf (jnSs tensors)).count x + (if x ∈ outE then 1 else 0) := by
    have h0 : (occsOf (jnJoins tensors outE ((occsOf tensors).dedup))).count x =
        (((occsOf tensors).dedup).map (fun e =>
          ((jnTe tensors e ++ (if e ∈ outE then [e] else [])).count x))).sum := by
      show (occsOf ((((occsOf tensors).dedup)).map (fun e =>
        Tensor.copy (jnTe tensors e ++ (if e ∈ outE then [e] else []))))).count x = _
      exact count_occsOf_map_copy
    rw [h0]
    have hsummand : (((occsOf tensors).dedup).map (fun e =>
        ((jnTe tensors e ++ (if e ∈ outE then [e] else [])).count x))) =
        (((occsOf tensors).dedup).map (fun e =>
          (jnTe tensors e).count x + ((if e ∈ outE then [e] else [] : List String)).count x)) := by
      apply List.map_congr_left
      intro e _
      rw [List.count_append]
    rw [hsummand, sum_map_add, jn_group_count tensors hts x]
    have hite : ((((occsOf tensors).dedup)).map (fun e =>
        ((if e ∈ outE then [e] else [] : List String)).count x)).sum =
        if x ∈ outE then 1 else 0 := by
      rw [ite_mem_sum _ (List.nodup_dedup _)]
      by_cases hx : x ∈ outE
      · have hmem : x ∈ (occsOf tensors).dedup := by
          rw [List.mem_dedup]; exact hsub x hx
        simp [hx, hmem]
      · simp [hx]
    rw [hite]
  rw [hjoins]
  omega

/-- `joinNet` spelt with the named projections. -/
theorem joinNet_eq (tensors : List Tensor) (outE : List String) :
    joinNet tensors outE =
      Tensor.prod (jnDs tensors ++ jnJoins tensors outE ((occsOf tensors).dedup)) := by
  unfold joinNet make_distinct jnDs jnJoins jnTe jnSs jnColl jnU0
  rw [foldr_namesOf]

/-- Transfer of the renamed factor list: when the outer assignment reads
every rename target at the value the inner assignment gives its original
name, the renamed copies multiply out to the original factors.  This is
the heart of the einsum evaluation contract: renaming apart does not
change any factor's value once the `Copy` joins equalise the indices. -/
theorem evalProd_ds_transfer (dims : String → Nat) (env : String → (String → Nat) → Rat)
    (appF : ElemFn → Rat → Rat) (coll : String → Bool)
    (hdims : ∀ (s : String) (k : Nat), dims (s ++ underscores k) = dims s) :
    ∀ (ts : List Tensor) (used : List String),
    (∀ t ∈ ts, ∀ e ∈ freeEdges t, coll e = true) →
    (∀ t ∈ ts, ∀ a ∈ namesOf t, a ∈ used) →
    (∀ t ∈ ts, (freeEdges t).Nodup) →
    (∀ t ∈ ts, wfE t = true) → (∀ t ∈ ts, EnvOk env t) →
    ∀ (κ2 μ2 : String → Nat),
    (∀ σ ∈ (mdAux coll used ts).2, ∀ e v, findRen σ e = some v → μ2 e = κ2 v) →
    evalProd dims env appF κ2 (mdAux coll used ts).1 = evalProd dims env appF μ2 ts := by
  intro ts
  induction ts with
  | nil => intro used _ _ _ _ _ κ2 μ2 _; rfl
  | cons t rest ih =>
    intro used hcoll hnames hnodup hwf henv κ2 μ2 hren
    set σ1 := (mkSigma coll used (freeEdges t)).1 with hσ1
    set u2 := (mkSigma coll used (freeEdges t)).2 with hu2
    obtain ⟨mk1, mk2, mk3, mk4, mk5⟩ :=
      mkSigma_spec coll (freeEdges t) used (hcoll t (List.mem_cons_self _ _))
    have hmd : mdAux coll used (t :: rest) =
        (renameF (applyRen σ1) t :: (mdAux coll u2 rest).1, σ1 :: (mdAux coll u2 rest).2) := by
      simp [mdAux]
    rw [hmd]
    show eval dims env appF κ2 (renameF (applyRen σ1) t) *
        evalProd dims env appF κ2 (mdAux coll u2 rest).1 =
      eval dims env appF μ2 t * evalProd dims env appF μ2 rest
    have hσmem : σ1 ∈ (mdAux coll used (t :: rest)).2 := by
      rw [hmd]
      exact List.mem_cons_self _ _
    have hkeysN : (σ1.map Prod.fst).Nodup := by
      rw [mk1]
      exact hnodup t (List.mem_cons_self _ _)
    have hhead : eval dims env appF κ2 (renameF (applyRen σ1) t) = eval dims env appF μ2 t := by
      have hinj : ∀ a ∈ namesOf t, ∀ b ∈ namesOf t,
          applyRen σ1 a = applyRen σ1 b → a = b :=
        applyRen_injOn hkeysN mk3
          (fun v hv hvS => mk2 v hv (hnames t (List.mem_cons_self _ _) v hvS))
      have hdimsOn : ∀ x ∈ namesOf t, dims (applyRen σ1 x) = dims x := by
        intro x hx
        by_cases hxk : x ∈ σ1.map Prod.fst
        · have hent := applyRen_entry hkeysN x hxk
          rcases mkSigma_snd_shape coll (freeEdges t) used (x, applyRen σ1 x) hent with
            hsame | ⟨k, hk⟩
          · simp only at hsame
            rw [hsame]
          · simp only at hk
            rw [hk, hdims]
        · rw [applyRen_not_mem hxk]
      have h1 : eval dims env appF κ2 (renameF (applyRen σ1) t) =
          eval dims env appF (fun x => κ2 (applyRen σ1 x)) t :=
        eval_renameF dims env appF (applyRen σ1) t (hwf t (List.mem_cons_self _ _))
          (henv t (List.mem_cons_self _ _)) hinj hdimsOn κ2
          (fun x => κ2 (applyRen σ1 x)) (fun x _ => rfl)
      rw [h1]
      apply eval_free_congr dims env appF t (hwf t (List.mem_cons_self _ _))
        (henv t (List.mem_cons_self _ _))
      intro x hx
      have hxk : x ∈ σ1.map Prod.fst := by
        rw [mk1]
        exact hx
      obtain ⟨v, hv⟩ := findRen_is_some hxk
      rw [findRen_applyRen hv]
      exact (hren σ1 hσmem x v hv).symm
    have htail := ih u2 (fun y hy => hcoll y (List.mem_cons_of_mem _ hy))
      (fun y hy a ha => mk4 a (hnames y (List.mem_cons_of_mem _ hy) a ha))
      (fun y hy => hnodup y (List.mem_cons_of_mem _ hy))
      (fun y hy => hwf y (List.mem_cons_of_mem _ hy))
      (fun y hy => henv y (List.mem_cons_of_mem _ hy))
      κ2 μ2 (fun σ hσ => hren σ (by rw [hmd]; exact List.mem_cons_of_mem _ hσ))
    rw [hhead, htail]

/-- Collapsing the `Copy` join blocks one original name at a time: summing
over all rename targets of the listed names against the join indicators
equals summing the receiving expression over just the contracted original
names, with kept output names pinned at the outer assignment. -/
theorem jn_collapse (tensors : List Tensor) (outE : List String)
    (dims : String → Nat) (env : String → (String → Nat) → Rat) (appF : ElemFn → Rat → Rat)
    (ι : String → Nat) (G G2 : (String → Nat) → Rat) (names : List String)
    (hTeNE : ∀ e ∈ names, jnTe tensors e ≠ [])
    (hTeND : ∀ e ∈ names, (jnTe tensors e).Nodup)
    (hTdisj : ∀ e ∈ names, ∀ e2 ∈ names, e ≠ e2 → ∀ x ∈ jnTe tensors e, x ∉ jnTe tensors e2)
    (hTout : ∀ e ∈ names, e ∉ targetsOf (jnSs tensors))
    (hTsub : ∀ e ∈ names, ∀ x ∈ jnTe tensors e, x ∈ targetsOf (jnSs tensors))
    (hTdims : ∀ e ∈ names, ∀ x ∈ jnTe tensors e, dims x = dims e)
    (hι : ∀ e ∈ outE, ι e < dims e) :
    ∀ ns : List String, ns.Nodup → (∀ e ∈ ns, e ∈ names) →
    ∀ κ μ : String → Nat,
    (∀ e ∈ ns, e ∈ outE → κ e = ι e ∧ μ e = ι e) →
    (∀ κ2 μ2 : String → Nat,
      (∀ e ∈ ns, ∃ v, (∀ x ∈ jnTe tensors e, κ2 x = v) ∧ μ2 e = v ∧ (e ∈ outE → v = ι e)) →
      (∀ x, (∀ e ∈ ns, x ∉ jnTe tensors e) → κ2 x = κ x) →
      (∀ y, y ∉ ns.filter (fun e => !(outE.contains e)) → μ2 y = μ y) →
      G κ2 = G2 μ2) →
    sumOver dims ((ns.map (fun e => jnTe tensors e)).flatten) κ
      (fun κ2 => evalProd dims env appF κ2 (jnJoins tensors outE ns) * G κ2) =
    sumOver dims (ns.filter (fun e => !(outE.contains e))) μ G2 := by
  intro ns
  induction ns with
  | nil =>
    intro _ _ κ μ _ hG
    show (1 : Rat) * G κ = G2 μ
    rw [one_mul]
    exact hG κ μ (fun e he => absurd he (List.not_mem_nil e)) (fun x _ => rfl) (fun y _ => rfl)
  | cons e rest ih =>
    intro hnd hsubN κ μ hsync hG
    rw [List.nodup_cons] at hnd
    have heN : e ∈ names := hsubN e (List.mem_cons_self _ _)
    have hflat : ((e :: rest).map (fun x => jnTe tensors x)).flatten =
        jnTe tensors e ++ ((rest.map (fun x => jnTe tensors x)).flatten) := by
      rw [List.map_cons, List.flatten_cons]
    rw [hflat, sumOver_append]
    have hbody : ∀ κ3 : String → Nat,
        sumOver dims ((rest.map (fun x => jnTe tensors x)).flatten) κ3
          (fun κ2 => evalProd dims env appF κ2 (jnJoins tensors outE (e :: rest)) * G κ2) =
        eval dims env appF κ3
            (Tensor.copy (jnTe tensors e ++ (if e ∈ outE then [e] else []))) *
          sumOver dims ((rest.map (fun x => jnTe tensors x)).flatten) κ3
            (fun κ2 => evalProd dims env appF κ2 (jnJoins tensors outE rest) * G κ2) := by
      intro κ3
      rw [← sumOver_mul_left]
      apply sumOver_congr_off
      intro κ2 hoff
      show evalProd dims env appF κ2 (jnJoins tensors outE (e :: rest)) * G κ2 = _
      have hsplit : evalProd dims env appF κ2 (jnJoins tensors outE (e :: rest)) =
          eval dims env appF κ2
              (Tensor.copy (jnTe tensors e ++ (if e ∈ outE then [e] else []))) *
            evalProd dims env appF κ2 (jnJoins tensors outE rest) := rfl
      rw [hsplit]
      have hcopy : eval dims env appF κ2
          (Tensor.copy (jnTe tensors e ++ (if e ∈ outE then [e] else []))) =
          eval dims env appF κ3
            (Tensor.copy (jnTe tensors e ++ (if e ∈ outE then [e] else []))) := by
        apply eval_copy_congr
        intro x hx
        apply hoff
        intro hmem
        rw [List.mem_flatten] at hmem
        obtain ⟨l, hl, hxl⟩ := hmem
        rw [List.mem_map] at hl
        obtain ⟨e2, he2, rfl⟩ := hl
        rcases List.mem_append.mp hx with hxe | hxo
        · have hne : e ≠ e2 := fun hc => hnd.1 (hc ▸ he2)
          exact hTdisj e heN e2 (hsubN e2 (List.mem_cons_of_mem _ he2)) hne x hxe hxl
        · by_cases hout : e ∈ outE
          · rw [if_pos hout] at hxo
            have hxe2 : x = e := by
              rcases List.mem_cons.mp hxo with rfl | hcc
              · rfl
              · cases hcc
            subst hxe2
            exact hTout x heN (hTsub e2 (hsubN e2 (List.mem_cons_of_mem _ he2)) x hxl)
          · rw [if_neg hout] at hxo
            cases hxo
      rw [hcopy, mul_assoc]
    have houter : sumOver dims (jnTe tensors e) κ (fun κ3 =>
        sumOver dims ((rest.map (fun x => jnTe tensors x)).flatten) κ3
          (fun κ2 => evalProd dims env appF κ2 (jnJoins tensors outE (e :: rest)) * G κ2)) =
        sumOver dims (jnTe tensors e) κ (fun κ3 =>
          eval dims env appF κ3
              (Tensor.copy (jnTe tensors e ++ (if e ∈ outE then [e] else []))) *
            sumOver dims ((rest.map (fun x => jnTe tensors x)).flatten) κ3
              (fun κ2 => evalProd dims env appF κ2 (jnJoins tensors outE rest) * G κ2)) :=
      sumOver_congr_off dims _ _ _ _ (fun κ3 _ => hbody κ3)
    rw [houter]
    cases hTe : jnTe tensors e with
    | nil => exact absurd hTe (hTeNE e heN)
    | cons h0 tR =>
    have hndB : (h0 :: tR).Nodup := hTe ▸ hTeND e heN
    have hsubB : ∀ x ∈ h0 :: tR, x ∈ targetsOf (jnSs tensors) := by
      intro x hx
      exact hTsub e heN x (hTe ▸ hx)
    have hdimsB : ∀ x ∈ h0 :: tR, dims x = dims e := by
      intro x hx
      exact hTdims e heN x (hTe ▸ hx)
    have heB : e ∉ h0 :: tR := fun hc => hTout e heN (hsubB e hc)
    have hoffblock : ∀ e2 ∈ rest, e2 ∉ (h0 :: tR) := by
      intro e2 he2 hc
      exact hTout e2 (hsubN e2 (List.mem_cons_of_mem _ he2)) (hsubB e2 hc)
    by_cases hout : e ∈ outE
    · -- kept output name: the block collapses onto the outer index of e
      have hbound : κ e < dims e := by
        rw [(hsync e (List.mem_cons_self _ _) hout).1]
        exact hι e hout
      have hcoll : sumOver dims (h0 :: tR) κ (fun κ3 =>
          (if (tR ++ [e]).all (fun x => κ3 x == κ3 h0) then (1 : Rat) else 0) *
            sumOver dims ((rest.map (fun x => jnTe tensors x)).flatten) κ3
              (fun κ2 => evalProd dims env appF κ2 (jnJoins tensors outE rest) * G κ2)) =
          sumOver dims ((rest.map (fun x => jnTe tensors x)).flatten) (updAll κ (h0 :: tR) (κ e))
            (fun κ2 => evalProd dims env appF κ2 (jnJoins tensors outE rest) * G κ2) :=
        copy_block_collapse_out dims h0 tR e κ
          (fun κ3 => sumOver dims ((rest.map (fun x => jnTe tensors x)).flatten) κ3
            (fun κ2 => evalProd dims env appF κ2 (jnJoins tensors outE rest) * G κ2))
          hndB heB hdimsB hbound
      have hfe : (e :: rest).filter (fun x => !(outE.contains x)) =
          rest.filter (fun x => !(outE.contains x)) := by
        rw [List.filter_cons_of_neg]
        simp [hout]
      rw [hfe]
      have hshape : sumOver dims (h0 :: tR) κ (fun κ3 =>
          eval dims env appF κ3
              (Tensor.copy (h0 :: tR ++ (if e ∈ outE then [e] else []))) *
            sumOver dims ((rest.map (fun x => jnTe tensors x)).flatten) κ3
              (fun κ2 => evalProd dims env appF κ2 (jnJoins tensors outE rest) * G κ2)) =
          sumOver dims (h0 :: tR) κ (fun κ3 =>
            (if (tR ++ [e]).all (fun x => κ3 x == κ3 h0) then (1 : Rat) else 0) *
              sumOver dims ((rest.map (fun x => jnTe tensors x)).flatten) κ3
                (fun κ2 => evalProd dims env appF κ2 (jnJoins tensors outE rest) * G κ2)) := by
        rw [if_pos hout]
        rfl
      rw [hshape, hcoll]
      apply ih hnd.2 (fun x hx => hsubN x (List.mem_cons_of_mem _ hx))
      · intro e2 he2 he2out
        constructor
        · rw [updAll_apply_of_not_mem _ _ _ _ (hoffblock e2 he2)]
          exact (hsync e2 (List.mem_cons_of_mem _ he2) he2out).1
        · exact (hsync e2 (List.mem_cons_of_mem _ he2) he2out).2
      · intro κ2 μ2 hS hK hM
        apply hG κ2 μ2
        · intro e2 he2
          rcases List.mem_cons.mp he2 with rfl | he2r
          · refine ⟨ι e2, ?_, ?_, fun _ => rfl⟩
            · intro x hx
              have hxoff : ∀ e3 ∈ rest, x ∉ jnTe tensors e3 := by
                intro e3 he3
                have hne : e2 ≠ e3 := fun hc => hnd.1 (hc ▸ he3)
                exact hTdisj e2 heN e3 (hsubN e3 (List.mem_cons_of_mem _ he3)) hne x hx
              rw [hK x hxoff, updAll_apply_of_mem _ _ _ _ (hTe ▸ hx)]
              exact (hsync e2 (List.mem_cons_self _ _) hout).1
            · have he_nf : e2 ∉ rest.filter (fun x => !(outE.contains x)) :=
                fun hc => hnd.1 (List.mem_of_mem_filter hc)
              rw [hM e2 he_nf]
              exact (hsync e2 (List.mem_cons_self _ _) hout).2
          · exact hS e2 he2r
        · intro x hxall
          rw [hK x (fun e3 he3 => hxall e3 (List.mem_cons_of_mem _ he3))]
          have hxe : x ∉ h0 :: tR := hTe ▸ hxall e (List.mem_cons_self _ _)
          exact updAll_apply_of_not_mem _ _ _ _ hxe
        · intro y hy
          apply hM y
          rw [← hfe]
          exact hy
    · -- contracted name: the block becomes one fresh sum over e's range
      have hcoll : sumOver dims (h0 :: tR) κ (fun κ3 =>
          (if tR.all (fun x => κ3 x == κ3 h0) then (1 : Rat) else 0) *
            sumOver dims ((rest.map (fun x => jnTe tensors x)).flatten) κ3
              (fun κ2 => evalProd dims env appF κ2 (jnJoins tensors outE rest) * G κ2)) =
          (Finset.range (dims e)).sum (fun v =>
            sumOver dims ((rest.map (fun x => jnTe tensors x)).flatten)
              (updAll κ (h0 :: tR) v)
              (fun κ2 => evalProd dims env appF κ2 (jnJoins tensors outE rest) * G κ2)) :=
        copy_block_collapse_sum dims h0 tR κ
          (fun κ3 => sumOver dims ((rest.map (fun x => jnTe tensors x)).flatten) κ3
            (fun κ2 => evalProd dims env appF κ2 (jnJoins tensors outE rest) * G κ2))
          (dims e) hndB hdimsB
      have hfe : (e :: rest).filter (fun x => !(outE.contains x)) =
          e :: rest.filter (fun x => !(outE.contains x)) := by
        rw [List.filter_cons_of_pos]
        simp [hout]
      have hshape : sumOver dims (h0 :: tR) κ (fun κ3 =>
          eval dims env appF κ3
              (Tensor.copy (h0 :: tR ++ (if e ∈ outE then [e] else []))) *
            sumOver dims ((rest.map (fun x => jnTe tensors x)).flatten) κ3
              (fun κ2 => evalProd dims env appF κ2 (jnJoins tensors outE rest) * G κ2)) =
          sumOver dims (h0 :: tR) κ (fun κ3 =>
            (if tR.all (fun x => κ3 x == κ3 h0) then (1 : Rat) else 0) *
              sumOver dims ((rest.map (fun x => jnTe tensors x)).flatten) κ3
                (fun κ2 => evalProd dims env appF κ2 (jnJoins tensors outE rest) * G κ2)) := by
        rw [if_neg hout, List.append_nil]
        rfl
      rw [hshape, hcoll, hfe, sumOver_cons]
      refine Finset.sum_congr rfl (fun v _ => ?_)
      apply ih hnd.2 (fun x hx => hsubN x (List.mem_cons_of_mem _ hx))
      · intro e2 he2 he2out
        have hne2 : e2 ≠ e := fun hc => hnd.1 (hc ▸ he2)
        constructor
        · rw [updAll_apply_of_not_mem _ _ _ _ (hoffblock e2 he2)]
          exact (hsync e2 (List.mem_cons_of_mem _ he2) he2out).1
        · show updF μ e v e2 = ι e2
          have hupd : updF μ e v e2 = μ e2 := by
            simp [updF, hne2]
          rw [hupd]
          exact (hsync e2 (List.mem_cons_of_mem _ he2) he2out).2
      · intro κ2 μ2 hS hK hM
        apply hG κ2 μ2
        · intro e2 he2
          rcases List.mem_cons.mp he2 with rfl | he2r
          · refine ⟨v, ?_, ?_, fun hc => absurd hc hout⟩
            · intro x hx
              have hxoff : ∀ e3 ∈ rest, x ∉ jnTe tensors e3 := by
                intro e3 he3
                have hne : e2 ≠ e3 := fun hc => hnd.1 (hc ▸ he3)
                exact hTdisj e2 heN e3 (hsubN e3 (List.mem_cons_of_mem _ he3)) hne x hx
              rw [hK x hxoff, updAll_apply_of_mem _ _ _ _ (hTe ▸ hx)]
            · have he_nf : e2 ∉ rest.filter (fun x => !(outE.contains x)) :=
                fun hc => hnd.1 (List.mem_of_mem_filter hc)
              rw [hM e2 he_nf]
              simp [updF]
          · exact hS e2 he2r
        · intro x hxall
          rw [hK x (fun e3 he3 => hxall e3 (List.mem_cons_of_mem _ he3))]
          have hxe : x ∉ h0 :: tR := hTe ▸ hxall e (List.mem_cons_self _ _)
          exact updAll_apply_of_not_mem _ _ _ _ hxe
        · intro y hy
          rw [hfe] at hy
          have hyne : y ≠ e := fun hc => hy (hc ▸ List.mem_cons_self _ _)
          have hyr : y ∉ rest.filter (fun x => !(outE.contains x)) :=
            fun hc => hy (List.mem_cons_of_mem _ hc)
          rw [hM y hyr]
          simp [updF, hyne]

/-- The evaluation contract of the join construction: under the
evaluation-grade invariants, a respectful environment,
underscore-invariant dimensions and in-range outer indices, the join of
the inputs evaluates to the Einstein summation of the original factors
over the non-output original names. -/
theorem joinNet_eval (tensors : List Tensor) (outE : List String)
    (dims : String → Nat) (env : String → (String → Nat) → Rat) (appF : ElemFn → Rat → Rat)
    (ι : String → Nat)
    (hts : ∀ t ∈ tensors, (freeEdges t).Nodup)
    (hsub : ∀ e ∈ outE, e ∈ occsOf tensors)
    (hwf : ∀ t ∈ tensors, wfE t = true)
    (henv : ∀ t ∈ tensors, EnvOk env t)
    (hdims : ∀ (s : String) (k : Nat), dims (s ++ underscores k) = dims s)
    (hι : ∀ e ∈ outE, ι e < dims e) :
    eval dims env appF ι (joinNet tensors outE) =
      sumOver dims (((occsOf tensors).dedup).filter (fun e => !(outE.contains e))) ι
        (fun κ => evalProd dims env appF κ tensors) := by
  obtain ⟨md1, md2, md3, md4⟩ := jn_md_spec tensors hts
  have hcoll2 : ∀ t ∈ tensors, ∀ e ∈ freeEdges t, jnColl tensors e = true := by
    intro t ht e he
    show (((occsOf tensors).dedup).contains e || (sharedNames tensors).contains e) = true
    simp only [Bool.or_eq_true]
    left
    rw [List.elem_iff, List.mem_dedup, mem_occsOf]
    exact ⟨t, ht, he⟩
  have hnames02 : ∀ t ∈ tensors, ∀ a ∈ namesOf t, a ∈ jnU0 tensors := by
    intro t ht a ha
    exact List.mem_append.mpr (Or.inr (mem_namesOfL ht a ha))
  have hTout : ∀ e ∈ (occsOf tensors).dedup, e ∉ targetsOf (jnSs tensors) :=
    fun e he hc => md4 e hc (List.mem_append.mpr (Or.inl he))
  have hTsub : ∀ (e : String), ∀ x ∈ jnTe tensors e, x ∈ targetsOf (jnSs tensors) :=
    fun e x hx => filterMap_findRen_mem hx
  have hTeND : ∀ e : String, (jnTe tensors e).Nodup :=
    fun e => filterMap_findRen_nodup md3 e
  have hTdisj : ∀ e e2 : String, e ≠ e2 → ∀ x ∈ jnTe tensors e, x ∉ jnTe tensors e2 :=
    fun e e2 hne => filterMap_findRen_disj md3 hne
  have hTeNE : ∀ e ∈ (occsOf tensors).dedup, jnTe tensors e ≠ [] := by
    intro e he
    rw [List.mem_dedup, mem_occsOf] at he
    obtain ⟨t, ht, het⟩ := he
    obtain ⟨σ, hσ, hkeys⟩ := forall2_exists_right md1 t ht
    have hek : e ∈ σ.map Prod.fst := by
      rw [hkeys]
      exact het
    obtain ⟨v, hv⟩ := findRen_is_some hek
    exact List.ne_nil_of_mem (List.mem_filterMap.mpr ⟨σ, hσ, hv⟩)
  have hTdims : ∀ (e : String), ∀ x ∈ jnTe tensors e, dims x = dims e := by
    intro e x hx
    have hx2 : x ∈ (jnSs tensors).filterMap (fun σ => findRen σ e) := hx
    rw [List.mem_filterMap] at hx2
    obtain ⟨σ, hσ, hfind⟩ := hx2
    rcases mdAux_snd_shape (jnColl tensors) tensors (jnU0 tensors) σ hσ (e, x)
        (findRen_some_pair hfind) with h1 | ⟨k, hk⟩
    · simp only at h1
      rw [h1]
    · simp only at hk
      rw [hk, hdims]
  have hinner_mem : ∀ x, x ∈ innerEdges
      (jnDs tensors ++ jnJoins tensors outE ((occsOf tensors).dedup)) ↔
      x ∈ targetsOf (jnSs tensors) := by
    intro x
    rw [mem_innerEdges_iff, jn_count tensors outE hts hsub x]
    constructor
    · intro h
      by_cases hxt : x ∈ targetsOf (jnSs tensors)
      · exact hxt
      · exfalso
        rw [List.count_eq_zero_of_not_mem hxt] at h
        by_cases hxo : x ∈ outE
        · rw [if_pos hxo] at h
          omega
        · rw [if_neg hxo] at h
          omega
    · intro hxt
      rw [List.count_eq_one_of_mem md3 hxt]
      have hxo : x ∉ outE := by
        intro hc
        exact md4 x hxt (List.mem_append.mpr (Or.inl (by
          rw [List.mem_dedup]
          exact hsub x hc)))
      rw [if_neg hxo]
  have hinnerN : (innerEdges
      (jnDs tensors ++ jnJoins tensors outE ((occsOf tensors).dedup))).Nodup := by
    rw [innerEdges_def]
    exact List.Nodup.filter _ (List.nodup_dedup _)
  have hPerm1 : (innerEdges
      (jnDs tensors ++ jnJoins tensors outE ((occsOf tensors).dedup))).Perm
      (targetsOf (jnSs tensors)) :=
    perm_of_nodup_mem_iff hinnerN md3 hinner_mem
  have hPerm2 : (targetsOf (jnSs tensors)).Perm
      ((((occsOf tensors).dedup).map (fun e => jnTe tensors e)).flatten) := by
    rw [List.perm_iff_count]
    intro x
    rw [count_flatten_map, jn_group_count tensors hts x]
  rw [joinNet_eq]
  have h1 : eval dims env appF ι
      (Tensor.prod (jnDs tensors ++ jnJoins tensors outE ((occsOf tensors).dedup))) =
      sumOver dims ((((occsOf tensors).dedup).map (fun e => jnTe tensors e)).flatten) ι
        (fun κ => evalProd dims env appF κ
          (jnDs tensors ++ jnJoins tensors outE ((occsOf tensors).dedup))) :=
    sumOver_perm dims (hPerm1.trans hPerm2) ι _
  rw [h1]
  have hstep : sumOver dims ((((occsOf tensors).dedup).map (fun e => jnTe tensors e)).flatten) ι
      (fun κ => evalProd dims env appF κ
        (jnDs tensors ++ jnJoins tensors outE ((occsOf tensors).dedup))) =
      sumOver dims ((((occsOf tensors).dedup).map (fun e => jnTe tensors e)).flatten) ι
        (fun κ2 => evalProd dims env appF κ2 (jnJoins tensors outE ((occsOf tensors).dedup)) *
          evalProd dims env appF κ2 (jnDs tensors)) :=
    sumOver_congr_off dims _ _ _ _ (fun κ2 _ => by rw [evalProd_append, mul_comm])
  rw [hstep]
  exact jn_collapse tensors outE dims env appF ι
    (fun κ3 => evalProd dims env appF κ3 (jnDs tensors))
    (fun μ2 => evalProd dims env appF μ2 tensors)
    ((occsOf tensors).dedup)
    hTeNE (fun e _ => hTeND e) (fun e _ e2 _ hne => hTdisj e e2 hne) hTout
    (fun e _ => hTsub e) (fun e _ => hTdims e) hι
    ((occsOf tensors).dedup) (List.nodup_dedup _) (fun e he => he) ι ι
    (fun e _ _ => ⟨rfl, rfl⟩)
    (by
      intro κ2 μ2 hS hK hM
      refine evalProd_ds_transfer dims env appF (jnColl tensors) hdims tensors
        (jnU0 tensors) hcoll2 hnames02 hts hwf henv κ2 μ2 ?_
      intro σ hσ e v hfind
      obtain ⟨t, ht, hkeys⟩ := forall2_exists_left md1 σ hσ
      have heO : e ∈ (occsOf tensors).dedup := by
        rw [List.mem_dedup, mem_occsOf]
        refine ⟨t, ht, ?_⟩
        rw [← hkeys]
        exact List.mem_map.mpr ⟨(e, v), findRen_some_pair hfind, rfl⟩
      obtain ⟨w, hw1, hw2, _⟩ := hS e heO
      rw [hw2, ← hw1 v (List.mem_filterMap.mpr ⟨σ, hσ, hfind⟩)])

/-- C4 (amended): for every list of well-formed tensors (duplicate-free
free edges) and duplicate-free `output_edges` each of which occurs among
the inputs' free edges, `einsum` succeeds and returns a node whose free
edges are exactly `output_edges`, regardless of the edge names used
internally: renaming makes the inputs edge-disjoint before the `Copy`
joins reconnect them, so no accidental contraction arises.  Moreover the
result evaluates to the named-dimension Einstein summation of the
inputs: the product of the original factors summed over every original
free-edge name not kept as an output edge, for every binding, dimension
assignment and index assignment (the hypotheses ask for the
evaluation-grade invariants, a respectful environment, dimensions that
ignore the underscore suffixes of internally generated names, and
in-range outer indices). -/
theorem C4_einsum_spec :
    (∀ (tensors : List Tensor) (outE : List String),
        outE.Nodup → (∀ t ∈ tensors, (freeEdges t).Nodup) →
        (∀ e ∈ outE, e ∈ occsOf tensors) →
        ∃ n, functions.einsum tensors outE = Except.ok n ∧ (freeEdges n).Nodup ∧
          (∀ x, x ∈ freeEdges n ↔ x ∈ outE)) ∧
    (∀ (tensors : List Tensor) (outE : List String)
        (dims : String → Nat) (env : String → (String → Nat) → Rat)
        (appF : ElemFn → Rat → Rat) (ι : String → Nat),
        outE.Nodup → (∀ t ∈ tensors, (freeEdges t).Nodup) →
        (∀ e ∈ outE, e ∈ occsOf tensors) →
        (∀ t ∈ tensors, wfE t = true) →
        (∀ t ∈ tensors, EnvOk env t) →
        (∀ (s : String) (k : Nat), dims (s ++ underscores k) = dims s) →
        (∀ e ∈ outE, ι e < dims e) →
        (functions.einsum tensors outE).map (eval dims env appF ι) =
          Except.ok (sumOver dims
            (((occsOf tensors).dedup).filter (fun e => !(outE.contains e))) ι
            (fun κ => evalProd dims env appF κ tensors))) := by
  constructor
  · intro tensors outE hout hts hsub
    refine ⟨joinNet tensors outE, ?_, (joinNet_free tensors outE hts hsub).2,
      (joinNet_free tensors outE hts hsub).1⟩
    unfold functions.einsum
    rw [if_pos hout]
  · intro tensors outE dims env appF ι hout hts hsub hwf henv hdims hι
    have hok : functions.einsum tensors outE = Except.ok (joinNet tensors outE) := by
      unfold functions.einsum
      rw [if_pos hout]
    rw [hok]
    show Except.ok (eval dims env appF ι (joinNet tensors outE)) = _
    exact congrArg Except.ok (joinNet_eval tensors outE dims env appF ι hts hsub hwf henv
      hdims hι)

/-- C4 as stated fails when an output edge occurs in no input: for
`a = Variable("a", ["i", "j"])`, `einsum([a], ["z"])` succeeds but exposes
no free edge (both internal edges are summed away and no `Copy` mentions
`z`), instead of the claimed `["z"]`. -/
theorem C4_einsum_counterexample :
    (functions.einsum [einA] ["z"]).map freeEdges = Except.ok [] ∧
      ([] : List String) ≠ ["z"] :=
  ⟨rfl, by decide⟩

/-- Witness for C4: the free-edge part at the `test_einsum` inputs, and
the general evaluation part at the same inputs with dimension 2
everywhere, the all-ones binding and the zero index assignment. -/
theorem C4_einsum_spec_witness :
    (∃ n, functions.einsum [einA, einB] ["i", "k"] = Except.ok n ∧ (freeEdges n).Nodup ∧
      (∀ x, x ∈ freeEdges n ↔ x ∈ (["i", "k"] : List String))) ∧
    (functions.einsum [einA, einB] ["i", "k"]).map
        (eval (fun _ => 2) (fun _ _ => 1) (fun _ v => v) (fun _ => 0)) =
      Except.ok (sumOver (fun _ => 2)
        (((occsOf [einA, einB]).dedup).filter
          (fun e => !((["i", "k"] : List String).contains e))) (fun _ => 0)
        (fun κ => evalProd (fun _ => 2) (fun _ _ => 1) (fun _ v => v) κ [einA, einB])) :=
  ⟨C4_einsum_spec.1 [einA, einB] ["i", "k"] (by decide)
      (by intro t ht; rcases List.mem_cons.mp ht with rfl | ht2
          · decide
          · rcases List.mem_cons.mp ht2 with rfl | ht3
            · decide
            · cases ht3)
      (by intro e he; rcases List.mem_cons.mp he with rfl | he2
          · decide
          · rcases List.mem_cons.mp he2 with rfl | he3
            · decide
            · cases he3),
    C4_einsum_spec.2 [einA, einB] ["i", "k"] (fun _ => 2) (fun _ _ => 1) (fun _ v => v)
      (fun _ => 0) (by decide)
      (by intro t ht; rcases List.mem_cons.mp ht with rfl | ht2
          · decide
          · rcases List.mem_cons.mp ht2 with rfl | ht3
            · decide
            · cases ht3)
      (by intro e he; rcases List.mem_cons.mp he with rfl | he2
          · decide
          · rcases List.mem_cons.mp he2 with rfl | he3
            · decide
            · cases he3)
      (by intro t ht; rcases List.mem_cons.mp ht with rfl | ht2
          · decide
          · rcases List.mem_cons.mp ht2 with rfl | ht3
            · decide
            · cases ht3)
      (by intro t ht; rcases List.mem_cons.mp ht with rfl | ht2
          · exact fun g g2 _ => rfl
          · rcases List.mem_cons.mp ht2 with rfl | ht3
            · exact fun g g2 _ => rfl
            · cases ht3)
      (fun s k => rfl)
      (by intro e he; show (0 : Nat) < 2; decide)⟩


/-- The contracted edges of the `Copy`–vector contraction built by
`diag`: exactly the vector's renamed edge. -/
theorem diag_prod_inner {ne : List String} {e2 : String} {t2 : Tensor}
    (hne : ne.Nodup) (he2 : e2 ∉ ne) (ht2 : freeEdges t2 = [e2]) :
    innerEdges [Tensor.copy (ne ++ [e2]), t2] = [e2] := by
  have hocc : occsOf [Tensor.copy (ne ++ [e2]), t2] = ne ++ [e2, e2] := by
    simp [occsOf, freeEdges, ht2]
  rw [innerEdges_def, hocc]
  have hd : (ne ++ [e2, e2]).dedup = ne ++ [e2] := by
    have hassoc : ne ++ [e2, e2] = (ne ++ [e2]) ++ [e2] := by simp
    rw [hassoc, dedup_append_tail _ _ (List.nodup_singleton e2)]
    have hfil : (ne ++ [e2]).filter (fun x => !(([e2] : List String).contains x)) = ne := by
      rw [List.filter_append]
      have h1 : ne.filter (fun x => !(([e2] : List String).contains x)) = ne := by
        apply List.filter_eq_self.mpr
        intro x hx
        have hx2 : x ≠ e2 := fun hc => he2 (hc ▸ hx)
        simp [hx2]
      have h2 : ([e2] : List String).filter
          (fun x => !(([e2] : List String).contains x)) = [] := by
        simp
      rw [h1, h2, List.append_nil]
    rw [hfil, List.Nodup.dedup hne]
  rw [hd, List.filter_append]
  have hcount2 : (ne ++ [e2, e2]).count e2 = 2 := by
    have h0 : ne.count e2 = 0 := List.count_eq_zero.mpr he2
    simp [List.count_append, h0]
  have hfne : ne.filter (fun x => (ne ++ [e2, e2]).count x = 2) = [] := by
    apply List.filter_eq_nil_iff.mpr
    intro x hx
    have hx2 : x ≠ e2 := fun hc => he2 (hc ▸ hx)
    have h1 : ne.count x = 1 := List.count_eq_one_of_mem hne hx
    have hcx : (ne ++ [e2, e2]).count x = 1 := by
      simp [List.count_append, h1, hx2]
    simp [hcx]
  have hfe2 : ([e2] : List String).filter
      (fun x => (ne ++ [e2, e2]).count x = 2) = [e2] := by
    have h0 : ne.count e2 = 0 := List.count_eq_zero.mpr he2
    simp [hcount2, h0]
  rw [hfne, hfe2, List.nil_append]

/-- C9 (amended): `diag` fails with `ValueError` exactly when its
argument does not have exactly one free edge; for a single-edge vector
and duplicate-free `new_edges` the result's free edges are exactly
`new_edges` (the vector's edge is renamed away from `new_edges` when it
collides, then contracted with the `Copy` node); and for every
single-edge vector, every nonempty duplicate-free `new_edges` and every
binding, the result evaluates to the diagonal tensor carrying the
vector's values: the vector's value at the shared index when all
`new_edges` indices agree and `0` otherwise (the hypotheses ask the
evaluation-grade invariants, a respectful environment, dimensions
ignoring the underscore suffixes of internally generated names, and an
in-range index). -/
theorem C9_diag_spec :
    (∀ (t : Tensor) (ne : List String),
        functions.diag t ne = Except.error TgError.valueError ↔
          (freeEdges t).length ≠ 1) ∧
    (∀ (t : Tensor) (ne : List String) (e : String),
        freeEdges t = [e] → ne.Nodup →
        (functions.diag t ne).map freeEdges = Except.ok ne) ∧
    (∀ (t : Tensor) (e h0 : String) (rest : List String)
        (dims : String → Nat) (env : String → (String → Nat) → Rat)
        (appF : ElemFn → Rat → Rat) (ι : String → Nat),
        freeEdges t = [e] → (h0 :: rest).Nodup →
        wfE t = true → EnvOk env t →
        (∀ (s : String) (k : Nat), dims (s ++ underscores k) = dims s) →
        ι h0 < dims e →
        (functions.diag t (h0 :: rest)).map (eval dims env appF ι) =
          Except.ok (if rest.all (fun x => ι x == ι h0) then
            eval dims env appF (updF ι e (ι h0)) t else 0)) := by
  refine ⟨?_, ?_, ?_⟩
  · intro t ne
    by_cases h : (freeEdges t).length = 1
    · have hL : functions.diag t ne ≠ Except.error TgError.valueError := by
        by_cases hnd : (ne ++ freeEdges ((make_distinct [t] ne).1.headD t)).Nodup
        · rw [diag_ok_eq t ne h hnd]
          simp
        · rw [diag_dup_eq t ne h hnd]
          simp
      constructor
      · intro hc
        exact absurd hc hL
      · intro hc
        exact absurd h hc
    · unfold functions.diag
      rw [if_pos h]
      simp [h]
  · intro t ne e hfe hne
    have hlen : (freeEdges t).length = 1 := by rw [hfe]; rfl
    obtain ⟨e2, _, ht2, he2, _, _⟩ := diag_renamed_edge ne hfe
    have hnd : (ne ++ freeEdges ((make_distinct [t] ne).1.headD t)).Nodup := by
      rw [ht2, List.nodup_append]
      refine ⟨hne, List.nodup_singleton e2, ?_⟩
      intro x hx hy
      rw [List.mem_singleton] at hy
      exact he2 (hy ▸ hx)
    rw [diag_ok_eq t ne hlen hnd]
    show Except.ok (freeEdges (Tensor.prod
      [Tensor.copy (ne ++ freeEdges ((make_distinct [t] ne).1.headD t)),
        (make_distinct [t] ne).1.headD t])) = Except.ok ne
    refine congrArg Except.ok ?_
    rw [ht2]
    exact diag_prod_free hne he2 ht2
  · intro t e h0 rest dims env appF ι hfe hnnd hwf henv hdims hbound
    obtain ⟨e2, hteq, ht2, he2, hshape, hinj⟩ := diag_renamed_edge (h0 :: rest) hfe
    have hlen : (freeEdges t).length = 1 := by rw [hfe]; rfl
    have hnd : ((h0 :: rest) ++
        freeEdges ((make_distinct [t] (h0 :: rest)).1.headD t)).Nodup := by
      rw [ht2, List.nodup_append]
      refine ⟨hnnd, List.nodup_singleton e2, ?_⟩
      intro x hx hy
      rw [List.mem_singleton] at hy
      exact he2 (hy ▸ hx)
    rw [diag_ok_eq t (h0 :: rest) hlen hnd]
    show Except.ok (eval dims env appF ι (Tensor.prod
      [Tensor.copy ((h0 :: rest) ++ freeEdges ((make_distinct [t] (h0 :: rest)).1.headD t)),
        (make_distinct [t] (h0 :: rest)).1.headD t])) = _
    refine congrArg Except.ok ?_
    rw [ht2, hteq]
    have hh0e2 : h0 ≠ e2 := fun hc => he2 (hc ▸ List.mem_cons_self _ _)
    have hde2 : dims e2 = dims e := by
      rcases hshape with rfl | ⟨k, rfl⟩
      · rfl
      · exact hdims e k
    have hbound2 : ι h0 < dims e2 := by
      rw [hde2]
      exact hbound
    have hfree2 : freeEdges (renameF (applyRen [(e, e2)]) t) = [e2] := by
      rw [← hteq]
      exact ht2
    have hinner : innerEdges [Tensor.copy ((h0 :: rest) ++ [e2]),
        renameF (applyRen [(e, e2)]) t] = [e2] :=
      diag_prod_inner hnnd he2 hfree2
    have h1 : eval dims env appF ι (Tensor.prod [Tensor.copy ((h0 :: rest) ++ [e2]),
        renameF (applyRen [(e, e2)]) t]) =
        sumOver dims (innerEdges [Tensor.copy ((h0 :: rest) ++ [e2]),
          renameF (applyRen [(e, e2)]) t]) ι
          (fun κ => evalProd dims env appF κ [Tensor.copy ((h0 :: rest) ++ [e2]),
            renameF (applyRen [(e, e2)]) t]) := rfl
    rw [h1, hinner]
    have h3 : sumOver dims [e2] ι
        (fun κ => evalProd dims env appF κ [Tensor.copy ((h0 :: rest) ++ [e2]),
          renameF (applyRen [(e, e2)]) t]) =
        (Finset.range (dims e2)).sum (fun v => evalProd dims env appF (updF ι e2 v)
          [Tensor.copy ((h0 :: rest) ++ [e2]), renameF (applyRen [(e, e2)]) t]) := rfl
    rw [h3]
    have h2 : ∀ v, evalProd dims env appF (updF ι e2 v)
        [Tensor.copy ((h0 :: rest) ++ [e2]), renameF (applyRen [(e, e2)]) t] =
        (if v = ι h0 then (1 : Rat) else 0) *
          ((if rest.all (fun x => ι x == ι h0) then (1 : Rat) else 0) *
            eval dims env appF (updF ι e2 v) (renameF (applyRen [(e, e2)]) t)) := by
      intro v
      have hkh0 : updF ι e2 v h0 = ι h0 := by
        simp [updF, hh0e2]
      have hke2 : updF ι e2 v e2 = v := by
        simp [updF]
      have hrest : rest.all (fun x => updF ι e2 v x == updF ι e2 v h0) =
          rest.all (fun x => ι x == ι h0) := by
        apply all_congr_mem
        intro x hx
        have hxe2 : x ≠ e2 := fun hc => he2 (hc ▸ List.mem_cons_of_mem _ hx)
        rw [hkh0]
        simp [updF, hxe2]
      have hcopy : eval dims env appF (updF ι e2 v)
          (Tensor.copy ((h0 :: rest) ++ [e2])) =
          (if v = ι h0 then (1 : Rat) else 0) *
            (if rest.all (fun x => ι x == ι h0) then (1 : Rat) else 0) := by
        show (if (rest ++ [e2]).all (fun x => updF ι e2 v x == updF ι e2 v h0)
          then (1 : Rat) else 0) = _
        rw [List.all_append, hrest]
        have hsing : ([e2] : List String).all
            (fun x => updF ι e2 v x == updF ι e2 v h0) = (v == ι h0) := by
          simp only [List.all_cons, List.all_nil, Bool.and_true]
          rw [hke2, hkh0]
        rw [hsing]
        by_cases hB : v = ι h0
        · have hb : (v == ι h0) = true := by simp [hB]
          rw [hb, if_pos hB]
          cases hA : rest.all (fun x => ι x == ι h0) <;> simp [hA]
        · have hb : (v == ι h0) = false := by simp [hB]
          rw [hb, if_neg hB]
          simp
      show eval dims env appF (updF ι e2 v) (Tensor.copy ((h0 :: rest) ++ [e2])) *
        (eval dims env appF (updF ι e2 v) (renameF (applyRen [(e, e2)]) t) * 1) = _
      rw [mul_one, hcopy, mul_assoc]
    rw [Finset.sum_congr rfl (fun v _ => h2 v)]
    rw [sum_pull2 hbound2]
    have heq : eval dims env appF (updF ι e2 (ι h0)) (renameF (applyRen [(e, e2)]) t) =
        eval dims env appF (updF ι e (ι h0)) t := by
      have hdimsOn : ∀ x ∈ namesOf t, dims (applyRen [(e, e2)] x) = dims x := by
        intro x hx
        rw [applyRen_single]
        by_cases hex : e = x
        · rw [if_pos hex, ← hex, hde2]
        · rw [if_neg hex]
      have h5 : eval dims env appF (updF ι e2 (ι h0)) (renameF (applyRen [(e, e2)]) t) =
          eval dims env appF (fun x => updF ι e2 (ι h0) (applyRen [(e, e2)] x)) t :=
        eval_renameF dims env appF (applyRen [(e, e2)]) t hwf henv hinj hdimsOn _ _
          (fun x _ => rfl)
      rw [h5]
      apply eval_free_congr dims env appF t hwf henv
      intro x hx
      rw [hfe, List.mem_singleton] at hx
      subst hx
      rw [applyRen_single, if_pos rfl]
      simp [updF]
    rw [heq]
    by_cases hA : rest.all (fun x => ι x == ι h0) = true
    · rw [if_pos hA, if_pos hA, one_mul]
    · rw [if_neg hA, if_neg hA, zero_mul]

/-- C9 as stated fails when `new_edges` repeats a name: for
`v = Variable("v", ["a"])`, `diag(v, ["a", "a"])` does not return a node
at all — the `Copy` node over `["a", "a", "a__"]` would carry a duplicate
free edge, so construction fails with `InvariantViolation` (spec section
3 invariant 1 and section 7) instead of returning a node with free edges
`["a", "a"]`. -/
theorem C9_diag_counterexample :
    functions.diag diagV ["a", "a"] = Except.error TgError.invariantViolation ∧
      ∀ l : List String, (functions.diag diagV ["a", "a"]).map freeEdges ≠ Except.ok l := by
  refine ⟨rfl, ?_⟩
  intro l h
  rw [show (functions.diag diagV ["a", "a"]).map freeEdges =
    Except.error TgError.invariantViolation from rfl] at h
  exact Except.noConfusion h

/-- Witness for C9: the error test at a two-edge matrix, the free-edge
part at `diag(v, ["c"])`, and the general evaluation part at
`diag(v, ["a", "b"])` with dimension 2, the constant binding 3 and the
zero index assignment. -/
theorem C9_diag_spec_witness :
    (functions.diag (Tensor.variable_ "m" ["i", "j"] ["i", "j"]) ["a"] =
        Except.error TgError.valueError ↔
      (freeEdges (Tensor.variable_ "m" ["i", "j"] ["i", "j"])).length ≠ 1) ∧
    (functions.diag diagV ["c"]).map freeEdges = Except.ok ["c"] ∧
    (functions.diag diagV ["a", "b"]).map
        (eval (fun _ => 2) (fun _ _ => 3) (fun _ v => v) (fun _ => 0)) =
      Except.ok (if (["b"] : List String).all
          (fun x => (fun (_ : String) => (0 : Nat)) x == (fun (_ : String) => (0 : Nat)) "a")
        then eval (fun _ => 2) (fun _ _ => 3) (fun _ v => v)
          (updF (fun _ => 0) "a" ((fun (_ : String) => (0 : Nat)) "a")) diagV else 0) :=
  ⟨C9_diag_spec.1 (Tensor.variable_ "m" ["i", "j"] ["i", "j"]) ["a"],
   C9_diag_spec.2.1 diagV ["c"] "a" rfl (by decide),
   C9_diag_spec.2.2 diagV "a" "a" ["b"] (fun _ => 2) (fun _ _ => 3) (fun _ v => v)
     (fun _ => 0) rfl (by decide) (by decide) (fun g g2 _ => rfl) (fun s k => rfl)
     (by show (0 : Nat) < 2; decide)⟩
